import Mathlib

/-!
# A verification model of APON.js (`lib/apon.js`)

Shallow embedding of the APON parser and serializer.  Strings are modelled as
`List Char`; the JavaScript number type is modelled by `JSNumber`, whose finite
values are exact rationals (IEEE-754 rounding of decimal literals is not
modelled; every claim about numbers below is restricted to values on which the
exact model and the double-precision implementation agree, in particular
integers of magnitude below `2^53`).  JavaScript objects are ordered
association lists (`List (Str × JSValue)`); prototype-chain subtleties (e.g.
assigning to `__proto__`) are not modelled.
-/

namespace Apon

abbrev Str := List Char

/-- JavaScript whitespace as used by `String.prototype.trim` and `\s`
    (restricted to the ASCII whitespace characters, which are the only ones the
    format's own tokens use). -/
def isJsWs (c : Char) : Bool :=
  c = ' ' ∨ c = '\t' ∨ c = '\n' ∨ c = '\r' ∨ c = '\x0b' ∨ c = '\x0c'

/-- `String.prototype.trim`. -/
def trimJS (s : Str) : Str := ((s.dropWhile isJsWs).reverse.dropWhile isJsWs).reverse

/-- `value.split('\n')` (single-character split; also the serializer's
    splitter, part_000 line 289).  Never returns `[]`. -/
def splitNL : Str → List Str
  | [] => [[]]
  | '\n' :: rest => [] :: splitNL rest
  | c :: rest =>
      match splitNL rest with
      | l :: ls => (c :: l) :: ls
      | [] => [[c]]

/-- `lines.join('\n')`. -/
def joinNL : List Str → Str
  | [] => []
  | [l] => l
  | l :: ls => l ++ '\n' :: joinNL ls

/-- Drop a single trailing `'\r'`. -/
def dropTrailCR (l : Str) : Str := if l.getLast? = some '\r' then l.dropLast else l

/-- `text.split(/\r?\n/)` (part_000 line 47): every `'\n'` ends a line and
    consumes one `'\r'` immediately before it.  Equivalently: split at `'\n'`,
    then strip one trailing `'\r'` from every piece except the last (a final
    `'\r'` not followed by `'\n'` is kept).  Never returns `[]`. -/
def splitLinesJS (t : Str) : List Str :=
  let ls := splitNL t
  ls.dropLast.map dropTrailCR ++ [ls.getLastD []]

/-- `String.prototype.indexOf` for a single character (`none` for JS `-1`). -/
def indexOfChar (s : Str) (c : Char) : Option Nat :=
  match s with
  | [] => none
  | x :: xs => if x = c then some 0 else (indexOfChar xs c).map (· + 1)

/-- Global replacement of the single character `c` by `repl`
    (`str.replace(/c/g, repl)`). -/
def replaceCharAll (c : Char) (repl : Str) : Str → Str
  | [] => []
  | x :: xs => (if x = c then repl else [x]) ++ replaceCharAll c repl xs

/-- Replacement of the first occurrence only (`str.replace(/c/, repl)`). -/
def replaceCharFirst (c : Char) (repl : Str) : Str → Str
  | [] => []
  | x :: xs => if x = c then repl ++ xs else x :: replaceCharFirst c repl xs

/-- Global, left-to-right, non-overlapping replacement of the two-character
    pattern `a b` by `repl` (`str.replace(/ab/g, repl)`). -/
def replacePair (a b : Char) (repl : Str) : Str → Str
  | x :: y :: rest =>
      if x = a ∧ y = b then repl ++ replacePair a b repl rest
      else x :: replacePair a b repl (y :: rest)
  | s => s

/-- ASCII `String.prototype.toLowerCase`. -/
def toLowerCaseJS (s : Str) : Str := s.map Char.toLower

/-! ## Numbers -/

/-- A JavaScript number.  Finite values are exact rationals (see the module
    comment). -/
inductive JSNumber
  | nan
  | posInf
  | negInf
  | num (q : ℚ)
deriving DecidableEq, Repr

def isDigitChar (c : Char) : Bool := '0' ≤ c && c ≤ '9'

def digitVal (c : Char) : Nat := c.toNat - '0'.toNat

/-- Maximal leading run of decimal digits, and the remainder. -/
def spanDigits : Str → Str × Str
  | [] => ([], [])
  | c :: cs =>
      if isDigitChar c then
        let (d, r) := spanDigits cs
        (c :: d, r)
      else ([], c :: cs)

def digitsToNat (ds : Str) : Nat := ds.foldl (fun a c => a * 10 + digitVal c) 0

def isHexDigitChar (c : Char) : Bool :=
  isDigitChar c || ('a' ≤ c && c ≤ 'f') || ('A' ≤ c && c ≤ 'F')

def hexDigitVal (c : Char) : Nat :=
  if isDigitChar c then digitVal c
  else if 'a' ≤ c && c ≤ 'f' then c.toNat - 'a'.toNat + 10
  else c.toNat - 'A'.toNat + 10

def hexToNat (ds : Str) : Nat := ds.foldl (fun a c => a * 16 + hexDigitVal c) 0

def isOctDigitChar (c : Char) : Bool := '0' ≤ c && c ≤ '7'

def octToNat (ds : Str) : Nat := ds.foldl (fun a c => a * 8 + digitVal c) 0

def isBinDigitChar (c : Char) : Bool := c = '0' ∨ c = '1'

def binToNat (ds : Str) : Nat := ds.foldl (fun a c => a * 2 + digitVal c) 0

/-- Exact value of `ip . fp × 10^ex` (decimal digit lists), built with `mkRat`
    so that it evaluates by kernel reduction. -/
def decQ (ip fp : Str) (ex : Int) : ℚ :=
  let N : Nat := digitsToNat ip * 10 ^ fp.length + digitsToNat fp
  if 0 ≤ ex then mkRat ((N * 10 ^ ex.toNat : Nat) : Int) (10 ^ fp.length)
  else mkRat (N : Int) (10 ^ fp.length * 10 ^ (-ex).toNat)

/-- ECMA `StrExponentPart?` covering the whole remaining string: `some ex` if
    the remainder is empty or a complete exponent part, else `none`. -/
def expValue? : Str → Option Int
  | [] => some 0
  | e :: r =>
      if e = 'e' ∨ e = 'E' then
        let (sgn, r1) : Int × Str :=
          if r.head? = some '+' then (1, r.drop 1)
          else if r.head? = some '-' then (-1, r.drop 1)
          else (1, r)
        let (ds, r2) := spanDigits r1
        if ds ≠ [] ∧ r2 = [] then some (sgn * (digitsToNat ds : Int)) else none
      else none

/-- ECMA `StrUnsignedDecimalLiteral` covering the whole string:
    `Infinity`, `digits ['.' digits*] exp?`, or `'.' digits exp?`. -/
def unsignedDecValue? (s : Str) : Option JSNumber :=
  if s = "Infinity".data then some .posInf
  else
    let (ip, r1) := spanDigits s
    if r1.head? = some '.' then
      let (fp, r2) := spanDigits (r1.drop 1)
      if ip = [] ∧ fp = [] then none
      else (expValue? r2).map (fun ex => .num (decQ ip fp ex))
    else
      if ip = [] then none
      else (expValue? r1).map (fun ex => .num (decQ ip [] ex))

/-- Signed decimal part of `StringToNumber`. -/
def signedDecNumber (t : Str) : JSNumber :=
  if t.head? = some '+' then (unsignedDecValue? (t.drop 1)).getD .nan
  else if t.head? = some '-' then
    match unsignedDecValue? (t.drop 1) with
    | some .posInf => .negInf
    | some (.num q) => .num (Rat.neg q)
    | _ => .nan
  else (unsignedDecValue? t).getD .nan

/-- ECMA `StringToNumber` — the coercion behind `Number(value)` and
    `isNaN(value)`: trim, empty ⇒ `0`, `0x`/`0o`/`0b` radix literals (unsigned),
    else a signed decimal literal or `Infinity`; anything else is `NaN`. -/
def jsToNumber (s : Str) : JSNumber :=
  let t := trimJS s
  if t = [] then .num 0
  else if t.head? = some '0' ∧ ((t.drop 1).head? = some 'x' ∨ (t.drop 1).head? = some 'X') then
    (let rest := t.drop 2
     if rest ≠ [] ∧ rest.all isHexDigitChar then .num (mkRat (hexToNat rest) 1) else .nan)
  else if t.head? = some '0' ∧ ((t.drop 1).head? = some 'o' ∨ (t.drop 1).head? = some 'O') then
    (let rest := t.drop 2
     if rest ≠ [] ∧ rest.all isOctDigitChar then .num (mkRat (octToNat rest) 1) else .nan)
  else if t.head? = some '0' ∧ ((t.drop 1).head? = some 'b' ∨ (t.drop 1).head? = some 'B') then
    (let rest := t.drop 2
     if rest ≠ [] ∧ rest.all isBinDigitChar then .num (mkRat (binToNat rest) 1) else .nan)
  else signedDecNumber t

/-- `isNaN(s)` for a string argument. -/
def isNaNofStr (s : Str) : Bool := jsToNumber s = .nan

/-- `parseInt(s, 10)`: skip leading whitespace, optional sign, then the maximal
    run of decimal digits; `NaN` if that run is empty.  Exact-valued. -/
def parseIntJS10 (s : Str) : JSNumber :=
  let t := s.dropWhile isJsWs
  let (sgn, t1) : Int × Str :=
    if t.head? = some '+' then (1, t.drop 1)
    else if t.head? = some '-' then (-1, t.drop 1)
    else (1, t)
  let (ds, _) := spanDigits t1
  if ds = [] then .nan else .num (mkRat (sgn * (digitsToNat ds : Int)) 1)

/-- `parseFloat(s)`: skip leading whitespace, then the longest prefix forming a
    `StrDecimalLiteral` (sign, digits, optional fraction, optional complete
    exponent, or `Infinity`); `NaN` if there is none.  Exact-valued. -/
def parseFloatJS (s : Str) : JSNumber :=
  let t := s.dropWhile isJsWs
  let (neg, t1) : Bool × Str :=
    if t.head? = some '+' then (false, t.drop 1)
    else if t.head? = some '-' then (true, t.drop 1)
    else (false, t)
  if "Infinity".data.isPrefixOf t1 then (if neg then .negInf else .posInf)
  else
    let (ip, r1) := spanDigits t1
    let (fp, r2) : Str × Str :=
      if r1.head? = some '.' then spanDigits (r1.drop 1) else ([], r1)
    if ip = [] ∧ fp = [] then .nan
    else
      let ex : Int :=
        match r2 with
        | e :: r3 =>
            if e = 'e' ∨ e = 'E' then
              let (sg, r4) : Int × Str :=
                if r3.head? = some '+' then (1, r3.drop 1)
                else if r3.head? = some '-' then (-1, r3.drop 1)
                else (1, r3)
              let (ds, _) := spanDigits r4
              if ds = [] then 0 else sg * (digitsToNat ds : Int)
            else 0
        | [] => 0
      let q := decQ ip fp ex
      .num (if neg then Rat.neg q else q)

/-! ### Printing numbers (`String(number)`) -/

/-- The digit character for `d < 10`. -/
def digitChar (d : Nat) : Char := Char.ofNat ('0'.toNat + d % 10)

/-- Decimal digit characters of `n`, most significant first (fuel-structural so
    it evaluates by kernel reduction; `fuel` bounds the digit count). -/
def natDigitCharsAux : Nat → Nat → Str
  | 0, _ => []
  | fuel + 1, n =>
      if n < 10 then [digitChar n]
      else natDigitCharsAux fuel (n / 10) ++ [digitChar (n % 10)]

def natDigitChars (n : Nat) : Str := natDigitCharsAux (n + 1) n

/-- Least `e` below the fuel bound with `den ∣ 10^e` (the decimal exponent
    needed to clear the denominator). -/
def findDecExpFrom (den : Nat) (e : Nat) : Nat → Option Nat
  | 0 => none
  | fuel + 1 =>
      if 10 ^ e % den = 0 then some e else findDecExpFrom den (e + 1) fuel

def findDecExp (den : Nat) : Option Nat := findDecExpFrom den 0 1200

/-- Factor `m = s * 10^v` with `10 ∤ s` (for `m > 0`); fuel-structural. -/
def strip10Aux : Nat → Nat → Nat × Nat
  | 0, m => (m, 0)
  | fuel + 1, m =>
      if m % 10 = 0 ∧ m ≠ 0 then
        let (s, v) := strip10Aux fuel (m / 10)
        (s, v + 1)
      else (m, 0)

def strip10 (m : Nat) : Nat × Nat := strip10Aux m m

/-- ECMA Number-to-string digit layout: digits `ds` with the decimal point at
    position `n` (the value is `0.ds × 10^n`). -/
def formatDigits (ds : Str) (n : Int) : Str :=
  let k : Int := ds.length
  if k ≤ n ∧ n ≤ 21 then ds ++ List.replicate (n - k).toNat '0'
  else if 0 < n ∧ n ≤ 21 then ds.take n.toNat ++ '.' :: ds.drop n.toNat
  else if -6 < n ∧ n ≤ 0 then '0' :: '.' :: List.replicate (-n).toNat '0' ++ ds
  else
    (ds.take 1) ++ (if ds.length = 1 then [] else '.' :: ds.drop 1) ++
      ['e'] ++ (if 1 ≤ n then ['+'] else ['-']) ++ natDigitChars (n - 1).natAbs

/-- `String(number)` (ECMA `Number::toString`, radix 10) on the exact-rational
    model: the shortest exact decimal expansion, positioned per the standard
    rule.  Agrees with JS whenever the rational is the exact value of the
    printed double (true of every value this model's parser produces). -/
def jsNumToString : JSNumber → Str
  | .nan => "NaN".data
  | .posInf => "Infinity".data
  | .negInf => "-Infinity".data
  | .num q =>
      if q.num = 0 then ['0']
      else
        let sgn : Str := if q.num < 0 then ['-'] else []
        match findDecExp q.den with
        | none => sgn ++ ['?']
        | some e =>
            let m := q.num.natAbs * 10 ^ e / q.den
            let (s, v) := strip10 m
            let ds := natDigitChars s
            sgn ++ formatDigits ds ((ds.length : Int) + (v : Int) - (e : Int))

/-! ## The value tree -/

/-- A JavaScript value as produced/consumed by `APON.parse`/`APON.stringify`:
    `null`, booleans, numbers, strings, arrays (Sequence), and plain objects
    (Mapping, an ordered association list of own enumerable properties). -/
inductive JSValue
  | null
  | bool (b : Bool)
  | num (n : JSNumber)
  | str (s : Str)
  | arr (elems : List JSValue)
  | obj (entries : List (Str × JSValue))

mutual

/-- Structural equality on value trees (the `==`/`toEqual` notion the spec's
    round-trip property refers to). -/
def JSValue.beq : JSValue → JSValue → Bool
  | .null, .null => true
  | .bool a, .bool b => a = b
  | .num a, .num b => a = b
  | .str a, .str b => a = b
  | .arr a, .arr b => JSValue.beqList a b
  | .obj a, .obj b => JSValue.beqEntries a b
  | _, _ => false

def JSValue.beqList : List JSValue → List JSValue → Bool
  | [], [] => true
  | a :: as, b :: bs => JSValue.beq a b && JSValue.beqList as bs
  | _, _ => false

def JSValue.beqEntries : List (Str × JSValue) → List (Str × JSValue) → Bool
  | [], [] => true
  | (k, v) :: as, (k', v') :: bs =>
      decide (k = k') && JSValue.beq v v' && JSValue.beqEntries as bs
  | _, _ => false

end

mutual

theorem JSValue.beq_iff : ∀ a b : JSValue, JSValue.beq a b = true ↔ a = b
  | .null, b => by cases b <;> simp [JSValue.beq]
  | .bool x, b => by cases b <;> simp [JSValue.beq]
  | .num x, b => by cases b <;> simp [JSValue.beq]
  | .str x, b => by cases b <;> simp [JSValue.beq]
  | .arr xs, b => by
      cases b <;> simp [JSValue.beq]
      exact JSValue.beqList_iff xs _
  | .obj xs, b => by
      cases b <;> simp [JSValue.beq]
      exact JSValue.beqEntries_iff xs _
  termination_by a => sizeOf a

theorem JSValue.beqList_iff : ∀ a b : List JSValue, JSValue.beqList a b = true ↔ a = b
  | [], b => by cases b <;> simp [JSValue.beqList]
  | x :: xs, b => by
      cases b with
      | nil => simp [JSValue.beqList]
      | cons y ys =>
          simp [JSValue.beqList, JSValue.beq_iff x y, JSValue.beqList_iff xs ys]
  termination_by a => sizeOf a

theorem JSValue.beqEntries_iff :
    ∀ a b : List (Str × JSValue), JSValue.beqEntries a b = true ↔ a = b
  | [], b => by cases b <;> simp [JSValue.beqEntries]
  | (k, v) :: xs, b => by
      cases b with
      | nil => simp [JSValue.beqEntries]
      | cons y ys =>
          obtain ⟨k', v'⟩ := y
          simp [JSValue.beqEntries, JSValue.beq_iff v v', JSValue.beqEntries_iff xs ys,
            and_assoc]
  termination_by a => sizeOf a

end

instance : DecidableEq JSValue := fun a b =>
  decidable_of_iff (JSValue.beq a b = true) (JSValue.beq_iff a b)

instance : Nonempty JSValue := ⟨.null⟩

instance : Nonempty JSNumber := ⟨.nan⟩

instance {ε α : Type} [DecidableEq ε] [DecidableEq α] : DecidableEq (Except ε α) := fun a b =>
  match a, b with
  | .ok x, .ok y => decidable_of_iff (x = y) (by simp)
  | .error e, .error f => decidable_of_iff (e = f) (by simp)
  | .ok _, .error _ => isFalse (by simp)
  | .error _, .ok _ => isFalse (by simp)

/-! ## Scalar grammar (source part_000 lines 50–103) -/

/-- source `castValue` (lines 50–71).  At every call site `value` is a string,
    so the `typeof value === 'string'` test in the `boolean` case is true and
    `String(value)` is `value` itself. -/
def castValue (value : Str) (typeHint : Str) : JSValue :=
  if typeHint = "string".data then .str value
  else if typeHint = "number".data ∨ typeHint = "int".data ∨ typeHint = "long".data ∨
      typeHint = "float".data ∨ typeHint = "double".data then
    if value = [] ∨ isNaNofStr value then .str value
    else .num (jsToNumber value)
  else if typeHint = "boolean".data then .bool (toLowerCaseJS value = "true".data)
  else .str value

/-- source `unescapeString` (lines 100–103).  The first two replacements —
    `.replace(/\"/g, '"')` and `.replace(/\'/, "'")` — replace a quote
    character with itself (the backslash in the regex source merely escapes the
    quote), so backslash-quote sequences are left untouched; only `\n`, `\t`
    and `\\` are really rewritten, in that order. -/
def unescapeString (s : Str) : Str :=
  replacePair '\\' '\\' ['\\']
    (replacePair '\\' 't' ['\t']
      (replacePair '\\' 'n' ['\n']
        (replaceCharFirst '\'' ['\'']
          (replaceCharAll '"' ['"'] s))))

/-- `value.startsWith(q) && value.endsWith(q)` for a single character `q`. -/
def quoteWrapped (v : Str) (q : Char) : Bool := v.head? = some q ∧ v.getLast? = some q

/-- source `value.substring(1, value.length - 1)`.  JS `substring` swaps its
    bounds when start exceeds end, so on a single-character string this yields
    that same character (and `[]` stays `[]`). -/
def substring1ToLast (v : Str) : Str :=
  if v.length ≤ 1 then v.take 1 else (v.drop 1).dropLast

/-- JS truthiness of the `typeHint` variable: `null` (here `none`) and the
    empty string are falsy. -/
def truthyHint : Option Str → Bool
  | none => false
  | some s => s ≠ []

/-- source `parseValue` (lines 73–98). -/
def parseValue (value0 : Str) (typeHint : Option Str) : JSValue :=
  let value := trimJS value0
  if quoteWrapped value '"' ∨ quoteWrapped value '\'' then
    let unescaped := unescapeString (substring1ToLast value)
    if truthyHint typeHint then castValue unescaped (typeHint.getD [])
    else .str unescaped
  else if truthyHint typeHint then castValue value (typeHint.getD [])
  else if value = "null".data then .null
  else if value = "true".data then .bool true
  else if value = "false".data then .bool false
  else if ¬ isNaNofStr value ∧ trimJS value ≠ [] then
    if value.contains '.' then .num (parseFloatJS value)
    else .num (parseIntJS10 value)
  else .str value

/-! ## Parse errors -/

/-- The errors `APON.parse` throws (as `Error` with a message, reproduced by
    `PErr.message`).  `outOfFuel` is a modelling artifact for the recursion
    bound; the top-level parser supplies enough fuel for it never to occur. -/
inductive PErr
  | missingSeparator (line : Nat)
  | unexpectedClosing (which : Str) (line : Nat)
  | unclosedBlock (endChar : Str)
  | trailingContent (which : Char) (line : Nat)
  | outOfFuel
deriving DecidableEq, Repr

/-- The exact message strings thrown by the source (lines 122, 139, 182,
    220, 231).  Note `unclosedBlock`'s message mentions no line number. -/
def PErr.message : PErr → Str
  | .missingSeparator n =>
      "Invalid APON format: Missing name-value separator \":\" at line ".data ++
        natDigitChars n
  | .unexpectedClosing w n =>
      "Invalid APON format: Unexpected closing brace \"".data ++ w ++
        "\" at top level on line ".data ++ natDigitChars n
  | .unclosedBlock e =>
      "Invalid APON format: Unclosed block, missing \"".data ++ e ++ "\"".data
  | .trailingContent c n =>
      if c = '}' then
        "Invalid APON format: Unexpected content after closing brace \"\x7d\" at line ".data ++
          natDigitChars n
      else
        "Invalid APON format: Unexpected content after closing bracket \"]\" at line ".data ++
          natDigitChars n
  | .outOfFuel => "out of fuel (modelling artifact)".data

/-! ## The parser (source part_000 lines 105–239) -/

/-- JS property assignment `obj[name] = v`: overwrite the value in place if the
    key already exists (its position is kept), else append. -/
def setKey (acc : List (Str × JSValue)) (k : Str) (v : JSValue) :
    List (Str × JSValue) :=
  if acc.any (fun p => p.1 = k) then
    acc.map (fun p => if p.1 = k then (k, v) else p)
  else acc ++ [(k, v)]

/-- `textLine.substring(textLine.indexOf('|') + 1)`: everything after the first
    `'|'` (the whole line if there is none, since `-1 + 1 = 0`). -/
def afterFirstBar (l : Str) : Str :=
  match indexOfChar l '|' with
  | some idx => l.drop (idx + 1)
  | none => l

/-- Text-block consumption (source lines 157–174): consume raw lines until one
    trims to `")"`; a consumed line whose trimmed form starts with `'|'`
    contributes everything after its first `'|'`, other lines contribute
    nothing.  Reaching end of input is not an error. -/
def textBlock : List Str → Nat → Str → Bool → (Str × List Str × Nat)
  | [], i, text, _ => (text, [], i)
  | l :: rest, i, text, isFirst =>
      let t := trimJS l
      if t = [')'] then (text, rest, i + 1)
      else if t.head? = some '|' then
        textBlock rest (i + 1) (text ++ (if isFirst then [] else ['\n']) ++ afterFirstBar l) false
      else textBlock rest (i + 1) text isFirst

/-- Hint extraction from a mapping-entry name (source lines 145–150):
    `name(hint)` with the `'('` at a positive index and `')'` last strips the
    suffix and lower-cases the hint; otherwise the hint is `none` (JS `null`). -/
def splitHint (name0 : Str) : Str × Option Str :=
  match indexOfChar name0 '(' with
  | some ti =>
      if 0 < ti ∧ name0.getLast? = some ')' then
        (name0.take ti, some (toLowerCaseJS ((name0.drop (ti + 1)).dropLast)))
      else (name0, none)
  | none => (name0, none)

mutual

/-- Body loop of source `parseObject` (lines 105–186) when building a Mapping
    (`endChar` is JS `null` or `"\x7d"`; the source picks `{}` because
    `endChar !== ']'`).  `ls` is the unread suffix of `lines`, `i` the source
    cursor (count of lines already consumed), `acc` the object built so far.
    One unit of `fuel` is spent per consumed line. -/
def mapLoop : Nat → Option Char → List (Str × JSValue) → List Str → Nat →
    Except PErr (JSValue × List Str × Nat)
  | 0, _, _, _, _ => .error .outOfFuel
  | _ + 1, endc, acc, [], i =>
      match endc with
      | some c => .error (.unclosedBlock [c])
      | none => .ok (.obj acc, [], i)
  | fuel + 1, endc, acc, l :: rest, i =>
      let line := trimJS l
      if line = [] ∨ line.head? = some '#' then mapLoop fuel endc acc rest (i + 1)
      else if endc.any (fun c => line = [c]) then .ok (.obj acc, rest, i + 1)
      else if endc = none ∧ (line = ['}'] ∨ line = [']']) then
        .error (.unexpectedClosing line (i + 1))
      else
        match indexOfChar line ':' with
        | none => .error (.missingSeparator (i + 1))
        | some sep =>
            let value := trimJS (line.drop (sep + 1))
            let (name, typeHint) := splitHint (trimJS (line.take sep))
            if value = ['{'] then
              match mapLoop fuel (some '}') [] rest (i + 1) with
              | .ok (v, rest', i') => mapLoop fuel endc (setKey acc name v) rest' i'
              | .error e => .error e
            else if value = ['['] then
              match arrLoop fuel [] rest (i + 1) with
              | .ok (v, rest', i') => mapLoop fuel endc (setKey acc name v) rest' i'
              | .error e => .error e
            else if value.head? = some '(' then
              match textBlock rest (i + 1) [] true with
              | (text, rest', i') => mapLoop fuel endc (setKey acc name (.str text)) rest' i'
            else mapLoop fuel endc (setKey acc name (parseValue value typeHint)) rest (i + 1)

/-- Body loop of source `parseObject` when building a Sequence
    (`endChar === ']'`).  The stray-delimiter check (lines 120–124) requires
    `endChar === null` and so never fires here; the name/value code below the
    `Array.isArray` branch is skipped by the `continue`. -/
def arrLoop : Nat → List JSValue → List Str → Nat →
    Except PErr (JSValue × List Str × Nat)
  | 0, _, _, _ => .error .outOfFuel
  | _ + 1, _, [], _ => .error (.unclosedBlock [']'])
  | fuel + 1, acc, l :: rest, i =>
      let line := trimJS l
      if line = [] ∨ line.head? = some '#' then arrLoop fuel acc rest (i + 1)
      else if line = [']'] then .ok (.arr acc, rest, i + 1)
      else if line = ['{'] then
        match mapLoop fuel (some '}') [] rest (i + 1) with
        | .ok (v, rest', i') => arrLoop fuel (acc ++ [v]) rest' i'
        | .error e => .error e
      else if line = ['['] then
        match arrLoop fuel [] rest (i + 1) with
        | .ok (v, rest', i') => arrLoop fuel (acc ++ [v]) rest' i'
        | .error e => .error e
      else arrLoop fuel (acc ++ [parseValue line none]) rest (i + 1)

end

/-- Scan for the first non-blank, non-comment line (source lines 188–197),
    returning its trimmed form and its 0-based index. -/
def firstSignificantAux : List Str → Nat → Option (Str × Nat)
  | [], _ => none
  | l :: rest, j =>
      let t := trimJS l
      if t ≠ [] ∧ t.head? ≠ some '#' then some (t, j)
      else firstSignificantAux rest (j + 1)

/-- The trailing-content scan after a closed root container (source lines
    217–223 / 228–234): the 0-based index of the first non-blank, non-comment
    leftover line. -/
def trailingCheck : List Str → Nat → Option Nat
  | [], _ => none
  | l :: rest, idx =>
      let t := trimJS l
      if t ≠ [] ∧ t.head? ≠ some '#' then some idx
      else trailingCheck rest (idx + 1)

/-- source `APON.parse` (lines 42–239) on a string input. -/
def APON_parse (text : Str) : Except PErr JSValue :=
  if trimJS text = [] then .ok (.obj [])
  else
    let lines := splitLinesJS text
    let fuel := lines.length + 1
    match firstSignificantAux lines 0 with
    | none => if trimJS text = "[]".data then .ok (.arr []) else .ok (.obj [])
    | some (firstLine, idx) =>
        if firstLine = "\x7b\x7d".data then .ok (.obj [])
        else if firstLine = "[]".data then .ok (.arr [])
        else if firstLine = ['{'] then
          match mapLoop fuel (some '}') [] (lines.drop (idx + 1)) (idx + 1) with
          | .ok (v, rest, i') =>
              match trailingCheck rest i' with
              | some badIdx => .error (.trailingContent '}' (badIdx + 1))
              | none => .ok v
          | .error e => .error e
        else if firstLine = ['['] then
          match arrLoop fuel [] (lines.drop (idx + 1)) (idx + 1) with
          | .ok (v, rest, i') =>
              match trailingCheck rest i' with
              | some badIdx => .error (.trailingContent ']' (badIdx + 1))
              | none => .ok v
          | .error e => .error e
        else (mapLoop fuel none [] lines 0).map (fun r => r.1)

/-- source `APON.parse` including the non-string-input guard
    (`typeof text !== 'string'`, modelled as `none`). -/
def APON_parseAny : Option Str → Except PErr JSValue
  | none => .ok (.obj [])
  | some t => APON_parse t

/-! ## The serializer (source part_000 lines 248–335) -/

/-- source `needsQuotes` (lines 260–279). -/
def needsQuotes (s : Str) : Bool :=
  s.length = 0 ∨ trimJS s ≠ s ∨
  s.any (fun c => c ∈ ['{', '}', ':', '#', '"', '\'', '\\', '[', ']']) ∨
  (s.dropWhile isJsWs).head? = some '(' ∨
  s = "null".data ∨ s = "true".data ∨ s = "false".data ∨
  (¬ isNaNofStr s ∧ trimJS s ≠ [])

/-- source `escapeString` (lines 281–283).  The middle replacement,
    `.replace(/"/g, '\"')`, has replacement string `'\"'` which is just `'"'`:
    double quotes are left unescaped.  Backslashes are doubled first, then
    newlines become `\n`. -/
def escapeString (s : Str) : Str :=
  replaceCharAll '\n' ['\\', 'n']
    (replaceCharAll '"' ['"']
      (replaceCharAll '\\' ['\\', '\\'] s))

mutual

/-- source `stringifyValue` (lines 285–300).  `IS` is the resolved
    `indentString`.  A multi-line string renders as a text block; a single-line
    string is quoted iff `needsQuotes`; containers go to the `stringifyObject`
    cases; `null`, booleans and numbers render via their `String(...)` form. -/
def stringifyValue (IS : Str) : JSValue → Str → Str
  | .null, _ => "null".data
  | .str s, indent =>
      if s.contains '\n' then
        '(' :: '\n' ::
          (joinNL ((splitNL s).map (fun line => indent ++ IS ++ '|' :: line)) ++
            '\n' :: (indent ++ [')']))
      else if needsQuotes s then '"' :: (escapeString s ++ ['"']) else s
  | .arr es, indent =>
      if es = [] then "[]".data
      else
        '[' :: '\n' ::
          (joinNL (stringifyItems IS es (indent ++ IS)) ++ '\n' :: (indent ++ [']']))
  | .obj ps, indent =>
      if ps = [] then "\x7b\x7d".data
      else
        '{' :: '\n' ::
          (joinNL (stringifyEntries IS ps (indent ++ IS)) ++ '\n' :: (indent ++ ['}']))
  | .bool b, _ => if b then "true".data else "false".data
  | .num n, _ => jsNumToString n

/-- The mapped item strings of source line 306 (`newIndent + stringifyValue`). -/
def stringifyItems (IS : Str) : List JSValue → Str → List Str
  | [], _ => []
  | v :: vs, newIndent =>
      (newIndent ++ stringifyValue IS v newIndent) :: stringifyItems IS vs newIndent

/-- The mapped entry strings of source line 315 (`newIndent + key + ': ' + ...`).
    The model's trees have no `undefined` values, so the `filter` is vacuous. -/
def stringifyEntries (IS : Str) : List (Str × JSValue) → Str → List Str
  | [], _ => []
  | (k, v) :: ps, newIndent =>
      (newIndent ++ k ++ ':' :: ' ' :: stringifyValue IS v newIndent) ::
        stringifyEntries IS ps newIndent

end

/-- The root-mapping rendering (source lines 325–333): one `key: value` line
    per entry, joined with newlines, without the `{`/`}` wrapper. -/
def rootEntries (IS : Str) : List (Str × JSValue) → List Str
  | [] => []
  | (k, v) :: ps => (k ++ ':' :: ' ' :: stringifyValue IS v []) :: rootEntries IS ps

/-- The document rendered by `APON.stringify` for a container root (total; the
    top-level type check lives in `APON_stringify`). -/
def stringifyDoc (IS : Str) : JSValue → Str
  | .obj ps => joinNL (rootEntries IS ps)
  | v => stringifyValue IS v []

/-- Resolution of the `options` argument (source lines 253–258): a number means
    that many spaces, an options record supplies `indent`, anything else gives
    the two-space default. -/
def resolveIndent : Option (Nat ⊕ Str) → Str
  | some (.inl n) => List.replicate n ' '
  | some (.inr s) => s
  | none => "  ".data

/-- source `APON.stringify` (lines 248–335) with a resolved indent string:
    the top-level input must be an object or an array
    (`typeof obj !== 'object' || obj === null` throws), then the root is
    rendered — arrays via `stringifyObject`, objects as unwrapped
    `key: value` lines. -/
def stringifyWith (IS : Str) : JSValue → Except Str Str
  | .null => .error "APON.stringify input must be an object or an array.".data
  | .bool _ => .error "APON.stringify input must be an object or an array.".data
  | .num _ => .error "APON.stringify input must be an object or an array.".data
  | .str _ => .error "APON.stringify input must be an object or an array.".data
  | .arr es => .ok (stringifyDoc IS (.arr es))
  | .obj ps => .ok (stringifyDoc IS (.obj ps))

/-- `APON.stringify` with the default options (indent `"  "`). -/
def APON_stringify (v : JSValue) : Except Str Str := stringifyWith "  ".data v

/-! ## Basic lemmas about the string primitives -/

theorem dropWhile_eq_self_of_head {p : Char → Bool} {s : Str}
    (h : ∀ c, s.head? = some c → p c = false) : s.dropWhile p = s := by
  cases s with
  | nil => rfl
  | cons c t => simp [List.dropWhile, h c rfl]

theorem trimJS_eq_self {s : Str}
    (h1 : ∀ c, s.head? = some c → isJsWs c = false)
    (h2 : ∀ c, s.getLast? = some c → isJsWs c = false) : trimJS s = s := by
  unfold trimJS
  rw [dropWhile_eq_self_of_head h1, dropWhile_eq_self_of_head, List.reverse_reverse]
  intro c hc
  exact h2 c (by rwa [List.head?_reverse] at hc)

theorem trimJS_ws_append {w s : Str} (hw : ∀ c ∈ w, isJsWs c = true) :
    trimJS (w ++ s) = trimJS s := by
  unfold trimJS
  congr 2
  induction w with
  | nil => simp
  | cons c t ih => simp_all [List.dropWhile]

theorem trimJS_allWs {s : Str} (h : ∀ c ∈ s, isJsWs c = true) : trimJS s = [] := by
  have := trimJS_ws_append (s := []) h
  simpa using this

theorem trimJS_nil_allWs {s : Str} (h : trimJS s = []) : ∀ x ∈ s, isJsWs x = true := by
  unfold trimJS at h
  rw [List.reverse_eq_nil_iff, List.dropWhile_eq_nil_iff] at h
  intro x hx
  rcases List.mem_append.mp
      ((List.takeWhile_append_dropWhile (p := isJsWs) (l := s)) ▸ hx) with hm | hm
  · exact List.mem_takeWhile_imp hm
  · exact h x (by simpa using hm)

theorem trimJS_ne_nil {s : Str} {c : Char} (hc : c ∈ s) (hw : isJsWs c = false) :
    trimJS s ≠ [] := by
  intro h
  rw [trimJS_nil_allWs h c hc] at hw
  exact absurd hw (by simp)

theorem splitNL_cons {c : Char} (rest : Str) (h : c ≠ '\n') :
    splitNL (c :: rest) =
      match splitNL rest with
      | l :: ls => (c :: l) :: ls
      | [] => [[c]] := by
  rw [splitNL.eq_def]
  split
  next heq => exact absurd heq (by simp)
  next heq =>
      injection heq with h1 _
      exact absurd h1 h
  next heq =>
      injection heq with h1 h2
      subst h1
      subst h2
      rfl

theorem splitNL_ne_nil (t : Str) : splitNL t ≠ [] := by
  rw [splitNL.eq_def]
  split
  next => simp
  next => simp
  next => split <;> simp

theorem splitNL_chars : ∀ t : Str, ∀ l ∈ splitNL t, ∀ c ∈ l, c ∈ t := by
  intro t
  induction t with
  | nil =>
      intro l hl c hc
      simp [splitNL] at hl
      subst hl
      simp at hc
  | cons c0 rest ih =>
      intro l hl c hc
      by_cases h0 : c0 = '\n'
      · subst h0
        simp only [splitNL] at hl
        rcases List.mem_cons.mp hl with rfl | hl
        · simp at hc
        · exact List.mem_cons_of_mem _ (ih l hl c hc)
      · rw [splitNL_cons rest h0] at hl
        cases hsp : splitNL rest with
        | nil => exact absurd hsp (splitNL_ne_nil rest)
        | cons l0 ls0 =>
            rw [hsp] at hl
            simp only at hl
            rcases List.mem_cons.mp hl with rfl | hl
            · rcases List.mem_cons.mp hc with rfl | hc
              · exact List.mem_cons_self _ _
              · exact List.mem_cons_of_mem _
                  (ih l0 (by rw [hsp]; exact List.mem_cons_self _ _) c hc)
            · exact List.mem_cons_of_mem _
                (ih l (by rw [hsp]; exact List.mem_cons_of_mem _ hl) c hc)

theorem dropTrailCR_chars {l : Str} {c : Char} (hc : c ∈ dropTrailCR l) : c ∈ l := by
  unfold dropTrailCR at hc
  split at hc
  · exact List.dropLast_subset _ hc
  · exact hc

theorem splitLinesJS_chars {t : Str} {l : Str} (hl : l ∈ splitLinesJS t) :
    ∀ c ∈ l, c ∈ t := by
  intro c hc
  unfold splitLinesJS at hl
  rcases List.mem_append.mp hl with hm | hm
  · obtain ⟨l0, hl0, rfl⟩ := List.mem_map.mp hm
    exact splitNL_chars t l0 (List.dropLast_subset _ hl0) c (dropTrailCR_chars hc)
  · simp only [List.mem_singleton] at hm
    subst hm
    rcases List.mem_cons.mp (List.getLastD_mem_cons (splitNL t) []) with hnil | hmem
    · rw [hnil] at hc
      simp at hc
    · exact splitNL_chars t _ hmem c hc

theorem firstSignificantAux_some {ls : List Str} {j : Nat} {t : Str} {idx : Nat}
    (h : firstSignificantAux ls j = some (t, idx)) : ∃ l ∈ ls, trimJS l = t ∧ t ≠ [] := by
  induction ls generalizing j with
  | nil => simp [firstSignificantAux] at h
  | cons l rest ih =>
      simp only [firstSignificantAux] at h
      split at h
      · next hcond =>
          obtain ⟨rfl, rfl⟩ : trimJS l = t ∧ j = idx := by simpa using h
          exact ⟨l, List.mem_cons_self _ _, rfl, hcond.1⟩
      · obtain ⟨l', hl', ht⟩ := ih h
        exact ⟨l', List.mem_cons_of_mem _ hl', ht⟩

/-! ## Claims -/

/-- `true` exactly on Mapping and Sequence roots. -/
def JSValue.isContainer : JSValue → Bool
  | .arr _ => true
  | .obj _ => true
  | _ => false

/-- **C8**: `stringify` raises its `TypeError` exactly when the top-level value
    is not a Mapping or a Sequence: `null`, booleans, numbers and strings are
    rejected, a Sequence root is accepted, and every Mapping- or
    Sequence-rooted tree renders without error (the rendering functions are
    total, so `stringify` succeeds on every container root). -/
theorem stringify_top_type_check (v : JSValue) :
    (APON_stringify v).isOk = v.isContainer := by
  cases v <;> rfl

/-- **C3 counterexample**: the scalar token `"\""` (a two-character escape
    `\"` wrapped in double quotes) does *not* unescape to a lone `"`; the
    parser returns the interior `\"` unchanged, because the source's
    `.replace(/\"/g, '"')` replaces a quote with itself. -/
theorem quoted_escape_cex :
    parseValue ['"', '\\', '"', '"'] none = .str ['\\', '"'] ∧
    parseValue ['"', '\\', '"', '"'] none ≠ .str ['"'] := by decide

/-- **C3 (amended)**: a scalar token wrapped in a matching pair of double or
    single quotes parses to the interior transformed by `unescapeString`,
    which rewrites (in this order, globally, left to right) `\n` to a newline,
    `\t` to a tab, and `\\` to a single backslash — while `\"` and `\'` are
    left unchanged. -/
theorem quoted_scalar_unescapes :
    (∀ (q : Char) (mid : Str), (q = '"' ∨ q = '\'') →
        parseValue (q :: (mid ++ [q])) none = .str (unescapeString mid)) ∧
    unescapeString ['\\', 'n'] = ['\n'] ∧
    unescapeString ['\\', 't'] = ['\t'] ∧
    unescapeString ['\\', '\\'] = ['\\'] ∧
    unescapeString ['\\', '"'] = ['\\', '"'] ∧
    unescapeString ['\\', '\''] = ['\\', '\''] := by
  refine ⟨?_, by decide, by decide, by decide, by decide, by decide⟩
  intro q mid hq
  have hqws : isJsWs q = false := by rcases hq with rfl | rfl <;> decide
  have htrim : trimJS (q :: (mid ++ [q])) = q :: (mid ++ [q]) := by
    refine trimJS_eq_self (fun c hc => ?_) (fun c hc => ?_)
    · simp at hc; subst hc; exact hqws
    · rw [List.getLast?_cons, List.getLast?_append] at hc
      simp at hc; subst hc; exact hqws
  have hwrap : quoteWrapped (q :: (mid ++ [q])) '"' ∨ quoteWrapped (q :: (mid ++ [q])) '\'' := by
    rcases hq with rfl | rfl
    · left
      simp [quoteWrapped, List.getLast?_cons, List.getLast?_append]
    · right
      simp [quoteWrapped, List.getLast?_cons, List.getLast?_append]
  have hsub : substring1ToLast (q :: (mid ++ [q])) = mid := by
    unfold substring1ToLast
    simp
  simp only [parseValue, htrim]
  rw [if_pos hwrap]
  simp [truthyHint, hsub]

/-- **C3 witness**: the amended theorem applied to the double-quoted token
    `"a\nb"` (with a real escape sequence inside). -/
theorem quoted_scalar_unescapes_witness :
    (('"' : Char) = '"' ∨ ('"' : Char) = '\'') ∧
    parseValue ('"' :: (['a', '\\', 'n', 'b'] ++ ['"'])) none =
      .str (unescapeString ['a', '\\', 'n', 'b']) ∧
    unescapeString ['a', '\\', 'n', 'b'] = ['a', '\n', 'b'] :=
  ⟨Or.inl rfl, quoted_scalar_unescapes.1 '"' ['a', '\\', 'n', 'b'] (Or.inl rfl), by decide⟩

/-- **C4 counterexample**: with the unrecognized hint `xyz`, the entry
    `a(xyz): true` parses to the *string* `"true"`, while the hint-free line
    `a: true` parses to the boolean `true` — the unrecognized hint is not a
    no-op, because a truthy hint skips literal inference. -/
theorem unrecognized_hint_cex :
    APON_parse "a(xyz): true".data = .ok (.obj [("a".data, .str "true".data)]) ∧
    APON_parse "a: true".data = .ok (.obj [("a".data, .bool true)]) ∧
    JSValue.str "true".data ≠ JSValue.bool true := by decide

/-- **C4 (amended)**: an unrecognized (truthy) hint is accepted without error
    and routes the value through `castValue`'s no-op default: a quoted scalar
    yields exactly the hint-free result, but an unquoted scalar yields the raw
    trimmed token as a String, skipping literal inference. -/
theorem unrecognized_hint_behavior (v h : Str) (hne : h ≠ [])
    (hh : h ∉ ["string".data, "number".data, "int".data, "long".data,
      "float".data, "double".data, "boolean".data]) :
    parseValue v (some h) =
      if quoteWrapped (trimJS v) '"' ∨ quoteWrapped (trimJS v) '\'' then parseValue v none
      else .str (trimJS v) := by
  simp only [List.mem_cons, List.mem_singleton, not_or] at hh
  obtain ⟨h1, h2, h3, h4, h5, h6, h7, -⟩ := hh
  have hcast : ∀ w : Str, castValue w h = .str w := by
    intro w
    simp [castValue, h1, h2, h3, h4, h5, h6, h7]
  by_cases hw : quoteWrapped (trimJS v) '"' ∨ quoteWrapped (trimJS v) '\''
  · simp only [parseValue, if_pos hw, truthyHint]
    simp [hne, hcast]
  · simp only [parseValue, if_neg hw, truthyHint]
    simp [hne, hcast]

/-- **C4 witness**: the amended theorem at hint `xyz`, on an unquoted token
    (`true` stays a string) and the resulting `if` evaluated. -/
theorem unrecognized_hint_behavior_witness :
    ("xyz".data ≠ ([] : Str)) ∧
    parseValue "true".data (some "xyz".data) =
      (if quoteWrapped (trimJS "true".data) '"' ∨ quoteWrapped (trimJS "true".data) '\''
       then parseValue "true".data none
       else .str (trimJS "true".data)) ∧
    parseValue "true".data (some "xyz".data) = .str "true".data :=
  ⟨by decide, unrecognized_hint_behavior "true".data "xyz".data (by decide) (by decide),
    by decide⟩

/-! ### C2: literal inference on unquoted, unhinted tokens -/

/-- The spec's "syntactically valid integer literal": an optional sign and one
    or more decimal digits. -/
def decIntLit (s : Str) : Bool :=
  if s.head? = some '+' ∨ s.head? = some '-' then
    s.drop 1 ≠ [] ∧ (s.drop 1).all isDigitChar
  else s ≠ [] ∧ s.all isDigitChar

/-- The mathematical value of a `decIntLit` literal. -/
def intLitVal (s : Str) : Int :=
  if s.head? = some '-' then -(digitsToNat (s.drop 1) : Int)
  else if s.head? = some '+' then (digitsToNat (s.drop 1) : Int)
  else (digitsToNat s : Int)

theorem spanDigits_all {ds : Str} (h : ∀ c ∈ ds, isDigitChar c = true) :
    spanDigits ds = (ds, []) := by
  induction ds with
  | nil => rfl
  | cons c t ih =>
      simp only [spanDigits, h c (List.mem_cons_self c t), if_true]
      rw [ih (fun x hx => h x (List.mem_cons_of_mem c hx))]

theorem digitsToNat_nonneg_cast (ds : Str) : ((digitsToNat ds : Nat) : Int) = digitsToNat ds :=
  rfl

theorem decQ_digits (ds : Str) : decQ ds [] 0 = mkRat (digitsToNat ds) 1 := by
  unfold decQ
  norm_num
  rfl

theorem unsignedDecValue?_digits {ds : Str} (hne : ds ≠ [])
    (hall : ∀ c ∈ ds, isDigitChar c = true) :
    unsignedDecValue? ds = some (.num (mkRat (digitsToNat ds) 1)) := by
  unfold unsignedDecValue?
  have hinf : ds ≠ "Infinity".data := by
    intro h
    have := hall 'I' (by rw [h]; decide)
    exact absurd this (by decide)
  rw [if_neg hinf]
  simp only [spanDigits_all hall]
  rw [if_neg (by simp), if_neg hne]
  simp [expValue?, decQ_digits]

theorem dropWhile_eq_self_of_trimJS {s : Str} (h : trimJS s = s) :
    s.dropWhile isJsWs = s := by
  have h1 : List.Sublist (List.dropWhile isJsWs s) s := List.dropWhile_sublist _
  refine h1.eq_of_length ?_
  have h2 : (trimJS s).length ≤ (s.dropWhile isJsWs).length := by
    unfold trimJS
    calc ((((s.dropWhile isJsWs).reverse).dropWhile isJsWs).reverse).length
        = (((s.dropWhile isJsWs).reverse).dropWhile isJsWs).length := by
          rw [List.length_reverse]
      _ ≤ ((s.dropWhile isJsWs).reverse).length := (List.dropWhile_sublist _).length_le
      _ = (s.dropWhile isJsWs).length := by rw [List.length_reverse]
  rw [h] at h2
  exact Nat.le_antisymm h1.length_le h2

theorem Rat_neg_eq (q : ℚ) : Rat.neg q = -q := rfl

theorem jsToNumber_intLit {s : Str} (hts : trimJS s = s) (h : decIntLit s = true) :
    jsToNumber s = .num (mkRat (intLitVal s) 1) ∧
    parseIntJS10 s = .num (mkRat (intLitVal s) 1) := by
  have hdw := dropWhile_eq_self_of_trimJS hts
  unfold decIntLit at h
  by_cases hsgn : s.head? = some '+' ∨ s.head? = some '-'
  · rw [if_pos hsgn] at h
    simp only [Bool.and_eq_true, decide_eq_true_eq, List.all_eq_true] at h
    obtain ⟨hne, hall⟩ := h
    obtain ⟨c0, r, rfl⟩ : ∃ c0 r, s = c0 :: r := by
      cases s with
      | nil => simp at hsgn
      | cons a b => exact ⟨a, b, rfl⟩
    simp only [List.head?_cons, Option.some.injEq, List.drop_one, List.tail_cons]
      at hsgn hne hall ⊢
    have hudv := unsignedDecValue?_digits hne hall
    have hmain : jsToNumber (c0 :: r) = signedDecNumber (c0 :: r) := by
      unfold jsToNumber
      rw [hts]
      have hc00 : (c0 = '0') = False := by
        simp only [eq_iff_iff, iff_false]
        rcases hsgn with rfl | rfl <;> decide
      simp [hc00]
    rcases hsgn with rfl | rfl
    · constructor
      · rw [hmain]
        unfold signedDecNumber
        simp [hudv, intLitVal]
      · unfold parseIntJS10
        simp only [hdw]
        simp [spanDigits_all hall, hne, intLitVal]
    · constructor
      · rw [hmain]
        unfold signedDecNumber
        simp [hudv, intLitVal, Rat_neg_eq, Rat.mkRat_one]
      · unfold parseIntJS10
        simp only [hdw]
        simp [spanDigits_all hall, hne, intLitVal, neg_one_mul]
  · rw [if_neg hsgn] at h
    simp only [Bool.and_eq_true, decide_eq_true_eq, List.all_eq_true] at h
    obtain ⟨hne, hall⟩ := h
    push_neg at hsgn
    obtain ⟨hplus, hminus⟩ := hsgn
    have hudv := unsignedDecValue?_digits hne hall
    obtain ⟨c0, r, rfl⟩ : ∃ c0 r, s = c0 :: r := by
      cases s with
      | nil => exact absurd rfl hne
      | cons a b => exact ⟨a, b, rfl⟩
    simp only [List.head?_cons, ne_eq, Option.some.injEq] at hplus hminus
    have hradix : ∀ ch : Char, isDigitChar ch = false → (r.head? = some ch) = False := by
      intro ch hch
      simp only [eq_iff_iff, iff_false]
      intro hc
      have := hall ch (List.mem_cons_of_mem c0 (List.mem_of_mem_head? hc))
      rw [hch] at this
      exact absurd this (by simp)
    constructor
    · unfold jsToNumber
      rw [hts]
      simp only [List.head?_cons, Option.some.injEq, List.drop_one, List.tail_cons]
      rw [if_neg (by simp),
          if_neg (by simp [hradix 'x' (by decide), hradix 'X' (by decide)]),
          if_neg (by simp [hradix 'o' (by decide), hradix 'O' (by decide)]),
          if_neg (by simp [hradix 'b' (by decide), hradix 'B' (by decide)])]
      unfold signedDecNumber
      simp only [List.head?_cons, Option.some.injEq]
      rw [if_neg (by simpa using hplus), if_neg (by simpa using hminus), hudv]
      simp [intLitVal, hplus, hminus]
    · unfold parseIntJS10
      simp only [hdw, List.head?_cons, Option.some.injEq]
      simp [hplus, hminus, spanDigits_all hall, hne, intLitVal]

theorem contains_eq_false {s : Str} {c : Char} (h : ∀ x ∈ s, x ≠ c) :
    s.contains c = false := by
  induction s with
  | nil => rfl
  | cons a t ih =>
      have ha : (c == a) = false := beq_eq_false_iff_ne.mpr fun hc =>
        (h a (List.mem_cons_self a t)) hc.symm
      simp only [List.contains_cons, ha, Bool.false_or]
      exact ih (fun x hx => h x (List.mem_cons_of_mem a hx))

theorem decIntLit_chars {s : Str} (h : decIntLit s = true) :
    ∀ x ∈ s, isDigitChar x = true ∨ x = '+' ∨ x = '-' := by
  unfold decIntLit at h
  split at h
  · next hsgn =>
      simp only [Bool.and_eq_true, decide_eq_true_eq, List.all_eq_true] at h
      intro x hx
      cases s with
      | nil => simp at hx
      | cons a t =>
          rcases List.mem_cons.mp hx with rfl | hxt
          · right
            simp only [List.head?_cons, Option.some.injEq] at hsgn
            exact hsgn
          · left
            exact h.2 x (by simpa using hxt)
  · next =>
      simp only [Bool.and_eq_true, decide_eq_true_eq, List.all_eq_true] at h
      intro x hx
      exact Or.inl (h.2 x hx)

/-- **C2 counterexample**: the trimmed, unquoted, unhinted token `Infinity` is
    not an integer literal, contains no `.`, and is none of `null`/`true`/
    `false`, yet it does not parse to itself as a String: JS numeric
    conversion accepts it and `parseInt(_, 10)` then yields `NaN`. -/
theorem literal_inference_cex :
    decIntLit "Infinity".data = false ∧
    ("Infinity".data : Str).contains '.' = false ∧
    parseValue "Infinity".data none = .num .nan ∧
    parseValue "Infinity".data none ≠ .str "Infinity".data := by decide

/-- **C2 (amended)**: for a trimmed, unquoted, unhinted scalar token:
    `null`/`true`/`false` give Null and the Booleans; a sign-and-digits
    integer literal gives the integer Number it denotes (exactly, in the
    model's exact-rational numbers; JS doubles round above `2^53`); a token
    accepted by JS numeric conversion that contains `.` gives the
    `parseFloat` Number; a token accepted by JS numeric conversion without a
    `.` (such as `Infinity`, `0x10`, `1e3`) gives the `parseInt(_, 10)`
    Number, which can be `NaN` or disagree with the token's numeric value;
    and only the tokens JS numeric conversion rejects parse to themselves as
    Strings. -/
theorem literal_inference (s : Str) (hts : trimJS s = s)
    (hq : ¬ (quoteWrapped s '"' = true ∨ quoteWrapped s '\'' = true)) :
    (s = "null".data → parseValue s none = .null) ∧
    (s = "true".data → parseValue s none = .bool true) ∧
    (s = "false".data → parseValue s none = .bool false) ∧
    (decIntLit s = true → parseValue s none = .num (.num (mkRat (intLitVal s) 1))) ∧
    (isNaNofStr s = false → s.contains '.' = true →
      parseValue s none = .num (parseFloatJS s)) ∧
    (isNaNofStr s = false → s.contains '.' = false → s ≠ [] →
      s ≠ "null".data → s ≠ "true".data → s ≠ "false".data →
      parseValue s none = .num (parseIntJS10 s)) ∧
    (isNaNofStr s = true → s ≠ "null".data → s ≠ "true".data → s ≠ "false".data →
      parseValue s none = .str s) := by
  have hq' : ¬ (quoteWrapped (trimJS s) '"' = true ∨ quoteWrapped (trimJS s) '\'' = true) := by
    rwa [hts]
  have hunfold : parseValue s none =
      (if s = "null".data then .null
       else if s = "true".data then .bool true
       else if s = "false".data then .bool false
       else if ¬ isNaNofStr s = true ∧ ¬ trimJS s = [] then
         (if s.contains '.' = true then .num (parseFloatJS s) else .num (parseIntJS10 s))
       else .str s) := by
    simp only [parseValue, if_neg hq', truthyHint]
    rw [hts, hts]
    norm_num
  refine ⟨?_, ?_, ?_, ?_, ?_, ?_, ?_⟩
  · intro h; subst h; decide
  · intro h; subst h; decide
  · intro h; subst h; decide
  · intro hd
    have hchars := decIntLit_chars hd
    have hkn : s ≠ "null".data := by intro h; rw [h] at hd; exact absurd hd (by decide)
    have hkt : s ≠ "true".data := by intro h; rw [h] at hd; exact absurd hd (by decide)
    have hkf : s ≠ "false".data := by intro h; rw [h] at hd; exact absurd hd (by decide)
    have hne : s ≠ [] := by intro h; rw [h] at hd; exact absurd hd (by decide)
    have hdot : s.contains '.' = false := by
      refine contains_eq_false (fun x hx => ?_)
      rcases hchars x hx with hdig | rfl | rfl
      · intro h; rw [h] at hdig; exact absurd hdig (by decide)
      · decide
      · decide
    obtain ⟨hjs, hpi⟩ := jsToNumber_intLit hts hd
    have hnan : isNaNofStr s = false := by
      unfold isNaNofStr
      rw [hjs]
      rfl
    rw [hunfold, if_neg hkn, if_neg hkt, if_neg hkf,
      if_pos ⟨by rw [hnan]; decide, by rw [hts]; exact hne⟩,
      if_neg (by rw [hdot]; decide), hpi]
  · intro hnan hdot
    have hne : s ≠ [] := by intro h; rw [h] at hdot; exact absurd hdot (by decide)
    have hkn : s ≠ "null".data := by intro h; rw [h] at hdot; exact absurd hdot (by decide)
    have hkt : s ≠ "true".data := by intro h; rw [h] at hdot; exact absurd hdot (by decide)
    have hkf : s ≠ "false".data := by intro h; rw [h] at hdot; exact absurd hdot (by decide)
    rw [hunfold, if_neg hkn, if_neg hkt, if_neg hkf,
      if_pos ⟨by rw [hnan]; decide, by rw [hts]; exact hne⟩, if_pos hdot]
  · intro hnan hdot hne hkn hkt hkf
    rw [hunfold, if_neg hkn, if_neg hkt, if_neg hkf,
      if_pos ⟨by rw [hnan]; decide, by rw [hts]; exact hne⟩,
      if_neg (by rw [hdot]; decide)]
  · intro hnan hkn hkt hkf
    rw [hunfold, if_neg hkn, if_neg hkt, if_neg hkf,
      if_neg (by rw [hnan]; intro hcon; exact hcon.1 rfl)]

/-- **C2 witness**: the amended theorem applied at the tokens `-42` (integer
    literal), `1.5` (numeric with a dot), and `hello` (rejected by numeric
    conversion), with every hypothesis and both sides evaluated. -/
theorem literal_inference_witness :
    (trimJS "-42".data = "-42".data ∧ decIntLit "-42".data = true ∧
      parseValue "-42".data none = .num (.num (mkRat (intLitVal "-42".data) 1)) ∧
      parseValue "-42".data none = .num (.num (mkRat (-42) 1))) ∧
    (isNaNofStr "1.5".data = false ∧
      parseValue "1.5".data none = .num (parseFloatJS "1.5".data) ∧
      parseValue "1.5".data none = .num (.num (mkRat 3 2))) ∧
    (isNaNofStr "hello".data = true ∧
      parseValue "hello".data none = .str "hello".data) :=
  ⟨⟨by decide, by decide,
      (literal_inference "-42".data (by decide) (by decide)).2.2.2.1 (by decide), by decide⟩,
    ⟨by decide,
      (literal_inference "1.5".data (by decide) (by decide)).2.2.2.2.1 (by decide) (by decide),
      by decide⟩,
    ⟨by decide,
      (literal_inference "hello".data (by decide) (by decide)).2.2.2.2.2.2 (by decide)
        (by decide) (by decide) (by decide)⟩⟩

/-- **C7 counterexample**: the UnclosedBlock error (here from the unterminated
    body of `a: {`) carries no line number — its message contains no digit
    character at all. -/
theorem error_line_number_cex :
    APON_parse "a: \x7b".data = .error (.unclosedBlock "\x7d".data) ∧
    (PErr.message (.unclosedBlock "\x7d".data)).all (fun ch => !ch.isDigit) = true := by
  decide

/-- **C7 (amended)**: `MissingSeparator`, `UnexpectedClosingDelimiter` and
    `TrailingContent` messages end with the decimal digits of the recorded
    1-based line number, and the parser records 1-based positions (the two
    concrete parses below fail at lines 1 and 2 respectively); `UnclosedBlock`
    messages contain no line number (no digits beyond those of the missing
    delimiter, which itself has none). -/
theorem error_messages_line_numbers (n : Nat) (w : Str) (c : Char) :
    natDigitChars n <:+ PErr.message (.missingSeparator n) ∧
    natDigitChars n <:+ PErr.message (.unexpectedClosing w n) ∧
    natDigitChars n <:+ PErr.message (.trailingContent c n) ∧
    (∀ e : Str, e.all (fun ch => !ch.isDigit) = true →
      (PErr.message (.unclosedBlock e)).all (fun ch => !ch.isDigit) = true) ∧
    APON_parse "x\nname: v".data = .error (.missingSeparator 1) ∧
    APON_parse "a: 1\n \x7d\n".data = .error (.unexpectedClosing "\x7d".data 2) := by
  refine ⟨?_, ?_, ?_, ?_, by decide, by decide⟩
  · exact List.suffix_append _ _
  · show natDigitChars n <:+ _ ++ w ++ _ ++ natDigitChars n
    exact List.suffix_append _ _
  · by_cases hc : c = '}'
    · rw [show PErr.message (.trailingContent c n) =
        "Invalid APON format: Unexpected content after closing brace \"\x7d\" at line ".data ++
          natDigitChars n by simp [PErr.message, hc]]
      exact List.suffix_append _ _
    · rw [show PErr.message (.trailingContent c n) =
        "Invalid APON format: Unexpected content after closing bracket \"]\" at line ".data ++
          natDigitChars n by simp [PErr.message, hc]]
      exact List.suffix_append _ _
  · intro e he
    show (_ ++ e ++ _).all _ = true
    simp only [List.all_append, Bool.and_eq_true]
    exact ⟨⟨by decide, he⟩, by decide⟩

/-- **C7 witness**: the amended theorem applied at line 3, stray token `}`,
    root delimiter `}`, and the digit-free missing-terminator string `}`. -/
theorem error_messages_line_numbers_witness :
    (("\x7d".data : Str).all (fun ch => !ch.isDigit) = true) ∧
    natDigitChars 3 <:+ PErr.message (.missingSeparator 3) ∧
    (PErr.message (.unclosedBlock "\x7d".data)).all (fun ch => !ch.isDigit) = true :=
  ⟨by decide, (error_messages_line_numbers 3 "\x7d".data '}').1,
    (error_messages_line_numbers 3 "\x7d".data '}').2.2.2.1 "\x7d".data (by decide)⟩

/-- **C9**: `parse` of a non-string input, the empty string, or a
    whitespace-only string returns an empty Mapping; when the first
    significant (non-blank, non-comment) line is exactly `{}` the result is an
    empty Mapping, and when it is exactly `[]` the result is an empty
    Sequence. -/
theorem parse_trivial_inputs :
    APON_parseAny none = .ok (.obj []) ∧
    APON_parse [] = .ok (.obj []) ∧
    (∀ s : Str, (∀ c ∈ s, isJsWs c = true) → APON_parse s = .ok (.obj [])) ∧
    (∀ text : Str,
      (firstSignificantAux (splitLinesJS text) 0).map Prod.fst = some "\x7b\x7d".data →
      APON_parse text = .ok (.obj [])) ∧
    (∀ text : Str,
      (firstSignificantAux (splitLinesJS text) 0).map Prod.fst = some "[]".data →
      APON_parse text = .ok (.arr [])) := by
  refine ⟨rfl, rfl, ?_, ?_, ?_⟩
  · intro s hs
    unfold APON_parse
    rw [if_pos (trimJS_allWs hs)]
  · intro text hsig
    obtain ⟨⟨fl, idx⟩, hfs, hfl⟩ : ∃ p, firstSignificantAux (splitLinesJS text) 0 = some p ∧
        p.1 = "\x7b\x7d".data := by
      cases h : firstSignificantAux (splitLinesJS text) 0 with
      | none => rw [h] at hsig; simp at hsig
      | some p => rw [h] at hsig; exact ⟨p, rfl, by simpa using hsig⟩
    simp only at hfl
    subst hfl
    by_cases htr : trimJS text = []
    · unfold APON_parse
      rw [if_pos htr]
    · unfold APON_parse
      rw [if_neg htr]
      simp only [hfs]
      rfl
  · intro text hsig
    obtain ⟨⟨fl, idx⟩, hfs, hfl⟩ : ∃ p, firstSignificantAux (splitLinesJS text) 0 = some p ∧
        p.1 = "[]".data := by
      cases h : firstSignificantAux (splitLinesJS text) 0 with
      | none => rw [h] at hsig; simp at hsig
      | some p => rw [h] at hsig; exact ⟨p, rfl, by simpa using hsig⟩
    simp only at hfl
    subst hfl
    have htr : trimJS text ≠ [] := by
      obtain ⟨l, hlmem, hlt, hne⟩ := firstSignificantAux_some hfs
      have : ('[' : Char) ∈ l := by
        have : ('[' : Char) ∈ trimJS l := by rw [hlt]; decide
        unfold trimJS at this
        have h2 := List.dropWhile_subset (p := isJsWs)
          (l := (List.dropWhile isJsWs l).reverse) (by simpa using this)
        rw [List.mem_reverse] at h2
        exact List.dropWhile_subset _ h2
      exact trimJS_ne_nil (splitLinesJS_chars hlmem '[' this) (by decide)
    unfold APON_parse
    rw [if_neg htr]
    simp only [hfs]
    rfl

/-- **C9 witness**: the theorem's universally quantified parts applied at the
    whitespace string `" "` and the concrete documents `" \x7b\x7d "` and
    `"# c\n[]"`. -/
theorem parse_trivial_inputs_witness :
    ((∀ c ∈ (" ".data : Str), isJsWs c = true) ∧ APON_parse " ".data = .ok (.obj [])) ∧
    ((firstSignificantAux (splitLinesJS " \x7b\x7d ".data) 0).map Prod.fst = some "\x7b\x7d".data ∧
      APON_parse " \x7b\x7d ".data = .ok (.obj [])) ∧
    ((firstSignificantAux (splitLinesJS "# c\n[]".data) 0).map Prod.fst = some "[]".data ∧
      APON_parse "# c\n[]".data = .ok (.arr [])) :=
  ⟨⟨by decide, parse_trivial_inputs.2.2.1 " ".data (by decide)⟩,
    ⟨by decide, parse_trivial_inputs.2.2.2.1 " \x7b\x7d ".data (by decide)⟩,
    ⟨by decide, parse_trivial_inputs.2.2.2.2 "# c\n[]".data (by decide)⟩⟩

/-! ### Machinery: stepping the body loops over simple lines -/

/-- A mapping-entry line the body loop consumes in one step: significant (not
    blank, not a comment), not a closing delimiter, carrying a `:`, and whose
    value part opens no nested block or text block. -/
def simpleEntryLine (l : Str) : Bool :=
  let t := trimJS l
  decide (t ≠ []) && decide (t.head? ≠ some '#') && decide (t ≠ ['}']) &&
  decide (t ≠ [']']) &&
  (match indexOfChar t ':' with
   | some sep =>
       let value := trimJS (t.drop (sep + 1))
       decide (value ≠ ['{']) && decide (value ≠ ['[']) && decide (value.head? ≠ some '(')
   | none => false)

/-- The mapping entry a simple entry line contributes. -/
def entryOf (l : Str) : Str × JSValue :=
  let t := trimJS l
  match indexOfChar t ':' with
  | some sep =>
      let value := trimJS (t.drop (sep + 1))
      let (name, th) := splitHint (trimJS (t.take sep))
      (name, parseValue value th)
  | none => ([], .null)

/-- A sequence-element line consumed in one step: significant, not `]`, and
    not an opener of a nested container. -/
def simpleElemLine (l : Str) : Bool :=
  let t := trimJS l
  decide (t ≠ []) && decide (t.head? ≠ some '#') && decide (t ≠ [']']) &&
  decide (t ≠ ['{']) && decide (t ≠ ['['])

theorem mapLoop_simple_step (fuel : Nat) {endc : Option Char}
    (hendc : endc = none ∨ endc = some '}') {l : Str} (hl : simpleEntryLine l = true)
    (acc : List (Str × JSValue)) (rest : List Str) (i : Nat) :
    mapLoop (fuel + 1) endc acc (l :: rest) i =
      mapLoop fuel endc (setKey acc (entryOf l).1 (entryOf l).2) rest (i + 1) := by
  unfold simpleEntryLine at hl
  simp only [Bool.and_eq_true, decide_eq_true_eq] at hl
  obtain ⟨⟨⟨⟨hne, hcm⟩, hcb⟩, hsb⟩, hsep⟩ := hl
  cases hidx : indexOfChar (trimJS l) ':' with
  | none => rw [hidx] at hsep; exact absurd hsep (by simp)
  | some sep =>
      rw [hidx] at hsep
      simp only [Bool.and_eq_true, decide_eq_true_eq] at hsep
      obtain ⟨⟨hvb, hvs⟩, hvp⟩ := hsep
      simp only [mapLoop]
      rw [if_neg (by simp [hne, hcm])]
      rw [if_neg (by
        rcases hendc with rfl | rfl
        · simp
        · simpa using hcb)]
      rw [if_neg (by
        rintro ⟨rfl, h2 | h2⟩
        · exact hcb h2
        · exact hsb h2)]
      rw [hidx]
      simp only [if_neg hvb, if_neg hvs, if_neg (by simpa using hvp)]
      simp only [entryOf, hidx]

theorem mapLoop_simple_entries {es : List Str} (hes : ∀ l ∈ es, simpleEntryLine l = true)
    (fuel : Nat) {endc : Option Char} (hendc : endc = none ∨ endc = some '}')
    (acc : List (Str × JSValue)) (rest : List Str) (i : Nat) :
    mapLoop (fuel + es.length) endc acc (es ++ rest) i =
      mapLoop fuel endc
        (es.foldl (fun a l => setKey a (entryOf l).1 (entryOf l).2) acc) rest
        (i + es.length) := by
  induction es generalizing acc i with
  | nil => simp
  | cons l tl ih =>
      have hstep := mapLoop_simple_step (fuel + tl.length) hendc
        (hes l (List.mem_cons_self l tl)) acc (tl ++ rest) i
      calc mapLoop (fuel + (l :: tl).length) endc acc ((l :: tl) ++ rest) i
          = mapLoop (fuel + tl.length + 1) endc acc (l :: (tl ++ rest)) i := by
            simp only [List.length_cons, List.cons_append]
            congr 1
        _ = mapLoop (fuel + tl.length) endc
              (setKey acc (entryOf l).1 (entryOf l).2) (tl ++ rest) (i + 1) := hstep
        _ = _ := by
            rw [ih (fun x hx => hes x (List.mem_cons_of_mem l hx)) _ (i + 1)]
            simp only [List.foldl_cons, List.length_cons]
            congr 1 <;> omega

theorem arrLoop_simple_step (fuel : Nat) {l : Str} (hl : simpleElemLine l = true)
    (acc : List JSValue) (rest : List Str) (i : Nat) :
    arrLoop (fuel + 1) acc (l :: rest) i =
      arrLoop fuel (acc ++ [parseValue (trimJS l) none]) rest (i + 1) := by
  unfold simpleElemLine at hl
  simp only [Bool.and_eq_true, decide_eq_true_eq] at hl
  obtain ⟨⟨⟨⟨hne, hcm⟩, hsb⟩, hob⟩, hos⟩ := hl
  simp only [arrLoop]
  rw [if_neg (by simp [hne, hcm]), if_neg hsb, if_neg hob, if_neg hos]

theorem arrLoop_simple_elems {es : List Str} (hes : ∀ l ∈ es, simpleElemLine l = true)
    (fuel : Nat) (acc : List JSValue) (rest : List Str) (i : Nat) :
    arrLoop (fuel + es.length) acc (es ++ rest) i =
      arrLoop fuel (acc ++ es.map (fun l => parseValue (trimJS l) none)) rest
        (i + es.length) := by
  induction es generalizing acc i with
  | nil => simp
  | cons l tl ih =>
      have hstep := arrLoop_simple_step (fuel + tl.length)
        (hes l (List.mem_cons_self l tl)) acc (tl ++ rest) i
      calc arrLoop (fuel + (l :: tl).length) acc ((l :: tl) ++ rest) i
          = arrLoop (fuel + tl.length + 1) acc (l :: (tl ++ rest)) i := by
            simp only [List.length_cons, List.cons_append]
            congr 1
        _ = arrLoop (fuel + tl.length) (acc ++ [parseValue (trimJS l) none])
              (tl ++ rest) (i + 1) := hstep
        _ = _ := by
            rw [ih (fun x hx => hes x (List.mem_cons_of_mem l hx)) _ (i + 1)]
            simp only [List.map_cons, List.length_cons, List.append_assoc,
              List.singleton_append]
            congr 1 <;> omega

/-! ### Machinery: joining and re-splitting lines -/

theorem splitNL_append {l : Str} (hl : '\n' ∉ l) (t : Str) :
    splitNL (l ++ '\n' :: t) = l :: splitNL t := by
  induction l with
  | nil => simp [splitNL]
  | cons c r ih =>
      have hc : c ≠ '\n' := fun h => hl (h ▸ List.mem_cons_self c r)
      rw [List.cons_append, splitNL_cons _ hc, ih (fun h => hl (List.mem_cons_of_mem c h))]

theorem splitNL_single {l : Str} (hl : '\n' ∉ l) : splitNL l = [l] := by
  induction l with
  | nil => rfl
  | cons c r ih =>
      have hc : c ≠ '\n' := fun h => hl (h ▸ List.mem_cons_self c r)
      rw [splitNL_cons _ hc, ih (fun h => hl (List.mem_cons_of_mem c h))]

theorem splitNL_joinNL : ∀ {ls : List Str}, ls ≠ [] → (∀ l ∈ ls, '\n' ∉ l) →
    splitNL (joinNL ls) = ls
  | [], h, _ => absurd rfl h
  | [l], _, h => by
      rw [show joinNL [l] = l from rfl]
      exact splitNL_single (h l (List.mem_cons_self l []))
  | l :: l' :: tl, _, h => by
      rw [show joinNL (l :: l' :: tl) = l ++ '\n' :: joinNL (l' :: tl) from rfl,
        splitNL_append (h l (List.mem_cons_self _ _)),
        splitNL_joinNL (by simp) (fun x hx => h x (List.mem_cons_of_mem l hx))]

theorem splitLinesJS_joinNL {ls : List Str} (hne : ls ≠ [])
    (h : ∀ l ∈ ls, '\n' ∉ l ∧ '\r' ∉ l) : splitLinesJS (joinNL ls) = ls := by
  unfold splitLinesJS
  rw [splitNL_joinNL hne (fun l hl => (h l hl).1)]
  have hcr : ∀ l ∈ ls, dropTrailCR l = l := by
    intro l hl
    unfold dropTrailCR
    rw [if_neg]
    intro hlast
    exact (h l hl).2 (List.mem_of_mem_getLast? hlast)
  calc (ls.dropLast.map dropTrailCR) ++ [ls.getLastD []]
      = ls.dropLast ++ [ls.getLastD []] := by
        congr 1
        exact List.map_congr_left (fun l hl => hcr l (List.dropLast_subset _ hl)) |>.trans
          (List.map_id _)
    _ = ls := by
        cases hl : ls.reverse with
        | nil => simp at hl; exact absurd hl hne
        | cons a t =>
            have : ls = t.reverse ++ [a] := by
              have := congrArg List.reverse hl
              simpa using this
            subst this
            simp [List.dropLast_concat, List.getLastD_concat]

theorem joinNL_chars : ∀ {ls : List Str} {l : Str}, l ∈ ls → ∀ c ∈ l, c ∈ joinNL ls
  | [], l, hl => by simp at hl
  | [x], l, hl => by
      simp only [List.mem_singleton] at hl
      subst hl
      intro c hc
      exact hc
  | x :: y :: tl, l, hl => by
      intro c hc
      rw [show joinNL (x :: y :: tl) = x ++ '\n' :: joinNL (y :: tl) from rfl]
      rcases List.mem_cons.mp hl with rfl | hl
      · exact List.mem_append.mpr (Or.inl hc)
      · exact List.mem_append.mpr (Or.inr (List.mem_cons_of_mem _
          (joinNL_chars hl c hc)))

theorem firstSig_cons {l : Str} (hsig : trimJS l ≠ [] ∧ (trimJS l).head? ≠ some '#')
    (ls : List Str) : firstSignificantAux (l :: ls) 0 = some (trimJS l, 0) := by
  simp [firstSignificantAux, hsig.1, hsig.2]

/-- Reduction of `APON_parse` to the top-level unterminated mapping body when
    the first line is significant and not a root delimiter form. -/
theorem parse_entry_root (first : Str) (es : List Str)
    (hfp : '\n' ∉ first ∧ '\r' ∉ first)
    (hpure : ∀ l ∈ es, '\n' ∉ l ∧ '\r' ∉ l)
    (hsig : trimJS first ≠ [] ∧ (trimJS first).head? ≠ some '#')
    (hns : trimJS first ≠ "\x7b\x7d".data ∧ trimJS first ≠ "[]".data ∧
           trimJS first ≠ ['{'] ∧ trimJS first ≠ ['['])
    (hnws : ∃ c ∈ first, isJsWs c = false) :
    APON_parse (joinNL (first :: es)) =
      (mapLoop ((first :: es).length + 1) none [] (first :: es) 0).map (fun r => r.1) := by
  have hlines : splitLinesJS (joinNL (first :: es)) = first :: es :=
    splitLinesJS_joinNL (by simp) (by
      intro l hl
      rcases List.mem_cons.mp hl with rfl | hl
      · exact hfp
      · exact hpure l hl)
  obtain ⟨c, hc, hcw⟩ := hnws
  have htrim : trimJS (joinNL (first :: es)) ≠ [] :=
    trimJS_ne_nil (joinNL_chars (List.mem_cons_self _ _) c hc) hcw
  unfold APON_parse
  rw [if_neg htrim]
  simp only [hlines, firstSig_cons hsig]
  rw [if_neg hns.1, if_neg hns.2.1, if_neg hns.2.2.1, if_neg hns.2.2.2]

/-- Processing a stray `}`/`]` line at the unterminated top level. -/
theorem mapLoop_stray_step {s : Str} (hs : trimJS s = ['}'] ∨ trimJS s = [']'])
    (fuel : Nat) (acc : List (Str × JSValue)) (rest : List Str) (i : Nat) :
    mapLoop (fuel + 1) none acc (s :: rest) i =
      .error (.unexpectedClosing (trimJS s) (i + 1)) := by
  simp only [mapLoop]
  rcases hs with h | h <;>
    rw [if_neg (by rw [h]; decide), if_neg (by simp), if_pos (by simp [h])]

/-- Processing a stray `]` line inside a `{`-body: the line has no `:` and
    triggers MissingSeparator, not UnexpectedClosingDelimiter. -/
theorem mapLoop_missep_step {s : Str} (hs : trimJS s = [']'])
    (fuel : Nat) (acc : List (Str × JSValue)) (rest : List Str) (i : Nat) :
    mapLoop (fuel + 1) (some '}') acc (s :: rest) i =
      .error (.missingSeparator (i + 1)) := by
  simp only [mapLoop]
  rw [if_neg (by rw [hs]; decide), if_neg (by rw [hs]; decide), if_neg (by simp),
    show indexOfChar (trimJS s) ':' = none by rw [hs]; decide]

theorem textBlock_eof {ls : List Str} (h : ∀ l ∈ ls, trimJS l ≠ [')']) :
    ∀ (i : Nat) (text : Str) (first : Bool), (textBlock ls i text first).2.1 = [] := by
  induction ls with
  | nil => intro i text first; rfl
  | cons l tl ih =>
      intro i text first
      simp only [textBlock]
      rw [if_neg (h l (List.mem_cons_self l tl))]
      split
      · exact ih (fun x hx => h x (List.mem_cons_of_mem l hx)) _ _ _
      · exact ih (fun x hx => h x (List.mem_cons_of_mem l hx)) _ _ _

/-- **C5 counterexample**: an unterminated text block is accepted silently —
    `a: (` followed by an unclosed block body parses successfully (reading to
    end of input) instead of raising any error, contrary to the claim that a
    missing `)` terminator raises `UnclosedBlock`. -/
theorem unclosed_text_block_cex :
    APON_parse "a: (\n|x".data = .ok (.obj [("a".data, .str "x".data)]) ∧
    ∀ e : PErr, APON_parse "a: (\n|x".data ≠ .error e := by
  refine ⟨by decide, fun e h => ?_⟩
  rw [(by decide : APON_parse "a: (\n|x".data = .ok (.obj [("a".data, .str "x".data)]))] at h
  exact absurd h (by simp)

/-- **C5 (amended)**: input ending before a required `}` or `]` terminator
    raises `UnclosedBlock` (shown for a nested mapping body of arbitrary
    simple entries and a nested sequence body of arbitrary simple elements),
    but input ending inside a text block is *not* an error: the block simply
    reads to end of input and the parse succeeds. -/
theorem unclosed_block_errors (es elems bls : List Str)
    (hpure : ∀ l ∈ es, '\n' ∉ l ∧ '\r' ∉ l) (hes : ∀ l ∈ es, simpleEntryLine l = true)
    (hpure2 : ∀ l ∈ elems, '\n' ∉ l ∧ '\r' ∉ l)
    (helems : ∀ l ∈ elems, simpleElemLine l = true)
    (hpure3 : ∀ l ∈ bls, '\n' ∉ l ∧ '\r' ∉ l) (hbls : ∀ l ∈ bls, trimJS l ≠ [')']) :
    APON_parse (joinNL ("a: \x7b".data :: es)) = .error (.unclosedBlock "\x7d".data) ∧
    APON_parse (joinNL ("a: [".data :: elems)) = .error (.unclosedBlock "]".data) ∧
    APON_parse (joinNL ("a: (".data :: bls)) =
      .ok (.obj [("a".data, .str (textBlock bls 1 [] true).1)]) := by
  refine ⟨?_, ?_, ?_⟩
  · rw [parse_entry_root "a: \x7b".data es (by decide) hpure (by decide)
      ⟨by decide, by decide, by decide, by decide⟩ ⟨'a', by decide, by decide⟩]
    have hnested : mapLoop (es.length + 1) (some '}') [] es 1 =
        .error (.unclosedBlock "\x7d".data) := by
      have h0 := mapLoop_simple_entries hes 1 (Or.inr rfl) [] [] 1
      rw [List.append_nil, Nat.add_comm 1 es.length] at h0
      rw [h0]
      rfl
    show (mapLoop (es.length + 1 + 1) none [] ("a: \x7b".data :: es) 0).map _ = _
    simp only [mapLoop]
    rw [if_neg (by decide), if_neg (by decide), if_neg (by decide),
      show indexOfChar (trimJS "a: \x7b".data) ':' = some 1 by decide]
    simp only [if_pos (by decide : trimJS (List.drop (1 + 1) (trimJS "a: \x7b".data)) = ['{'])]
    rw [hnested]
    rfl
  · rw [parse_entry_root "a: [".data elems (by decide) hpure2 (by decide)
      ⟨by decide, by decide, by decide, by decide⟩ ⟨'a', by decide, by decide⟩]
    have hnested : arrLoop (elems.length + 1) [] elems 1 =
        .error (.unclosedBlock "]".data) := by
      have h0 := arrLoop_simple_elems helems 1 [] [] 1
      rw [List.append_nil, Nat.add_comm 1 elems.length] at h0
      rw [h0]
      rfl
    show (mapLoop (elems.length + 1 + 1) none [] ("a: [".data :: elems) 0).map _ = _
    simp only [mapLoop]
    rw [if_neg (by decide), if_neg (by decide), if_neg (by decide),
      show indexOfChar (trimJS "a: [".data) ':' = some 1 by decide]
    simp only [if_neg (by decide : ¬ trimJS (List.drop (1 + 1) (trimJS "a: [".data)) = ['{']),
      if_pos (by decide : trimJS (List.drop (1 + 1) (trimJS "a: [".data)) = ['['])]
    rw [hnested]
    rfl
  · rw [parse_entry_root "a: (".data bls (by decide) hpure3 (by decide)
      ⟨by decide, by decide, by decide, by decide⟩ ⟨'a', by decide, by decide⟩]
    show (mapLoop (bls.length + 1 + 1) none [] ("a: (".data :: bls) 0).map _ = _
    simp only [mapLoop]
    rw [if_neg (by decide), if_neg (by decide), if_neg (by decide),
      show indexOfChar (trimJS "a: (".data) ':' = some 1 by decide]
    simp only [if_neg (by decide : ¬ trimJS (List.drop (1 + 1) (trimJS "a: (".data)) = ['{']),
      if_neg (by decide : ¬ trimJS (List.drop (1 + 1) (trimJS "a: (".data)) = ['[']),
      if_pos (by decide :
        (trimJS (List.drop (1 + 1) (trimJS "a: (".data))).head? = some '(')]
    have hblock : textBlock bls (0 + 1) [] true =
        ((textBlock bls 1 [] true).1, [], (textBlock bls 1 [] true).2.2) := by
      have h1 := textBlock_eof hbls 1 [] true
      show textBlock bls 1 [] true = _
      exact Prod.ext rfl (Prod.ext h1 rfl)
    rw [hblock]
    simp only [mapLoop]
    rfl

/-- **C5 witness**: the amended theorem at one simple entry, one simple
    element, and one text-block content line, with the results evaluated. -/
theorem unclosed_block_errors_witness :
    (simpleEntryLine "x: 1".data = true ∧ simpleElemLine "7".data = true ∧
      trimJS "|t".data ≠ [')']) ∧
    APON_parse (joinNL ["a: \x7b".data, "x: 1".data]) = .error (.unclosedBlock "\x7d".data) ∧
    APON_parse (joinNL ["a: [".data, "7".data]) = .error (.unclosedBlock "]".data) ∧
    APON_parse (joinNL ["a: (".data, "|t".data]) =
      .ok (.obj [("a".data, .str (textBlock ["|t".data] 1 [] true).1)]) :=
  ⟨⟨by decide, by decide, by decide⟩,
    (unclosed_block_errors ["x: 1".data] ["7".data] ["|t".data]
      (by decide) (by decide) (by decide) (by decide) (by decide) (by decide)).1,
    (unclosed_block_errors ["x: 1".data] ["7".data] ["|t".data]
      (by decide) (by decide) (by decide) (by decide) (by decide) (by decide)).2.1,
    (unclosed_block_errors ["x: 1".data] ["7".data] ["|t".data]
      (by decide) (by decide) (by decide) (by decide) (by decide) (by decide)).2.2⟩


theorem mem_of_mem_trimJS {s : Str} {c : Char} (h : c ∈ trimJS s) : c ∈ s := by
  unfold trimJS at h
  rw [List.mem_reverse] at h
  have h2 := List.dropWhile_subset (p := isJsWs) h
  rw [List.mem_reverse] at h2
  exact List.dropWhile_subset _ h2

theorem exists_nonws_of_trim_ne {l : Str} (h : trimJS l ≠ []) :
    ∃ c ∈ l, isJsWs c = false := by
  by_contra hc
  push_neg at hc
  refine h (trimJS_allWs (fun c hcm => ?_))
  have := hc c hcm
  simpa using this

theorem simpleEntry_not_special {l : Str} (h : simpleEntryLine l = true) :
    trimJS l ≠ "\x7b\x7d".data ∧ trimJS l ≠ "[]".data ∧ trimJS l ≠ ['{'] ∧ trimJS l ≠ ['['] := by
  unfold simpleEntryLine at h
  simp only [Bool.and_eq_true, decide_eq_true_eq] at h
  have hsep := h.2
  refine ⟨?_, ?_, ?_, ?_⟩ <;> intro heq <;> rw [heq] at hsep <;> revert hsep <;> decide

theorem mapLoop_entries_stray {es : List Str} (hes : ∀ l ∈ es, simpleEntryLine l = true)
    {s : Str} (hs : trimJS s = ['}'] ∨ trimJS s = [']'])
    (acc : List (Str × JSValue)) (i : Nat) :
    mapLoop (es.length + 2) none acc (es ++ [s]) i =
      .error (.unexpectedClosing (trimJS s) (i + es.length + 1)) := by
  have h0 := mapLoop_simple_entries hes 2 (Or.inl rfl) acc [s] i
  rw [Nat.add_comm 2 es.length] at h0
  rw [h0, show (2 : Nat) = 1 + 1 from rfl, mapLoop_stray_step hs 1 _ [] _]

theorem mapLoop_entries_missep {es : List Str} (hes : ∀ l ∈ es, simpleEntryLine l = true)
    (acc : List (Str × JSValue)) (i : Nat) :
    mapLoop (es.length + 2) (some '}') acc (es ++ ["]".data]) i =
      .error (.missingSeparator (i + es.length + 1)) := by
  have h0 := mapLoop_simple_entries hes 2 (Or.inr rfl) acc ["]".data] i
  rw [Nat.add_comm 2 es.length] at h0
  rw [h0, show (2 : Nat) = 1 + 1 from rfl, mapLoop_missep_step (by decide) 1 _ [] _]

theorem arrLoop_elems_close {elems : List Str}
    (helems : ∀ l ∈ elems, simpleElemLine l = true) (acc : List JSValue) (i : Nat) :
    arrLoop (elems.length + 3) acc (elems ++ ["\x7d".data, "]".data]) i =
      .ok (.arr ((acc ++ elems.map (fun l => parseValue (trimJS l) none)) ++
          [.str "\x7d".data]), [], i + elems.length + 2) := by
  have h0 := arrLoop_simple_elems helems 3 acc ["\x7d".data, "]".data] i
  rw [Nat.add_comm 3 elems.length] at h0
  rw [h0, show (3 : Nat) = 2 + 1 from rfl,
    arrLoop_simple_step 2 (by decide) _ ["]".data] _]
  rw [show parseValue (trimJS "\x7d".data) none = .str "\x7d".data by decide]
  simp only [arrLoop]
  rw [if_neg (by decide), if_pos (by decide)]

/-- **C6 counterexample**: mismatched nesting does *not* raise
    `UnexpectedClosingDelimiter`: a `]` line inside a `{`-body raises
    `MissingSeparator`, and a `}` line inside a `[`-body is silently parsed as
    the string element `"\x7d"` with no error at all. -/
theorem stray_mismatch_cex :
    APON_parse "\x7b\n]\n\x7d".data = .error (.missingSeparator 2) ∧
    APON_parse "[\n\x7d\n]".data = .ok (.arr [.str "\x7d".data]) := by decide

/-- **C6 (amended)**: a stray `}` or `]` raises `UnexpectedClosingDelimiter`
    with that line's 1-based number only at the unterminated top level; under
    mismatched nesting the behavior differs: a `]` line inside a `{`-body
    raises `MissingSeparator` (with that line's 1-based number), and a `}`
    line inside a `[`-body is consumed as the string element `"\x7d"` with no
    error. -/
theorem stray_delimiter_behavior (es elems : List Str) (s : Str)
    (hpure : ∀ l ∈ es, '\n' ∉ l ∧ '\r' ∉ l) (hes : ∀ l ∈ es, simpleEntryLine l = true)
    (hpure2 : ∀ l ∈ elems, '\n' ∉ l ∧ '\r' ∉ l)
    (helems : ∀ l ∈ elems, simpleElemLine l = true)
    (hsp : '\n' ∉ s ∧ '\r' ∉ s) (hs : trimJS s = ['}'] ∨ trimJS s = [']']) :
    APON_parse (joinNL (es ++ [s])) =
      .error (.unexpectedClosing (trimJS s) (es.length + 1)) ∧
    APON_parse (joinNL ("a: \x7b".data :: (es ++ ["]".data]))) =
      .error (.missingSeparator (es.length + 2)) ∧
    APON_parse (joinNL ("a: [".data :: (elems ++ ["\x7d".data, "]".data]))) =
      .ok (.obj [("a".data,
        .arr (elems.map (fun l => parseValue (trimJS l) none) ++ [.str "\x7d".data]))]) := by
  have hssig : trimJS s ≠ [] ∧ (trimJS s).head? ≠ some '#' := by
    rcases hs with h | h <;> rw [h] <;> exact ⟨by decide, by decide⟩
  have hsimple_sig : ∀ l ∈ es, trimJS l ≠ [] ∧ (trimJS l).head? ≠ some '#' := by
    intro l hl
    have h := hes l hl
    unfold simpleEntryLine at h
    simp only [Bool.and_eq_true, decide_eq_true_eq] at h
    exact ⟨h.1.1.1.1, h.1.1.1.2⟩
  have hpure_tail : ∀ (tail : List Str), (∀ l ∈ tail, '\n' ∉ l ∧ '\r' ∉ l) →
      ∀ x ∈ tail ++ [s], '\n' ∉ x ∧ '\r' ∉ x := by
    intro tail htail x hx
    rcases List.mem_append.mp hx with h1 | h1
    · exact htail x h1
    · simp only [List.mem_singleton] at h1
      subst h1
      exact hsp
  refine ⟨?_, ?_, ?_⟩
  · cases es with
    | nil =>
        have hns : trimJS s ≠ "\x7b\x7d".data ∧ trimJS s ≠ "[]".data ∧ trimJS s ≠ ['{'] ∧
            trimJS s ≠ ['['] := by
          rcases hs with h | h <;> rw [h] <;>
            exact ⟨by decide, by decide, by decide, by decide⟩
        rw [List.nil_append, show joinNL [s] = joinNL (s :: []) from rfl,
          parse_entry_root s [] hsp (by simp) hssig hns
            (exists_nonws_of_trim_ne hssig.1)]
        rw [show (([s] : List Str).length + 1) = 1 + 1 from rfl,
          mapLoop_stray_step hs 1 [] [] 0]
        rfl
    | cons l tl =>
        have hltl : l ∈ l :: tl := List.mem_cons_self l tl
        have hlsig := hsimple_sig l hltl
        rw [List.cons_append,
          parse_entry_root l (tl ++ [s]) (hpure l hltl)
            (hpure_tail tl (fun x hx => hpure x (List.mem_cons_of_mem l hx)))
            hlsig (simpleEntry_not_special (hes l hltl))
            (exists_nonws_of_trim_ne hlsig.1)]
        rw [show (l :: (tl ++ [s])).length + 1 = (l :: tl).length + 2 by
          simp [List.length_append]]
        rw [show (l :: (tl ++ [s])) = (l :: tl) ++ [s] from rfl,
          mapLoop_entries_stray hes hs [] 0]
        simp [Except.map]
  · rw [parse_entry_root "a: \x7b".data (es ++ ["]".data]) (by decide)
      (fun x hx => by
        rcases List.mem_append.mp hx with h1 | h1
        · exact hpure x h1
        · simp only [List.mem_singleton] at h1
          subst h1
          exact ⟨by decide, by decide⟩)
      ⟨by decide, by decide⟩
      ⟨by decide, by decide, by decide, by decide⟩ ⟨'a', by decide, by decide⟩]
    have hlen : ("a: \x7b".data :: (es ++ ["]".data])).length + 1 =
        (es.length + 2) + 1 := by
      simp [List.length_append]
    rw [hlen]
    simp only [mapLoop]
    rw [if_neg (by decide), if_neg (by decide), if_neg (by decide),
      show indexOfChar (trimJS "a: \x7b".data) ':' = some 1 by decide]
    simp only [if_pos (by decide : trimJS (List.drop (1 + 1) (trimJS "a: \x7b".data)) = ['{'])]
    rw [mapLoop_entries_missep hes [] 1,
      show 1 + es.length + 1 = es.length + 2 by omega]
    rfl
  · rw [parse_entry_root "a: [".data (elems ++ ["\x7d".data, "]".data]) (by decide)
      (fun x hx => by
        rcases List.mem_append.mp hx with h1 | h1
        · exact hpure2 x h1
        · rcases List.mem_cons.mp h1 with rfl | h2
          · exact ⟨by decide, by decide⟩
          · simp only [List.mem_singleton] at h2
            subst h2
            exact ⟨by decide, by decide⟩)
      ⟨by decide, by decide⟩
      ⟨by decide, by decide, by decide, by decide⟩ ⟨'a', by decide, by decide⟩]
    have hlen : ("a: [".data :: (elems ++ ["\x7d".data, "]".data])).length + 1 =
        (elems.length + 3) + 1 := by
      simp [List.length_append]
    rw [hlen]
    simp only [mapLoop]
    rw [if_neg (by decide), if_neg (by decide), if_neg (by decide),
      show indexOfChar (trimJS "a: [".data) ':' = some 1 by decide]
    simp only [if_neg (by decide : ¬ trimJS (List.drop (1 + 1) (trimJS "a: [".data)) = ['{']),
      if_pos (by decide : trimJS (List.drop (1 + 1) (trimJS "a: [".data)) = ['['])]
    rw [arrLoop_elems_close helems [] 1]
    simp only [List.nil_append, mapLoop]
    rfl

/-- **C6 witness**: the amended theorem at one simple entry `x: 1`, one simple
    element `7`, and the stray line ` } `, with all three behaviors
    evaluated. -/
theorem stray_delimiter_behavior_witness :
    (simpleEntryLine "x: 1".data = true ∧ simpleElemLine "7".data = true ∧
      trimJS " \x7d ".data = ['}']) ∧
    APON_parse (joinNL ["x: 1".data, " \x7d ".data]) =
      .error (.unexpectedClosing (trimJS " \x7d ".data) 2) ∧
    APON_parse (joinNL ["a: \x7b".data, "x: 1".data, "]".data]) =
      .error (.missingSeparator 3) ∧
    APON_parse (joinNL ["a: [".data, "7".data, "\x7d".data, "]".data]) =
      .ok (.obj [("a".data,
        .arr (["7".data].map (fun l => parseValue (trimJS l) none) ++ [.str "\x7d".data]))]) :=
  ⟨⟨by decide, by decide, by decide⟩,
    (stray_delimiter_behavior ["x: 1".data] ["7".data] " \x7d ".data
      (by decide) (by decide) (by decide) (by decide) (by decide) (by decide)).1,
    (stray_delimiter_behavior ["x: 1".data] ["7".data] " \x7d ".data
      (by decide) (by decide) (by decide) (by decide) (by decide) (by decide)).2.1,
    (stray_delimiter_behavior ["x: 1".data] ["7".data] " \x7d ".data
      (by decide) (by decide) (by decide) (by decide) (by decide) (by decide)).2.2⟩

/-! ### C10: mapping names are unique, last occurrence wins -/

mutual

/-- Every Mapping in the tree binds each name at most once. -/
def nodupKeysV : JSValue → Bool
  | .arr es => nodupKeysL es
  | .obj ps => decide ((ps.map Prod.fst).Nodup) && nodupKeysE ps
  | _ => true

def nodupKeysL : List JSValue → Bool
  | [] => true
  | v :: vs => nodupKeysV v && nodupKeysL vs

def nodupKeysE : List (Str × JSValue) → Bool
  | [] => true
  | (_, v) :: ps => nodupKeysV v && nodupKeysE ps

end

theorem parseValue_nodup (v : Str) (th : Option Str) :
    nodupKeysV (parseValue v th) = true := by
  have hcast : ∀ (w h : Str), nodupKeysV (castValue w h) = true := by
    intro w h
    simp only [castValue]
    repeat' split
    all_goals rfl
  simp only [parseValue]
  split
  · split
    · exact hcast _ _
    · rfl
  · split
    · exact hcast _ _
    · split
      · rfl
      · split
        · rfl
        · split
          · rfl
          · split
            · split <;> rfl
            · rfl

theorem setKey_map_fst {acc : List (Str × JSValue)} {k : Str} {v : JSValue} :
    (setKey acc k v).map Prod.fst =
      if acc.any (fun p => p.1 = k) then acc.map Prod.fst
      else acc.map Prod.fst ++ [k] := by
  unfold setKey
  split
  · rw [List.map_map]
    refine List.map_congr_left (fun p _ => ?_)
    by_cases hp : p.1 = k
    · simp [hp]
    · simp [hp]
  · simp

theorem nodupKeysE_append {a b : List (Str × JSValue)} (ha : nodupKeysE a = true)
    (hb : nodupKeysE b = true) : nodupKeysE (a ++ b) = true := by
  induction a with
  | nil => exact hb
  | cons p ps ih =>
      obtain ⟨k', v'⟩ := p
      simp only [nodupKeysE, Bool.and_eq_true] at ha
      simp only [List.cons_append, nodupKeysE, Bool.and_eq_true]
      exact ⟨ha.1, ih ha.2⟩

theorem nodupKeysE_map_set {ps : List (Str × JSValue)} {k : Str} {v : JSValue}
    (hps : nodupKeysE ps = true) (hv : nodupKeysV v = true) :
    nodupKeysE (ps.map (fun p => if p.1 = k then (k, v) else p)) = true := by
  induction ps with
  | nil => rfl
  | cons p ps ih =>
      obtain ⟨k', v'⟩ := p
      simp only [nodupKeysE, Bool.and_eq_true] at hps
      by_cases hp : k' = k
      · rw [show (((k', v') :: ps).map (fun p => if p.1 = k then (k, v) else p)) =
            (k, v) :: ps.map (fun p => if p.1 = k then (k, v) else p) by
          rw [List.map_cons]
          congr 1
          exact if_pos hp]
        simp only [nodupKeysE, Bool.and_eq_true]
        exact ⟨hv, ih hps.2⟩
      · rw [show (((k', v') :: ps).map (fun p => if p.1 = k then (k, v) else p)) =
            (k', v') :: ps.map (fun p => if p.1 = k then (k, v) else p) by
          rw [List.map_cons]
          congr 1
          exact if_neg hp]
        simp only [nodupKeysE, Bool.and_eq_true]
        exact ⟨hps.1, ih hps.2⟩

theorem nodupKeysL_append {a b : List JSValue} (ha : nodupKeysL a = true)
    (hb : nodupKeysL b = true) : nodupKeysL (a ++ b) = true := by
  induction a with
  | nil => exact hb
  | cons x xs ih =>
      simp only [nodupKeysL, Bool.and_eq_true] at ha
      simp only [List.cons_append, nodupKeysL, Bool.and_eq_true]
      exact ⟨ha.1, ih ha.2⟩

theorem setKey_nodup {acc : List (Str × JSValue)} {k : Str} {v : JSValue}
    (hk : (acc.map Prod.fst).Nodup) (hacc : nodupKeysE acc = true)
    (hv : nodupKeysV v = true) :
    ((setKey acc k v).map Prod.fst).Nodup ∧ nodupKeysE (setKey acc k v) = true := by
  constructor
  · rw [setKey_map_fst]
    split
    · exact hk
    · next hmem =>
        rw [List.nodup_append]
        refine ⟨hk, List.nodup_singleton k, fun a ha hb => ?_⟩
        rw [List.mem_singleton] at hb
        subst hb
        obtain ⟨p, hp, hpk⟩ := List.mem_map.mp ha
        exact hmem (List.any_eq_true.mpr ⟨p, hp, by simp [hpk]⟩)
  · unfold setKey
    split
    · exact nodupKeysE_map_set hacc hv
    · refine nodupKeysE_append hacc ?_
      simp only [nodupKeysE, Bool.and_eq_true]
      exact ⟨hv, trivial⟩

theorem loops_nodup : ∀ fuel : Nat,
    (∀ (endc : Option Char) (acc : List (Str × JSValue)) (ls : List Str) (i : Nat)
       (v : JSValue) (rest : List Str) (i' : Nat),
       (acc.map Prod.fst).Nodup → nodupKeysE acc = true →
       mapLoop fuel endc acc ls i = .ok (v, rest, i') → nodupKeysV v = true) ∧
    (∀ (acc : List JSValue) (ls : List Str) (i : Nat)
       (v : JSValue) (rest : List Str) (i' : Nat),
       nodupKeysL acc = true →
       arrLoop fuel acc ls i = .ok (v, rest, i') → nodupKeysV v = true) := by
  intro fuel
  induction fuel with
  | zero =>
      constructor
      · intro _ _ _ _ _ _ _ _ _ h
        exact absurd h (by simp [mapLoop])
      · intro _ _ _ _ _ _ _ h
        exact absurd h (by simp [arrLoop])
  | succ f ih =>
      constructor
      · intro endc acc ls i v rest i' hk hacc h
        match ls with
        | [] =>
            simp only [mapLoop] at h
            cases endc with
            | some c => exact absurd h (by simp)
            | none =>
                simp only [Except.ok.injEq, Prod.mk.injEq] at h
                obtain ⟨rfl, -, -⟩ := h
                simp [nodupKeysV, hk, hacc]
        | l :: tl =>
            simp only [mapLoop] at h
            split at h
            · exact ih.1 endc acc tl (i + 1) v rest i' hk hacc h
            · split at h
              · simp only [Except.ok.injEq, Prod.mk.injEq] at h
                obtain ⟨rfl, -, -⟩ := h
                simp [nodupKeysV, hk, hacc]
              · split at h
                · exact absurd h (by simp)
                · split at h
                  · exact absurd h (by simp)
                  · split at h
                    · split at h
                      · next w rest2 i2 hw =>
                          have hwnd : nodupKeysV w = true :=
                            ih.1 (some '}') [] tl (i + 1) w rest2 i2 (by simp) rfl hw
                          obtain ⟨hk2, hacc2⟩ := setKey_nodup hk hacc hwnd
                          exact ih.1 endc _ _ _ v rest i' hk2 hacc2 h
                      · exact absurd h (by simp)
                    · split at h
                      · split at h
                        · next w rest2 i2 hw =>
                            have hwnd : nodupKeysV w = true :=
                              ih.2 [] tl (i + 1) w rest2 i2 rfl hw
                            obtain ⟨hk2, hacc2⟩ := setKey_nodup hk hacc hwnd
                            exact ih.1 endc _ _ _ v rest i' hk2 hacc2 h
                        · exact absurd h (by simp)
                      · split at h
                        · obtain ⟨hk2, hacc2⟩ := setKey_nodup hk hacc
                            (show nodupKeysV (JSValue.str (textBlock tl (i + 1) [] true).1) = true
                              from rfl)
                          exact ih.1 endc _ _ _ v rest i' hk2 hacc2 h
                        · obtain ⟨hk2, hacc2⟩ :=
                            setKey_nodup hk hacc (parseValue_nodup _ _)
                          exact ih.1 endc _ tl (i + 1) v rest i' hk2 hacc2 h
      · intro acc ls i v rest i' hacc h
        match ls with
        | [] => exact absurd h (by simp [arrLoop])
        | l :: tl =>
            simp only [arrLoop] at h
            split at h
            · exact ih.2 acc tl (i + 1) v rest i' hacc h
            · split at h
              · simp only [Except.ok.injEq, Prod.mk.injEq] at h
                obtain ⟨rfl, -, -⟩ := h
                simp [nodupKeysV, hacc]
              · split at h
                · split at h
                  · next w rest2 i2 hw =>
                      have hwnd : nodupKeysV w = true :=
                        ih.1 (some '}') [] tl (i + 1) w rest2 i2 (by simp) rfl hw
                      exact ih.2 (acc ++ [w]) rest2 i2 v rest i'
                        (nodupKeysL_append hacc (by simp [nodupKeysL, hwnd])) h
                  · exact absurd h (by simp)
                · split at h
                  · split at h
                    · next w rest2 i2 hw =>
                        have hwnd : nodupKeysV w = true :=
                          ih.2 [] tl (i + 1) w rest2 i2 rfl hw
                        exact ih.2 (acc ++ [w]) rest2 i2 v rest i'
                          (nodupKeysL_append hacc (by simp [nodupKeysL, hwnd])) h
                    · exact absurd h (by simp)
                  · exact ih.2 (acc ++ [parseValue (trimJS l) none]) tl (i + 1) v rest i'
                      (nodupKeysL_append hacc
                        (by simp [nodupKeysL, parseValue_nodup])) h

/-- **C10**: for every input `parse` accepts, no Mapping in the returned
    value tree binds the same name twice; and when one mapping body repeats a
    name, `parse` succeeds and the repeated name is bound to the value of the
    last occurrence (the earlier one is discarded). -/
theorem mapping_names_unique :
    (∀ (text : Str) (v : JSValue), APON_parse text = .ok v → nodupKeysV v = true) ∧
    APON_parse "a: 1\na: 2".data = .ok (.obj [("a".data, .num (.num 2))]) := by
  refine ⟨?_, by decide⟩
  intro text v h
  unfold APON_parse at h
  split at h
  · simp only [Except.ok.injEq] at h
    subst h
    rfl
  · cases hfs : firstSignificantAux (splitLinesJS text) 0 with
    | none =>
        simp only [hfs] at h
        split at h <;> (simp only [Except.ok.injEq] at h; subst h; rfl)
    | some p =>
        obtain ⟨firstLine, idx⟩ := p
        simp only [hfs] at h
        split at h
        · simp only [Except.ok.injEq] at h
          subst h
          rfl
        · split at h
          · simp only [Except.ok.injEq] at h
            subst h
            rfl
          · split at h
            · split at h
              · next w rest2 i2 hw =>
                  split at h
                  · exact absurd h (by simp)
                  · simp only [Except.ok.injEq] at h
                    subst h
                    exact (loops_nodup _).1 (some '}') [] _ _ w rest2 i2 (by simp) rfl hw
              · exact absurd h (by simp)
            · split at h
              · split at h
                · next w rest2 i2 hw =>
                    split at h
                    · exact absurd h (by simp)
                    · simp only [Except.ok.injEq] at h
                      subst h
                      exact (loops_nodup _).2 [] _ _ w rest2 i2 rfl hw
                · exact absurd h (by simp)
              · cases hm : mapLoop ((splitLinesJS text).length + 1) none []
                    (splitLinesJS text) 0 with
                | ok r =>
                    obtain ⟨w, rest2, i2⟩ := r
                    rw [hm] at h
                    simp only [Except.map, Except.ok.injEq] at h
                    subst h
                    exact (loops_nodup _).1 none [] (splitLinesJS text) 0 w rest2 i2
                      (by simp) rfl hm
                | error e =>
                    rw [hm] at h
                    exact absurd h (by simp [Except.map])

/-- **C10 witness**: the invariant applied to the parse of a document with a
    nested mapping, plus the concrete last-occurrence behavior. -/
theorem mapping_names_unique_witness :
    APON_parse "u: \x7b\n b: 1\n b: 2\n\x7d".data =
      .ok (.obj [("u".data, .obj [("b".data, .num (.num 2))])]) ∧
    nodupKeysV (.obj [("u".data, .obj [("b".data, .num (.num 2))])]) = true :=
  ⟨by decide,
    mapping_names_unique.1 "u: \x7b\n b: 1\n b: 2\n\x7d".data
      (.obj [("u".data, .obj [("b".data, .num (.num 2))])]) (by decide)⟩


/-! ### C1: round-tripping `parse` after `stringify`.

First the scalar string machinery: `unescapeString` inverts `escapeString` on
single-line strings that contain no backslash immediately followed by `n` or
`t` (such strings hit the source's escape-ordering gap: `escapeString` doubles
the backslash but `unescapeString` replaces `\\n` before `\\\\`). -/

/-- No adjacent occurrence of the two-character pattern `a b`. -/
def noPair (a b : Char) : Str → Bool
  | x :: y :: t => if x = a ∧ y = b then false else noPair a b (y :: t)
  | _ => true

theorem noPair_cons {a b x : Char} {s : Str} :
    noPair a b (x :: s) = true ↔
      ¬(x = a ∧ s.head? = some b) ∧ noPair a b s = true := by
  cases s with
  | nil => simp [noPair]
  | cons y t =>
      rw [show noPair a b (x :: y :: t) =
          if x = a ∧ y = b then false else noPair a b (y :: t) from rfl]
      split
    
      · next h => simp [h]
      · next h => simp only [List.head?_cons, Option.some.injEq]; tauto

theorem replacePair_cons_ne {a b x : Char} {r s : Str}
    (h : ¬(x = a ∧ s.head? = some b)) :
    replacePair a b r (x :: s) = x :: replacePair a b r s := by
  cases s with
  | nil => rfl
  | cons y t =>
      rw [show replacePair a b r (x :: y :: t) =
          if x = a ∧ y = b then r ++ replacePair a b r t
          else x :: replacePair a b r (y :: t) from rfl]
      rw [if_neg]
      simpa using h

theorem replacePair_id {a b : Char} {r s : Str} (h : noPair a b s = true) :
    replacePair a b r s = s := by
  induction s with
  | nil => rfl
  | cons x t ih =>
      obtain ⟨h1, h2⟩ := noPair_cons.mp h
      rw [replacePair_cons_ne h1, ih h2]

theorem replaceCharAll_chars {c : Char} {repl s : Str} {x : Char}
    (hx : x ∈ replaceCharAll c repl s) : x ∈ s ∨ x ∈ repl := by
  induction s with
  | nil => simp [replaceCharAll] at hx
  | cons y t ih =>
      simp only [replaceCharAll, List.mem_append] at hx
      rcases hx with hx | hx
      · split at hx
        · exact Or.inr hx
        · simp only [List.mem_singleton] at hx
          exact Or.inl (hx ▸ List.mem_cons_self y t)
      · rcases ih hx with h | h
        · exact Or.inl (List.mem_cons_of_mem y h)
        · exact Or.inr h

theorem replaceCharAll_id {c : Char} {repl : Str} {s : Str} (h : c ∉ s) :
    replaceCharAll c repl s = s := by
  induction s with
  | nil => rfl
  | cons y t ih =>
      have hy : y ≠ c := fun hy => h (hy ▸ List.mem_cons_self y t)
      simp only [replaceCharAll, if_neg hy, List.singleton_append, List.cons.injEq,
        true_and]
      exact ih (fun hc => h (List.mem_cons_of_mem y hc))

theorem replaceCharAll_self (c : Char) (s : Str) : replaceCharAll c [c] s = s := by
  induction s with
  | nil => rfl
  | cons y t ih =>
      simp only [replaceCharAll, ih]
      split
    
      · next h => rw [h]; rfl
      · rfl

theorem replaceCharFirst_self (c : Char) (s : Str) : replaceCharFirst c [c] s = s := by
  induction s with
  | nil => rfl
  | cons y t ih =>
      simp only [replaceCharFirst, ih]
      split
    
      · next h => rw [h]; rfl
      · rfl

theorem escapeString_no_nl {s : Str} (h : '\n' ∉ s) :
    escapeString s = replaceCharAll '\\' ['\\', '\\'] s := by
  unfold escapeString
  rw [replaceCharAll_self]
  refine replaceCharAll_id ?_
  intro hx
  rcases replaceCharAll_chars hx with hc | hc
  · exact h hc
  · simp at hc

theorem dbl_cons_bs (t : Str) :
    replaceCharAll '\\' ['\\', '\\'] ('\\' :: t) =
      '\\' :: '\\' :: replaceCharAll '\\' ['\\', '\\'] t := by
  simp [replaceCharAll]

theorem dbl_cons_ne {x : Char} (hx : x ≠ '\\') (t : Str) :
    replaceCharAll '\\' ['\\', '\\'] (x :: t) =
      x :: replaceCharAll '\\' ['\\', '\\'] t := by
  simp [replaceCharAll, hx]

theorem dbl_head_ne {b : Char} (hb : b ≠ '\\') {t : Str}
    (ht : t.head? ≠ some b) :
    (replaceCharAll '\\' ['\\', '\\'] t).head? ≠ some b := by
  cases t with
  | nil => simp [replaceCharAll]
  | cons y u =>
      by_cases hy : y = '\\'
      · subst hy
        rw [dbl_cons_bs]
        simpa using fun h => hb h.symm
      · rw [dbl_cons_ne hy]
        simpa using fun h => ht (by simp [h])

theorem noPair_dbl {b : Char} (hb : b ≠ '\\') {s : Str}
    (h : noPair '\\' b s = true) :
    noPair '\\' b (replaceCharAll '\\' ['\\', '\\'] s) = true := by
  induction s with
  | nil => rfl
  | cons x t ih =>
      obtain ⟨h1, h2⟩ := noPair_cons.mp h
      by_cases hx : x = '\\'
      · subst hx
        rw [dbl_cons_bs]
        refine noPair_cons.mpr ⟨?_, noPair_cons.mpr ⟨?_, ih h2⟩⟩
        · rintro ⟨-, hhd⟩
          simp only [List.head?_cons, Option.some.injEq] at hhd
          exact hb hhd.symm
        · rintro ⟨-, hhd⟩
          exact dbl_head_ne hb (fun hh => h1 ⟨rfl, hh⟩) hhd
      · rw [dbl_cons_ne hx]
        refine noPair_cons.mpr ⟨?_, ih h2⟩
        rintro ⟨hxa, -⟩
        exact hx hxa

theorem replacePair_dbl_undo (s : Str) :
    replacePair '\\' '\\' ['\\'] (replaceCharAll '\\' ['\\', '\\'] s) = s := by
  induction s with
  | nil => rfl
  | cons x t ih =>
      by_cases hx : x = '\\'
      · subst hx
        rw [dbl_cons_bs]
        rw [show replacePair '\\' '\\' ['\\']
            ('\\' :: '\\' :: replaceCharAll '\\' ['\\', '\\'] t) =
            '\\' :: replacePair '\\' '\\' ['\\']
              (replaceCharAll '\\' ['\\', '\\'] t) from by
          rw [show replacePair '\\' '\\' ['\\'] ('\\' :: '\\' :: _) =
              if '\\' = '\\' ∧ '\\' = '\\' then
                ['\\'] ++ replacePair '\\' '\\' ['\\']
                  (replaceCharAll '\\' ['\\', '\\'] t)
              else _ from rfl]
          simp]
        rw [ih]
      · rw [dbl_cons_ne hx]
        rw [replacePair_cons_ne (by rintro ⟨hxa, -⟩; exact hx hxa), ih]

/-- On a single-line string with no backslash-`n`/backslash-`t` pair,
    `unescapeString` inverts `escapeString`. -/
theorem unescape_escape {s : Str} (hn : '\n' ∉ s)
    (hpn : noPair '\\' 'n' s = true) (hpt : noPair '\\' 't' s = true) :
    unescapeString (escapeString s) = s := by
  rw [escapeString_no_nl hn]
  unfold unescapeString
  rw [replaceCharAll_self, replaceCharFirst_self,
      replacePair_id (noPair_dbl (by decide) hpn),
      replacePair_id (noPair_dbl (by decide) hpt),
      replacePair_dbl_undo]



/-! #### Printing and re-reading integer Numbers -/

theorem digitsToNat_cons_init (a : Nat) (c : Char) (ds : Str) :
    List.foldl (fun x c => x * 10 + digitVal c) a (c :: ds) =
      List.foldl (fun x c => x * 10 + digitVal c) (a * 10 + digitVal c) ds := rfl

theorem digitsToNat_foldl_init (ds : Str) : ∀ a : Nat,
    List.foldl (fun x c => x * 10 + digitVal c) a ds =
      a * 10 ^ ds.length + digitsToNat ds := by
  induction ds with
  | nil => intro a; simp [digitsToNat]
  | cons c t ih =>
      intro a
      rw [digitsToNat_cons_init, ih]
      rw [show digitsToNat (c :: t) =
          List.foldl (fun x c => x * 10 + digitVal c) (digitVal c) t from by
        simp [digitsToNat]]
      rw [ih (digitVal c)]
      simp only [List.length_cons]
      ring

theorem digitsToNat_append (a b : Str) :
    digitsToNat (a ++ b) = digitsToNat a * 10 ^ b.length + digitsToNat b := by
  unfold digitsToNat
  rw [List.foldl_append, digitsToNat_foldl_init]
  rfl

theorem digitsToNat_replicate_zero (v : Nat) :
    digitsToNat (List.replicate v '0') = 0 := by
  induction v with
  | zero => rfl
  | succ n ih =>
      rw [List.replicate_succ]
      unfold digitsToNat at ih ⊢
      rw [digitsToNat_cons_init]
      simpa using ih

theorem digitChar_spec {n : Nat} (h : n < 10) :
    isDigitChar (digitChar n) = true ∧ digitVal (digitChar n) = n := by
  interval_cases n <;> exact ⟨by decide, by decide⟩

theorem natDigitCharsAux_spec : ∀ fuel n, n < 10 ^ (fuel + 1) →
    natDigitCharsAux (fuel + 1) n ≠ [] ∧
    (∀ c ∈ natDigitCharsAux (fuel + 1) n, isDigitChar c = true) ∧
    digitsToNat (natDigitCharsAux (fuel + 1) n) = n ∧
    (1 ≤ n → 10 ^ ((natDigitCharsAux (fuel + 1) n).length - 1) ≤ n) := by
  intro fuel
  induction fuel with
  | zero =>
      intro n hn
      norm_num at hn
      rw [show natDigitCharsAux 1 n = [digitChar n] from by
        simp [natDigitCharsAux, hn]]
      obtain ⟨hd, hv⟩ := digitChar_spec hn
      refine ⟨List.cons_ne_nil _ _, by simpa using hd,
        by simp [digitsToNat, hv], fun h1 => ?_⟩
      calc 10 ^ (List.length [digitChar n] - 1) = 1 := by norm_num
        _ ≤ n := h1
  | succ f ih =>
      intro n hn
      by_cases hsmall : n < 10
      · rw [show natDigitCharsAux (f + 1 + 1) n = [digitChar n] from by
          simp [natDigitCharsAux, hsmall]]
        obtain ⟨hd, hv⟩ := digitChar_spec hsmall
        refine ⟨List.cons_ne_nil _ _, by simpa using hd,
          by simp [digitsToNat, hv], fun h1 => ?_⟩
        calc 10 ^ (List.length [digitChar n] - 1) = 1 := by norm_num
          _ ≤ n := h1
      · rw [show natDigitCharsAux (f + 1 + 1) n =
            natDigitCharsAux (f + 1) (n / 10) ++ [digitChar (n % 10)] from by
          rw [show natDigitCharsAux (f + 1 + 1) n =
              if n < 10 then [digitChar n]
              else natDigitCharsAux (f + 1) (n / 10) ++ [digitChar (n % 10)] from
            rfl]
          rw [if_neg hsmall]]
        have hdiv : n / 10 < 10 ^ (f + 1) := by
          have h10 : (10 : Nat) ^ (f + 1 + 1) = 10 ^ (f + 1) * 10 := by ring
          rw [h10] at hn
          omega
        obtain ⟨hne, hall, hval, hlow⟩ := ih (n / 10) hdiv
        obtain ⟨hd, hv⟩ := digitChar_spec (Nat.mod_lt n (by omega))
        refine ⟨by simp, ?_, ?_, ?_⟩
      
        · intro c hc
          rcases List.mem_append.mp hc with hc | hc
          · exact hall c hc
          · simp only [List.mem_singleton] at hc
            exact hc ▸ hd
        · rw [digitsToNat_append]
          simp only [List.length_singleton, pow_one]
          rw [hval]
          rw [show digitsToNat [digitChar (n % 10)] = digitVal (digitChar (n % 10)) from by
            simp [digitsToNat]]
          rw [hv]
          omega
        · intro _
          have h1 : 1 ≤ n / 10 := by omega
          have := hlow h1
          have hlen1 : 1 ≤ (natDigitCharsAux (f + 1) (n / 10)).length :=
            List.length_pos.mpr hne
          rw [List.length_append, List.length_singleton]
          have heq : (natDigitCharsAux (f + 1) (n / 10)).length + 1 - 1 =
              ((natDigitCharsAux (f + 1) (n / 10)).length - 1) + 1 := by omega
          rw [heq, pow_succ]
          have h2 : 10 ^ ((natDigitCharsAux (f + 1) (n / 10)).length - 1) * 10 ≤
              (n / 10) * 10 := Nat.mul_le_mul_right 10 this
          omega

theorem natDigitChars_spec (n : Nat) :
    natDigitChars n ≠ [] ∧
    (∀ c ∈ natDigitChars n, isDigitChar c = true) ∧
    digitsToNat (natDigitChars n) = n ∧
    (1 ≤ n → 10 ^ ((natDigitChars n).length - 1) ≤ n) := by
  have hfuel : n < 10 ^ (n + 1) := by
    calc n < n + 1 := by omega
      _ ≤ 10 ^ (n + 1) := by
          calc n + 1 ≤ 2 ^ (n + 1) := by
                exact Nat.le_of_lt (Nat.lt_two_pow (n + 1))
            _ ≤ 10 ^ (n + 1) := Nat.pow_le_pow_left (by omega) _
  exact natDigitCharsAux_spec n n hfuel

theorem strip10Aux_spec : ∀ fuel m,
    (strip10Aux fuel m).1 * 10 ^ (strip10Aux fuel m).2 = m := by
  intro fuel
  induction fuel with
  | zero => intro m; simp [strip10Aux]
  | succ f ih =>
      intro m
      rw [show strip10Aux (f + 1) m =
          if m % 10 = 0 ∧ m ≠ 0 then
            ((strip10Aux f (m / 10)).1, (strip10Aux f (m / 10)).2 + 1)
          else (m, 0) from by
        simp only [strip10Aux]]
      split
    
      · next h =>
          simp only [pow_succ]
          have := ih (m / 10)
          rw [show (strip10Aux f (m / 10)).1 * (10 ^ (strip10Aux f (m / 10)).2 * 10) =
              (strip10Aux f (m / 10)).1 * 10 ^ (strip10Aux f (m / 10)).2 * 10 from by
            ring]
          rw [this]
          omega
      · simp

theorem digitsToNat_lt {ds : Str} (h : ∀ c ∈ ds, isDigitChar c = true) :
    digitsToNat ds < 10 ^ ds.length := by
  have key : ∀ (t : Str) (a : Nat), (∀ c ∈ t, isDigitChar c = true) →
      List.foldl (fun x c => x * 10 + digitVal c) a t < (a + 1) * 10 ^ t.length := by
    intro t
    induction t with
    | nil => intro a _; simpa using Nat.lt_succ_self a
    | cons c u ih =>
        intro a hall
        rw [digitsToNat_cons_init]
        have hc := hall c (List.mem_cons_self c u)
        have hd : digitVal c ≤ 9 := by
          unfold isDigitChar at hc
          simp only [Bool.and_eq_true, decide_eq_true_eq] at hc
          unfold digitVal
          have h0 : '0'.toNat = 48 := rfl
          have h9 : c.toNat ≤ '9'.toNat := hc.2
          have : '9'.toNat = 57 := rfl
          omega
        calc List.foldl (fun x c => x * 10 + digitVal c) (a * 10 + digitVal c) u
            < (a * 10 + digitVal c + 1) * 10 ^ u.length :=
              ih _ (fun x hx => hall x (List.mem_cons_of_mem c hx))
          _ ≤ (a + 1) * 10 ^ (c :: u).length := by
              simp only [List.length_cons, pow_succ]
              have : a * 10 + digitVal c + 1 ≤ (a + 1) * 10 := by omega
              calc (a * 10 + digitVal c + 1) * 10 ^ u.length
                  ≤ (a + 1) * 10 * 10 ^ u.length := Nat.mul_le_mul_right _ this
                _ = (a + 1) * (10 ^ u.length * 10) := by ring
  have := key ds 0 h
  simpa [digitsToNat] using this

theorem formatDigits_intpos (ds : Str) (v : Nat) (h21 : ds.length + v ≤ 21) :
    formatDigits ds ((ds.length : Int) + (v : Int) - ((0 : Nat) : Int)) =
      ds ++ List.replicate v '0' := by
  have hcnt : (((ds.length : Int) + (v : Int) - ((0 : Nat) : Int)) -
      (ds.length : Int)).toNat = v := by omega
  simp only [formatDigits]
  split
  · rw [hcnt]
  · next hcond =>
      refine absurd ⟨?_, ?_⟩ hcond
    
      · omega
      · omega

theorem jsNumToString_num_eq {q : ℚ} (hq : q.num ≠ 0) {e : Nat}
    (hfd : findDecExp q.den = some e) :
    jsNumToString (.num q) = (if q.num < 0 then ['-'] else []) ++
      formatDigits (natDigitChars (strip10 (q.num.natAbs * 10 ^ e / q.den)).1)
        (((natDigitChars (strip10 (q.num.natAbs * 10 ^ e / q.den)).1).length : Int) +
          ((strip10 (q.num.natAbs * 10 ^ e / q.den)).2 : Int) - (e : Int)) := by
  simp only [jsNumToString]
  rw [if_neg hq, hfd]

/-- Rendering an integer-valued rational of magnitude below `10^21`:
    `String(number)` is the plain optionally-signed decimal numeral. -/
theorem jsNumToString_int {q : ℚ} (hden : q.den = 1) (hq : q.num ≠ 0)
    (hb : q.num.natAbs < 10 ^ 21) :
    jsNumToString (.num q) =
      (if q.num < 0 then ['-'] else []) ++
        natDigitChars (strip10 q.num.natAbs).1 ++
        List.replicate (strip10 q.num.natAbs).2 '0' ∧
    digitsToNat (natDigitChars (strip10 q.num.natAbs).1 ++
        List.replicate (strip10 q.num.natAbs).2 '0') = q.num.natAbs := by
  have hstrip : (strip10 q.num.natAbs).1 * 10 ^ (strip10 q.num.natAbs).2 =
      q.num.natAbs := strip10Aux_spec _ _
  obtain ⟨hne, hall, hval, hlow⟩ := natDigitChars_spec (strip10 q.num.natAbs).1
  have hs1 : 1 ≤ (strip10 q.num.natAbs).1 := by
    rcases Nat.eq_zero_or_pos (strip10 q.num.natAbs).1 with h0 | h1
    · rw [h0] at hstrip
      simp at hstrip
      exact absurd (Int.natAbs_eq_zero.mp hstrip.symm) hq
    · exact h1
  have hlen1 : 1 ≤ (natDigitChars (strip10 q.num.natAbs).1).length :=
    List.length_pos.mpr hne
  have hbound : (natDigitChars (strip10 q.num.natAbs).1).length +
      (strip10 q.num.natAbs).2 ≤ 21 := by
    by_contra hgt
    push_neg at hgt
    have h1 : 10 ^ ((natDigitChars (strip10 q.num.natAbs).1).length - 1 +
        (strip10 q.num.natAbs).2) ≤ q.num.natAbs := by
      rw [pow_add]
      calc 10 ^ ((natDigitChars (strip10 q.num.natAbs).1).length - 1) *
            10 ^ (strip10 q.num.natAbs).2
          ≤ (strip10 q.num.natAbs).1 * 10 ^ (strip10 q.num.natAbs).2 :=
            Nat.mul_le_mul_right _ (hlow hs1)
        _ = q.num.natAbs := hstrip
    have h2 : 10 ^ 21 ≤ 10 ^ ((natDigitChars (strip10 q.num.natAbs).1).length - 1 +
        (strip10 q.num.natAbs).2) := Nat.pow_le_pow_right (by omega) (by omega)
    omega
  have hdig : digitsToNat (natDigitChars (strip10 q.num.natAbs).1 ++
      List.replicate (strip10 q.num.natAbs).2 '0') = q.num.natAbs := by
    rw [digitsToNat_append, digitsToNat_replicate_zero, hval,
      List.length_replicate]
    omega
  refine ⟨?_, hdig⟩
  have hfd : findDecExp q.den = some 0 := by rw [hden]; decide
  rw [jsNumToString_num_eq hq hfd]
  rw [show q.num.natAbs * 10 ^ 0 / q.den = q.num.natAbs from by
    rw [hden]; simp]
  rw [formatDigits_intpos _ _ hbound, List.append_assoc]



/-! #### Re-reading scalar tokens -/

theorem isDigitChar_ne {c : Char} (h : isDigitChar c = true) :
    isJsWs c = false ∧ c ≠ '+' ∧ c ≠ '-' ∧ c ≠ '"' ∧ c ≠ '\'' ∧ c ≠ '.' ∧
    c ≠ '(' ∧ c ≠ '{' ∧ c ≠ '[' ∧ c ≠ '}' ∧ c ≠ ']' ∧ c ≠ ':' ∧ c ≠ '#' ∧
    c ≠ '\n' ∧ c ≠ '\r' := by
  constructor
  · by_contra hws
    simp only [Bool.not_eq_false] at hws
    unfold isJsWs at hws
    simp only [Bool.or_eq_true, decide_eq_true_eq] at hws
    rcases hws with rfl | rfl | rfl | rfl | rfl | rfl <;> exact absurd h (by decide)
  · refine ⟨?_, ?_, ?_, ?_, ?_, ?_, ?_, ?_, ?_, ?_, ?_, ?_, ?_, ?_⟩ <;>
      first
      | (intro heq; subst heq; exact absurd h (by decide))

theorem intLit_trim {s : Str} (h : decIntLit s = true) : trimJS s = s := by
  have hch := decIntLit_chars h
  refine trimJS_eq_self ?_ ?_
  · intro c hc
    rcases hch c (List.mem_of_mem_head? hc) with hd | rfl | rfl
    · exact (isDigitChar_ne hd).1
    · decide
    · decide
  · intro c hc
    rcases hch c (List.mem_of_mem_getLast? hc) with hd | rfl | rfl
    · exact (isDigitChar_ne hd).1
    · decide
    · decide

theorem decIntLit_ne_nil {s : Str} (h : decIntLit s = true) : s ≠ [] := by
  intro hs
  rw [hs] at h
  exact absurd h (by decide)

theorem parseValue_intLit {s : Str} (h : decIntLit s = true) :
    parseValue s none = .num (.num (mkRat (intLitVal s) 1)) := by
  have hch := decIntLit_chars h
  have hts : trimJS s = s := intLit_trim h
  have hne : s ≠ [] := decIntLit_ne_nil h
  obtain ⟨hjs, hpi⟩ := jsToNumber_intLit hts h
  have hheadne : ∀ q : Char, q = '"' ∨ q = '\'' → s.head? ≠ some q := by
    intro q hq hhd
    rcases hch q (List.mem_of_mem_head? hhd) with hd | heq | heq
    · rcases hq with rfl | rfl
      · exact absurd hd (by decide)
      · exact absurd hd (by decide)
    · rcases hq with rfl | rfl <;> exact absurd heq (by decide)
    · rcases hq with rfl | rfl <;> exact absurd heq (by decide)
  have hlit : ∀ (t : Str) (c : Char), c ∈ t → isDigitChar c = false → c ≠ '+' →
      c ≠ '-' → s ≠ t := by
    rintro t c hct hcd hcp hcm rfl
    rcases hch c hct with hd | heq | heq
    · rw [hd] at hcd
      exact absurd hcd (by simp)
    · exact hcp heq
    · exact hcm heq
  have hquotes : ¬(quoteWrapped s '"' = true ∨ quoteWrapped s '\'' = true) := by
    rintro (hq | hq)
    · simp only [quoteWrapped, Bool.and_eq_true, decide_eq_true_eq] at hq
      exact hheadne '"' (Or.inl rfl) hq.1
    · simp only [quoteWrapped, Bool.and_eq_true, decide_eq_true_eq] at hq
      exact hheadne '\'' (Or.inr rfl) hq.1
  have hdot : s.contains '.' = false := by
    refine contains_eq_false ?_
    intro x hx hxe
    subst hxe
    rcases hch '.' hx with hd | heq | heq
    · exact absurd hd (by decide)
    · exact absurd heq (by decide)
    · exact absurd heq (by decide)
  simp only [parseValue]
  rw [hts]
  rw [if_neg hquotes]
  rw [if_neg (by decide)]
  rw [if_neg (hlit "null".data 'u' (by decide) (by decide) (by decide) (by decide))]
  rw [if_neg (hlit "true".data 'r' (by decide) (by decide) (by decide) (by decide))]
  rw [if_neg (hlit "false".data 'f' (by decide) (by decide) (by decide) (by decide))]
  rw [if_pos (show ¬isNaNofStr s = true ∧ trimJS s ≠ [] from
    ⟨by simp [isNaNofStr, hjs], by rw [hts]; exact hne⟩)]
  rw [if_neg (by rw [hdot]; simp)]
  rw [hpi]

/-- The facts packed into a false `needsQuotes`. -/
theorem needsQuotes_false_facts {s : Str} (h : needsQuotes s = false) :
    s ≠ [] ∧ trimJS s = s ∧
    (∀ c ∈ s, c ∉ (['{', '}', ':', '#', '"', '\'', '\\', '[', ']'] : List Char)) ∧
    s.head? ≠ some '(' ∧ s ≠ "null".data ∧ s ≠ "true".data ∧ s ≠ "false".data ∧
    isNaNofStr s = true := by
  unfold needsQuotes at h
  simp only [decide_eq_false_iff_not] at h
  push_neg at h
  obtain ⟨h1, h2, h3, h4, h5, h6, h7, h8⟩ := h
  have hne : s ≠ [] := by
    intro hs
    exact h1 (by rw [hs]; rfl)
  have hts : trimJS s = s := h2
  refine ⟨hne, hts, ?_, ?_, h5, h6, h7, ?_⟩
  · intro c hc hmem
    have hx : (fun c => decide (c ∈ (['{', '}', ':', '#', '"', '\'', '\\', '[', ']'] : List Char))) c = true := by
      simpa using hmem
    have hany : s.any (fun c => decide (c ∈ (['{', '}', ':', '#', '"', '\'', '\\', '[', ']'] : List Char))) = true := by
      rw [List.any_eq_true]
      exact ⟨c, hc, hx⟩
    exact absurd hany (by simpa using h3)
  · rw [dropWhile_eq_self_of_trimJS hts] at h4
    exact h4
  · by_contra hnaN
    simp only [Bool.not_eq_true] at hnaN
    have h9 := h8 (by simp [hnaN])
    rw [hts] at h9
    exact hne h9

theorem parseValue_bare {s : Str} (h : needsQuotes s = false) :
    parseValue s none = .str s := by
  obtain ⟨hne, hts, hchars, hhd, hn1, hn2, hn3, hnan⟩ := needsQuotes_false_facts h
  have hquotes : ¬(quoteWrapped s '"' = true ∨ quoteWrapped s '\'' = true) := by
    rintro (hq | hq)
    · simp only [quoteWrapped, Bool.and_eq_true, decide_eq_true_eq] at hq
      exact hchars '"' (List.mem_of_mem_head? hq.1) (by simp)
    · simp only [quoteWrapped, Bool.and_eq_true, decide_eq_true_eq] at hq
      exact hchars '\'' (List.mem_of_mem_head? hq.1) (by simp)
  simp only [parseValue]
  rw [hts]
  rw [if_neg hquotes]
  rw [if_neg (by decide), if_neg hn1, if_neg hn2, if_neg hn3]
  rw [if_neg (show ¬(¬isNaNofStr s = true ∧ trimJS s ≠ []) from by
    rintro ⟨hcontra, -⟩
    rw [hnan] at hcontra
    exact hcontra rfl)]

theorem quoted_token_getLast (E : Str) :
    ('"' :: (E ++ ['"'])).getLast? = some '"' := by
  rw [show ('"' :: (E ++ ['"'])) = ('"' :: E) ++ ['"'] from by simp,
    List.getLast?_concat]

theorem parseValue_quoted {s : Str} (hn : '\n' ∉ s)
    (hpn : noPair '\\' 'n' s = true) (hpt : noPair '\\' 't' s = true) :
    parseValue ('"' :: (escapeString s ++ ['"'])) none = .str s := by
  have hts : trimJS ('"' :: (escapeString s ++ ['"'])) =
      '"' :: (escapeString s ++ ['"']) := by
    refine trimJS_eq_self ?_ ?_
    · intro c hc
      simp only [List.head?_cons, Option.some.injEq] at hc
      subst hc
      decide
    · intro c hc
      rw [quoted_token_getLast] at hc
      injection hc with hc
      subst hc
      decide
  simp only [parseValue]
  rw [hts]
  rw [if_pos (Or.inl (by
    simp only [quoteWrapped, Bool.and_eq_true, decide_eq_true_eq]
    exact ⟨by simp, by rw [quoted_token_getLast]⟩))]
  rw [if_neg (by decide)]
  rw [show substring1ToLast ('"' :: (escapeString s ++ ['"'])) = escapeString s from by
    unfold substring1ToLast
    rw [if_neg (by simp)]
    simp]
  rw [unescape_escape hn hpn hpt]



/-! #### The round-trip-safe fragment and its line-structured rendering -/

/-- Values whose rendering is a single token (no continuation lines). -/
def scalarV : JSValue → Bool
  | .arr _ => false
  | .obj _ => false
  | .str s => !s.contains '\n'
  | _ => true

/-- A multi-line string (rendered as a text block). -/
def blockV : JSValue → Bool
  | .str s => s.contains '\n'
  | _ => false

/-- Integer-valued Numbers of double-exact magnitude. -/
def goodNum : JSNumber → Bool
  | .num q => decide (q.den = 1) && decide (q.num.natAbs < 2 ^ 53)
  | _ => false

def goodKeyChar (c : Char) : Bool :=
  !isJsWs c &&
  !(c ∈ ([':', '(', ')', '#', '{', '}', '[', ']', '|', '"', '\'', '\\'] : List Char))

def goodKey (k : Str) : Bool := decide (k ≠ []) && k.all goodKeyChar

/-- A single-line string safe for quoting/inference round trips. -/
def goodScalarStr (s : Str) : Bool :=
  !s.contains '\n' && !s.contains '\r' && noPair '\\' 'n' s && noPair '\\' 't' s

/-- A multi-line string safe for text-block round trips. -/
def goodBlockStr (s : Str) : Bool :=
  s.contains '\n' && !s.contains '\r' &&
  (splitNL s).all (fun p => decide (trimJS p ≠ [')']))

mutual

/-- Round-trip-safe value (in mapping-entry position). -/
def rtOkV : JSValue → Bool
  | .null => true
  | .bool _ => true
  | .num n => goodNum n
  | .str s => if s.contains '\n' then goodBlockStr s else goodScalarStr s
  | .arr es => decide (es ≠ []) && rtOkElems es
  | .obj ps =>
      decide (ps ≠ []) && decide ((ps.map Prod.fst).Nodup) && rtOkEntries ps

/-- Round-trip-safe sequence elements (text blocks are not recognized inside
    sequence bodies, so multi-line strings are excluded here). -/
def rtOkElems : List JSValue → Bool
  | [] => true
  | v :: vs => rtOkV v && !blockV v && rtOkElems vs

def rtOkEntries : List (Str × JSValue) → Bool
  | [] => true
  | (k, v) :: ps => goodKey k && rtOkV v && rtOkEntries ps

end

/-- Round-trip-safe root: a Mapping (possibly empty) or Sequence. -/
def rtRoot : JSValue → Bool
  | .obj ps => decide ((ps.map Prod.fst).Nodup) && rtOkEntries ps
  | .arr es => rtOkElems es
  | _ => false

/-- The scalar token / opening token of a rendered value. -/
def vHead : JSValue → Str
  | .null => "null".data
  | .bool b => if b then "true".data else "false".data
  | .num n => jsNumToString n
  | .str s =>
      if s.contains '\n' then ['(']
      else if needsQuotes s then '"' :: (escapeString s ++ ['"'])
      else s
  | .arr es => if es = [] then "[]".data else ['[']
  | .obj ps => if ps = [] then "{}".data else ['{']

mutual

/-- The continuation lines of a rendered value (empty for scalars). -/
def vBodyL (IS : Str) : JSValue → Str → List Str
  | .str s, ind =>
      if s.contains '\n' then
        (splitNL s).map (fun p => ind ++ IS ++ '|' :: p) ++ [ind ++ [')']]
      else []
  | .arr es, ind =>
      if es = [] then [] else elemsLines IS es (ind ++ IS) ++ [ind ++ [']']]
  | .obj ps, ind =>
      if ps = [] then [] else entriesLines IS ps (ind ++ IS) ++ [ind ++ ['}']]
  | _, _ => []

/-- The rendered lines of a mapping body (`ind` is the entries' indent). -/
def entriesLines (IS : Str) : List (Str × JSValue) → Str → List Str
  | [], _ => []
  | (k, v) :: ps, ind =>
      (ind ++ k ++ ':' :: ' ' :: vHead v) ::
        (vBodyL IS v ind ++ entriesLines IS ps ind)

/-- The rendered lines of a sequence body (`ind` is the elements' indent). -/
def elemsLines (IS : Str) : List JSValue → Str → List Str
  | [], _ => []
  | v :: vs, ind =>
      (ind ++ vHead v) :: (vBodyL IS v ind ++ elemsLines IS vs ind)

end

theorem joinNL_cons (x : Str) {L : List Str} (h : L ≠ []) :
    joinNL (x :: L) = x ++ '\n' :: joinNL L := by
  cases L with
  | nil => exact absurd rfl h
  | cons y t => rfl

theorem joinNL_append {A B : List Str} (hA : A ≠ []) (hB : B ≠ []) :
    joinNL (A ++ B) = joinNL A ++ '\n' :: joinNL B := by
  induction A with
  | nil => exact absurd rfl hA
  | cons x A' ih =>
      cases A' with
      | nil =>
          rw [List.cons_append, List.nil_append, joinNL_cons x hB]
          rfl
      | cons y t =>
          rw [List.cons_append, joinNL_cons x (by simp), ih (by simp),
            joinNL_cons x (by simp)]
          simp

theorem entriesLines_ne_nil {IS : Str} {ps : List (Str × JSValue)} {ind : Str}
    (h : ps ≠ []) : entriesLines IS ps ind ≠ [] := by
  cases ps with
  | nil => exact absurd rfl h
  | cons p t =>
      obtain ⟨k, v⟩ := p
      simp [entriesLines]

theorem elemsLines_ne_nil {IS : Str} {es : List JSValue} {ind : Str}
    (h : es ≠ []) : elemsLines IS es ind ≠ [] := by
  cases es with
  | nil => exact absurd rfl h
  | cons v t => simp [elemsLines]

theorem stringifyEntries_ne_nil {IS : Str} {ps : List (Str × JSValue)} {ind : Str}
    (h : ps ≠ []) : stringifyEntries IS ps ind ≠ [] := by
  cases ps with
  | nil => exact absurd rfl h
  | cons p t =>
      obtain ⟨k, v⟩ := p
      simp [stringifyEntries]

theorem stringifyItems_ne_nil {IS : Str} {es : List JSValue} {ind : Str}
    (h : es ≠ []) : stringifyItems IS es ind ≠ [] := by
  cases es with
  | nil => exact absurd rfl h
  | cons v t => simp [stringifyItems]



theorem joinNL_chunk (pre hd : Str) (B REST : List Str) :
    joinNL ((pre ++ joinNL (hd :: B)) :: REST) =
      joinNL ((pre ++ hd) :: (B ++ REST)) := by
  cases B with
  | nil =>
      rw [show joinNL (hd :: ([] : List Str)) = hd from rfl, List.nil_append]
  | cons b bs =>
      rw [joinNL_cons hd (by simp)]
      cases REST with
      | nil =>
          rw [show ((b :: bs) ++ ([] : List Str)) = b :: bs from by simp]
          rw [show joinNL ((pre ++ (hd ++ '\n' :: joinNL (b :: bs))) :: []) =
              pre ++ (hd ++ '\n' :: joinNL (b :: bs)) from rfl]
          rw [joinNL_cons (pre ++ hd) (by simp)]
          simp
      | cons r rs =>
          rw [joinNL_cons _ (by simp), joinNL_cons (pre ++ hd) (by simp),
            joinNL_append (B := r :: rs) (by simp) (by simp)]
          simp

theorem joinNL_tail_congr (x : Str) (B : List Str) {R1 R2 : List Str}
    (hjoin : joinNL R1 = joinNL R2) (hne : R1 = [] ↔ R2 = []) :
    joinNL (x :: (B ++ R1)) = joinNL (x :: (B ++ R2)) := by
  cases hR1 : R1 with
  | nil =>
      rw [hR1] at hjoin
      rw [hne.mp hR1]
  | cons a t =>
      have hR2 : R2 ≠ [] := by
        intro h2
        rw [hne.mpr h2] at hR1
        exact absurd hR1 (by simp)
      have hR1ne : R1 ≠ [] := by rw [hR1]; simp
      rw [← hR1]
      cases B with
      | nil =>
          simp only [List.nil_append]
          rw [joinNL_cons x hR1ne, joinNL_cons x hR2, hjoin]
      | cons b bs =>
          rw [joinNL_cons x (by simp), joinNL_cons x (by simp),
            joinNL_append (by simp) hR1ne, joinNL_append (by simp) hR2, hjoin]

theorem entriesLines_nil_iff {IS : Str} {ps : List (Str × JSValue)} {ind : Str} :
    stringifyEntries IS ps ind = [] ↔ entriesLines IS ps ind = [] := by
  cases ps with
  | nil => simp [stringifyEntries, entriesLines]
  | cons p t =>
      obtain ⟨k, v⟩ := p
      simp [stringifyEntries, entriesLines]

theorem elemsLines_nil_iff {IS : Str} {es : List JSValue} {ind : Str} :
    stringifyItems IS es ind = [] ↔ elemsLines IS es ind = [] := by
  cases es with
  | nil => simp [stringifyItems, elemsLines]
  | cons v t => simp [stringifyItems, elemsLines]

mutual

/-- `stringifyValue` renders exactly the head token followed by the
    continuation lines, joined by newlines. -/
theorem stringifyValue_lines (IS : Str) : ∀ (v : JSValue) (ind : Str),
    stringifyValue IS v ind = joinNL (vHead v :: vBodyL IS v ind)
  | .null, _ => rfl
  | .bool true, _ => rfl
  | .bool false, _ => rfl
  | .num _, _ => rfl
  | .str s, ind => by
      by_cases hnl : s.contains '\n'
      · have hnl' : '\n' ∈ s := by simpa using hnl
        rw [show vHead (.str s) = ['('] from by simp [vHead, hnl']]
        rw [show vBodyL IS (.str s) ind =
            (splitNL s).map (fun p => ind ++ IS ++ '|' :: p) ++ [ind ++ [')']] from by
          simp [vBodyL, hnl']]
        rw [show stringifyValue IS (.str s) ind =
            '(' :: '\n' ::
              (joinNL ((splitNL s).map (fun line => ind ++ IS ++ '|' :: line)) ++
                '\n' :: (ind ++ [')'])) from by
          simp [stringifyValue, hnl']]
        rw [joinNL_cons _ (by simp), joinNL_append
          (by simpa using splitNL_ne_nil s) (by simp)]
        rfl
      · have hnl' : '\n' ∉ s := by simpa using hnl
        rw [show stringifyValue IS (.str s) ind =
            (if needsQuotes s then '"' :: (escapeString s ++ ['"']) else s) from by
          simp [stringifyValue, hnl']]
        rw [show vHead (.str s) =
            (if needsQuotes s then '"' :: (escapeString s ++ ['"']) else s) from by
          simp [vHead, hnl']]
        rw [show vBodyL IS (.str s) ind = [] from by simp [vBodyL, hnl']]
        rfl
  | .arr es, ind => by
      by_cases he : es = []
      · subst he
        rfl
      · rw [show vHead (.arr es) = ['['] from by simp [vHead, he]]
        rw [show vBodyL IS (.arr es) ind =
            elemsLines IS es (ind ++ IS) ++ [ind ++ [']']] from by
          simp [vBodyL, he]]
        rw [show stringifyValue IS (.arr es) ind =
            '[' :: '\n' ::
              (joinNL (stringifyItems IS es (ind ++ IS)) ++ '\n' :: (ind ++ [']'])) from by
          simp [stringifyValue, he]]
        rw [joinNL_cons _ (by simp), joinNL_append (elemsLines_ne_nil he) (by simp),
          stringifyItems_lines IS es (ind ++ IS) he]
        rfl
  | .obj ps, ind => by
      by_cases he : ps = []
      · subst he
        rfl
      · rw [show vHead (.obj ps) = ['{'] from by simp [vHead, he]]
        rw [show vBodyL IS (.obj ps) ind =
            entriesLines IS ps (ind ++ IS) ++ [ind ++ ['}']] from by
          simp [vBodyL, he]]
        rw [show stringifyValue IS (.obj ps) ind =
            '{' :: '\n' ::
              (joinNL (stringifyEntries IS ps (ind ++ IS)) ++ '\n' :: (ind ++ ['}'])) from by
          simp [stringifyValue, he]]
        rw [joinNL_cons _ (by simp), joinNL_append (entriesLines_ne_nil he) (by simp),
          stringifyEntries_lines IS ps (ind ++ IS) he]
        rfl

theorem stringifyEntries_lines (IS : Str) : ∀ (ps : List (Str × JSValue)) (ind : Str),
    ps ≠ [] → joinNL (stringifyEntries IS ps ind) = joinNL (entriesLines IS ps ind)
  | [], _, h => absurd rfl h
  | (k, v) :: ps, ind, _ => by
      rw [show stringifyEntries IS ((k, v) :: ps) ind =
          (ind ++ k ++ ':' :: ' ' :: stringifyValue IS v ind) ::
            stringifyEntries IS ps ind from rfl]
      rw [show entriesLines IS ((k, v) :: ps) ind =
          (ind ++ k ++ ':' :: ' ' :: vHead v) ::
            (vBodyL IS v ind ++ entriesLines IS ps ind) from rfl]
      rw [show ind ++ k ++ ':' :: ' ' :: stringifyValue IS v ind =
          (ind ++ k ++ [':', ' ']) ++ stringifyValue IS v ind from by simp]
      rw [stringifyValue_lines IS v ind, joinNL_chunk]
      rw [show (ind ++ k ++ [':', ' ']) ++ vHead v =
          ind ++ k ++ ':' :: ' ' :: vHead v from by simp]
      by_cases hps : ps = []
      · subst hps
        rfl
      · exact joinNL_tail_congr _ _ (stringifyEntries_lines IS ps ind hps)
          entriesLines_nil_iff

theorem stringifyItems_lines (IS : Str) : ∀ (es : List JSValue) (ind : Str),
    es ≠ [] → joinNL (stringifyItems IS es ind) = joinNL (elemsLines IS es ind)
  | [], _, h => absurd rfl h
  | v :: es, ind, _ => by
      rw [show stringifyItems IS (v :: es) ind =
          (ind ++ stringifyValue IS v ind) :: stringifyItems IS es ind from rfl]
      rw [show elemsLines IS (v :: es) ind =
          (ind ++ vHead v) :: (vBodyL IS v ind ++ elemsLines IS es ind) from rfl]
      rw [stringifyValue_lines IS v ind, joinNL_chunk]
      by_cases hes : es = []
      · subst hes
        rfl
      · exact joinNL_tail_congr _ _ (stringifyItems_lines IS es ind hes)
          elemsLines_nil_iff

end



/-! #### Entry and element line processing -/

theorem dropWhile_head_false {p : Char → Bool} {l : Str} (h : l.dropWhile p = l) :
    ∀ c, l.head? = some c → p c = false := by
  intro c hc
  cases l with
  | nil => simp at hc
  | cons a t =>
      simp only [List.head?_cons, Option.some.injEq] at hc
      subst hc
      by_contra hp
      simp only [Bool.not_eq_false] at hp
      rw [List.dropWhile_cons, if_pos hp] at h
      have hlen := congrArg List.length h
      have hsub : List.Sublist (t.dropWhile p) t := List.dropWhile_sublist _
      have hle := hsub.length_le
      simp only [List.length_cons] at hlen
      omega

theorem trim_last_ws {s : Str} (h : trimJS s = s) :
    ∀ c, s.getLast? = some c → isJsWs c = false := by
  have h1 := dropWhile_eq_self_of_trimJS h
  have h2 : s.reverse.dropWhile isJsWs = s.reverse := by
    unfold trimJS at h
    rw [h1] at h
    have h3 := congrArg List.reverse h
    simpa using h3
  intro c hc
  rw [← List.head?_reverse] at hc
  exact dropWhile_head_false h2 c hc

theorem indexOfChar_append {k : Str} {c : Char} (h : c ∉ k) (r : Str) :
    indexOfChar (k ++ c :: r) c = some k.length := by
  induction k with
  | nil => simp [indexOfChar]
  | cons a t ih =>
      have ha : a ≠ c := fun hac => h (hac ▸ List.mem_cons_self a t)
      rw [List.cons_append]
      simp only [indexOfChar, if_neg ha]
      rw [ih (fun hm => h (List.mem_cons_of_mem a hm))]
      rfl

theorem indexOfChar_none {k : Str} {c : Char} (h : c ∉ k) :
    indexOfChar k c = none := by
  induction k with
  | nil => rfl
  | cons a t ih =>
      have ha : a ≠ c := fun hac => h (hac ▸ List.mem_cons_self a t)
      simp only [indexOfChar, if_neg ha]
      rw [ih (fun hm => h (List.mem_cons_of_mem a hm))]
      rfl

theorem splitHint_plain {k : Str} (h : '(' ∉ k) : splitHint k = (k, none) := by
  unfold splitHint
  rw [indexOfChar_none h]

theorem goodKey_facts {k : Str} (hk : goodKey k = true) :
    k ≠ [] ∧ trimJS k = k ∧ (∀ c ∈ k, isJsWs c = false) ∧
    ':' ∉ k ∧ '(' ∉ k ∧ ')' ∉ k ∧ '#' ∉ k ∧ '|' ∉ k := by
  unfold goodKey at hk
  simp only [Bool.and_eq_true, decide_eq_true_eq, List.all_eq_true] at hk
  obtain ⟨hne, hall⟩ := hk
  have hws : ∀ c ∈ k, isJsWs c = false := by
    intro c hc
    have := hall c hc
    unfold goodKeyChar at this
    simp only [Bool.and_eq_true, Bool.not_eq_true'] at this
    exact this.1
  have hnotin : ∀ c : Char,
      c ∈ ([':', '(', ')', '#', '{', '}', '[', ']', '|', '"', '\'', '\\'] : List Char) →
      c ∉ k := by
    intro c hcl hck
    have := hall c hck
    unfold goodKeyChar at this
    simp only [Bool.and_eq_true, Bool.not_eq_true'] at this
    rw [show (decide (c ∈ ([':', '(', ')', '#', '{', '}', '[', ']', '|', '"', '\'', '\\'] : List Char))) = true from by simpa using hcl] at this
    exact absurd this.2 (by simp)
  refine ⟨hne, ?_, hws, ?_, ?_, ?_, ?_, ?_⟩
  · refine trimJS_eq_self ?_ ?_
    · intro c hc
      exact hws c (List.mem_of_mem_head? hc)
    · intro c hc
      exact hws c (List.mem_of_mem_getLast? hc)
  · exact hnotin ':' (by simp)
  · exact hnotin '(' (by simp)
  · exact hnotin ')' (by simp)
  · exact hnotin '#' (by simp)
  · exact hnotin '|' (by simp)

theorem spaces_ws {ind : Str} (hind : ∀ c ∈ ind, c = ' ') :
    ∀ c ∈ ind, isJsWs c = true := by
  intro c hc
  rw [hind c hc]
  decide

theorem entry_trim {k tok ind : Str} (hk : goodKey k = true)
    (hind : ∀ c ∈ ind, c = ' ') (hne : tok ≠ []) (htr : trimJS tok = tok) :
    trimJS (ind ++ (k ++ ':' :: ' ' :: tok)) = k ++ ':' :: ' ' :: tok := by
  obtain ⟨hkne, hktr, hkws, -, -, -, -, -⟩ := goodKey_facts hk
  rw [trimJS_ws_append (spaces_ws hind)]
  refine trimJS_eq_self ?_ ?_
  · intro c hc
    cases k with
    | nil => exact absurd rfl hkne
    | cons a t =>
        rw [List.cons_append, List.head?_cons] at hc
        injection hc with hc
        subst hc
        exact hkws _ (List.mem_cons_self _ _)
  · intro c hc
    obtain ⟨y, hy⟩ : ∃ y, tok.getLast? = some y := by
      cases htk : tok.getLast? with
      | none =>
          rw [List.getLast?_eq_none_iff] at htk
          exact absurd htk hne
      | some y => exact ⟨y, rfl⟩
    have hlast : (k ++ ':' :: ' ' :: tok).getLast? = some y := by
      rw [List.getLast?_append, show (':' :: ' ' :: tok).getLast? = some y from by
        rw [show ':' :: ' ' :: tok = [':', ' '] ++ tok from rfl,
          List.getLast?_append, hy]
        rfl]
      rfl
    rw [hlast] at hc
    injection hc with hc
    subst hc
    exact trim_last_ws htr y hy

theorem elem_trim {tok ind : Str} (hind : ∀ c ∈ ind, c = ' ')
    (htr : trimJS tok = tok) : trimJS (ind ++ tok) = tok := by
  rw [trimJS_ws_append (spaces_ws hind)]
  exact htr



/-- Processing one rendered mapping-entry line `ind ++ k ++ ": " ++ tok`:
    the guards all fall through and the entry is dispatched on its token. -/
theorem mapLoop_entry_reduce {k tok ind : Str} {endc : Option Char}
    (hk : goodKey k = true) (hind : ∀ c ∈ ind, c = ' ')
    (hne : tok ≠ []) (htr : trimJS tok = tok)
    (fuel : Nat) (acc : List (Str × JSValue)) (rest : List Str) (i : Nat) :
    mapLoop (fuel + 1) endc acc ((ind ++ (k ++ ':' :: ' ' :: tok)) :: rest) i =
      if tok = ['{'] then
        (match mapLoop fuel (some '}') [] rest (i + 1) with
         | .ok (w, r, j) => mapLoop fuel endc (setKey acc k w) r j
         | .error e => .error e)
      else if tok = ['['] then
        (match arrLoop fuel [] rest (i + 1) with
         | .ok (w, r, j) => mapLoop fuel endc (setKey acc k w) r j
         | .error e => .error e)
      else if tok.head? = some '(' then
        mapLoop fuel endc
          (setKey acc k (.str (textBlock rest (i + 1) [] true).1))
          (textBlock rest (i + 1) [] true).2.1 (textBlock rest (i + 1) [] true).2.2
      else mapLoop fuel endc (setKey acc k (parseValue tok none)) rest (i + 1) := by
  obtain ⟨hkne, hktr, hkws, hcolon, hparen, -, hhash, -⟩ := goodKey_facts hk
  have h1 := entry_trim hk hind hne htr
  obtain ⟨c0, k', rfl⟩ : ∃ c0 k', k = c0 :: k' := by
    cases k with
    | nil => exact absurd rfl hkne
    | cons a b => exact ⟨a, b, rfl⟩
  have htok1 : 1 ≤ tok.length := List.length_pos.mpr hne
  have hsingle : ∀ c : Char, (c0 :: k') ++ ':' :: ' ' :: tok ≠ [c] := by
    intro c habs
    have hlen := congrArg List.length habs
    simp only [List.length_append, List.length_cons, List.length_nil] at hlen
    omega
  have hg1 : ¬((c0 :: k') ++ ':' :: ' ' :: tok = [] ∨
      ((c0 :: k') ++ ':' :: ' ' :: tok).head? = some '#') := by
    rintro (habs | habs)
    · exact absurd habs (by simp)
    · rw [List.cons_append, List.head?_cons] at habs
      injection habs with habs
      exact hhash (habs ▸ List.mem_cons_self _ _)
  have hg2 : ¬(Option.any (fun c => decide ((c0 :: k') ++ ':' :: ' ' :: tok = [c]))
      endc = true) := by
    cases endc with
    | none => simp [Option.any]
    | some c => simpa using hsingle c
  have hg3 : ¬(endc = none ∧ ((c0 :: k') ++ ':' :: ' ' :: tok = ['}'] ∨
      (c0 :: k') ++ ':' :: ' ' :: tok = [']'])) := by
    rintro ⟨-, habs | habs⟩
    · exact hsingle '}' habs
    · exact hsingle ']' habs
  have hidx : indexOfChar ((c0 :: k') ++ ':' :: ' ' :: tok) ':' =
      some (c0 :: k').length := indexOfChar_append hcolon _
  have htake : trimJS (((c0 :: k') ++ ':' :: ' ' :: tok).take (c0 :: k').length) =
      c0 :: k' := by
    rw [List.take_left]
    exact hktr
  have hdrop : trimJS (((c0 :: k') ++ ':' :: ' ' :: tok).drop ((c0 :: k').length + 1)) =
      tok := by
    rw [show (c0 :: k') ++ ':' :: ' ' :: tok = ((c0 :: k') ++ [':']) ++ ' ' :: tok from by
      simp]
    rw [show (c0 :: k').length + 1 = ((c0 :: k') ++ [':']).length from by simp]
    rw [List.drop_left]
    rw [show (' ' :: tok) = [' '] ++ tok from rfl,
      trimJS_ws_append (by intro c hc; simp at hc; rw [hc]; decide)]
    exact htr
  have hsh : splitHint (c0 :: k') = (c0 :: k', none) := splitHint_plain hparen
  simp only [mapLoop, h1]
  rw [if_neg hg1, if_neg hg2, if_neg hg3]
  simp only [hidx, htake, hsh, hdrop]

/-- Processing one rendered sequence-element line `ind ++ tok`. -/
theorem arrLoop_elem_reduce {tok ind : Str}
    (hind : ∀ c ∈ ind, c = ' ') (hne : tok ≠ []) (htr : trimJS tok = tok)
    (hhash : tok.head? ≠ some '#') (hclose : tok ≠ [']'])
    (fuel : Nat) (acc : List JSValue) (rest : List Str) (i : Nat) :
    arrLoop (fuel + 1) acc ((ind ++ tok) :: rest) i =
      if tok = ['{'] then
        (match mapLoop fuel (some '}') [] rest (i + 1) with
         | .ok (w, r, j) => arrLoop fuel (acc ++ [w]) r j
         | .error e => .error e)
      else if tok = ['['] then
        (match arrLoop fuel [] rest (i + 1) with
         | .ok (w, r, j) => arrLoop fuel (acc ++ [w]) r j
         | .error e => .error e)
      else arrLoop fuel (acc ++ [parseValue tok none]) rest (i + 1) := by
  have h1 := elem_trim hind htr
  simp only [arrLoop, h1]
  rw [if_neg (by
    rintro (habs | habs)
    · exact hne habs
    · exact hhash habs)]
  rw [if_neg hclose]



theorem int_mkRat_den_one {q : ℚ} (hden : q.den = 1) : mkRat q.num 1 = q := by
  rw [Rat.mkRat_one]
  conv_rhs => rw [← Rat.num_div_den q]
  rw [hden]
  norm_num

theorem num_token_spec {q : ℚ} (hden : q.den = 1) (hb : q.num.natAbs < 2 ^ 53) :
    (∀ c ∈ jsNumToString (.num q), isDigitChar c = true ∨ c = '-') ∧
    decIntLit (jsNumToString (.num q)) = true ∧
    intLitVal (jsNumToString (.num q)) = q.num := by
  by_cases h0 : q.num = 0
  · have htok : jsNumToString (.num q) = ['0'] := by
      simp only [jsNumToString]
      rw [if_pos h0]
    rw [htok]
    refine ⟨by decide, by decide, ?_⟩
    rw [h0]
    decide
  · have hb21 : q.num.natAbs < 10 ^ 21 := lt_trans hb (by norm_num)
    obtain ⟨htok, hdig⟩ := jsNumToString_int hden h0 hb21
    obtain ⟨hne, hall, hval, -⟩ := natDigitChars_spec (strip10 q.num.natAbs).1
    have hall0 : ∀ c ∈ natDigitChars (strip10 q.num.natAbs).1 ++
        List.replicate (strip10 q.num.natAbs).2 '0', isDigitChar c = true := by
      intro c hc
      rcases List.mem_append.mp hc with hc | hc
      · exact hall c hc
      · rw [List.eq_of_mem_replicate hc]
        decide
    have hne0 : natDigitChars (strip10 q.num.natAbs).1 ++
        List.replicate (strip10 q.num.natAbs).2 '0' ≠ [] := by
      intro habs
      exact hne (List.append_eq_nil.mp habs).1
    have hcast : ((digitsToNat (natDigitChars (strip10 q.num.natAbs).1 ++
        List.replicate (strip10 q.num.natAbs).2 '0') : Nat) : Int) =
        ((q.num.natAbs : Nat) : Int) := by
      exact_mod_cast hdig
    rcases lt_or_gt_of_ne (fun h => h0 h) with hneg | hpos
    · have hsgn : q.num < 0 := hneg
      rw [htok, if_pos hsgn]
      rw [show ('-' :: ([] : Str)) ++ natDigitChars (strip10 q.num.natAbs).1 ++
          List.replicate (strip10 q.num.natAbs).2 '0' =
          '-' :: (natDigitChars (strip10 q.num.natAbs).1 ++
            List.replicate (strip10 q.num.natAbs).2 '0') from by simp]
      refine ⟨?_, ?_, ?_⟩
    
      · intro c hc
        rcases List.mem_cons.mp hc with rfl | hc
        · exact Or.inr rfl
        · exact Or.inl (hall0 c hc)
      · unfold decIntLit
        rw [if_pos (Or.inr (by simp))]
        simp only [List.drop_one, List.tail_cons, Bool.and_eq_true,
          decide_eq_true_eq, List.all_eq_true]
        exact ⟨hne0, hall0⟩
      · unfold intLitVal
        rw [if_pos (by simp)]
        simp only [List.drop_one, List.tail_cons]
        omega
    · have hsgn : ¬(q.num < 0) := by omega
      rw [htok, if_neg hsgn]
      rw [show ([] : Str) ++ natDigitChars (strip10 q.num.natAbs).1 ++
          List.replicate (strip10 q.num.natAbs).2 '0' =
          natDigitChars (strip10 q.num.natAbs).1 ++
            List.replicate (strip10 q.num.natAbs).2 '0' from by simp]
      have hhead : ∀ c, (natDigitChars (strip10 q.num.natAbs).1 ++
          List.replicate (strip10 q.num.natAbs).2 '0').head? = some c →
          isDigitChar c = true := by
        intro c hc
        exact hall0 c (List.mem_of_mem_head? hc)
      have hheadne : ∀ d : Char, isDigitChar d = false →
          (natDigitChars (strip10 q.num.natAbs).1 ++
            List.replicate (strip10 q.num.natAbs).2 '0').head? ≠ some d := by
        intro d hd habs
        rw [hhead d habs] at hd
        exact absurd hd (by simp)
      refine ⟨fun c hc => Or.inl (hall0 c hc), ?_, ?_⟩
    
      · unfold decIntLit
        rw [if_neg (by
          rintro (habs | habs)
          · exact hheadne '+' (by decide) habs
          · exact hheadne '-' (by decide) habs)]
        simp only [Bool.and_eq_true, decide_eq_true_eq, List.all_eq_true]
        exact ⟨hne0, hall0⟩
      · unfold intLitVal
        rw [if_neg (hheadne '-' (by decide)), if_neg (hheadne '+' (by decide))]
        omega

/-- Re-reading the printed token of a good integer Number. -/
theorem parseValue_num {q : ℚ} (hden : q.den = 1) (hb : q.num.natAbs < 2 ^ 53) :
    parseValue (jsNumToString (.num q)) none = .num (.num q) := by
  obtain ⟨-, hlit, hval⟩ := num_token_spec hden hb
  rw [parseValue_intLit hlit, hval, int_mkRat_den_one hden]

theorem splitNL_no_nl : ∀ t : Str, ∀ l ∈ splitNL t, '\n' ∉ l := by
  intro t
  induction t with
  | nil =>
      intro l hl
      simp only [splitNL, List.mem_singleton] at hl
      subst hl
      simp
  | cons c r ih =>
      by_cases hc : c = '\n'
      · subst hc
        intro l hl
        rw [show splitNL ('\n' :: r) = [] :: splitNL r from rfl] at hl
        rcases List.mem_cons.mp hl with rfl | hl
        · simp
        · exact ih l hl
      · intro l hl
        rw [splitNL_cons r hc] at hl
        cases hsp : splitNL r with
        | nil => exact absurd hsp (splitNL_ne_nil r)
        | cons p ps =>
            rw [hsp] at hl
            rcases List.mem_cons.mp hl with rfl | hl
            · intro hmem
              rcases List.mem_cons.mp hmem with h1 | h1
              · exact hc h1.symm
              · exact ih p (by rw [hsp]; exact List.mem_cons_self p ps) h1
            · exact ih l (by rw [hsp]; exact List.mem_cons_of_mem p hl)

theorem joinNL_splitNL : ∀ s : Str, joinNL (splitNL s) = s := by
  intro s
  induction s with
  | nil => rfl
  | cons c r ih =>
      by_cases hc : c = '\n'
      · subst hc
        rw [show splitNL ('\n' :: r) = [] :: splitNL r from rfl,
          joinNL_cons [] (splitNL_ne_nil r), ih]
        rfl
      · rw [splitNL_cons r hc]
        cases hsp : splitNL r with
        | nil => exact absurd hsp (splitNL_ne_nil r)
        | cons p ps =>
            rw [hsp] at ih
            cases ps with
            | nil =>
                rw [show joinNL [c :: p] = c :: p from rfl]
                rw [show joinNL [p] = p from rfl] at ih
                rw [ih]
            | cons p2 ps2 =>
                rw [joinNL_cons (c :: p) (by simp)]
                rw [joinNL_cons p (by simp)] at ih
                rw [List.cons_append, ih]

theorem escapeString_chars {s : Str} (hnl : '\n' ∉ s) :
    ∀ c ∈ escapeString s, c ∈ s ∨ c = '\\' := by
  rw [escapeString_no_nl hnl]
  intro c hc
  rcases replaceCharAll_chars hc with h | h
  · exact Or.inl h
  · simp only [List.mem_cons, List.not_mem_nil, or_false] at h
    rcases h with h | h
  
    · exact Or.inr h
    · exact Or.inr h



/-- All facts the parser needs about the token of a good scalar value. -/
theorem scalar_token_spec {v : JSValue} (hs : scalarV v = true) (hv : rtOkV v = true) :
    trimJS (vHead v) = vHead v ∧ vHead v ≠ [] ∧
    (vHead v).head? ≠ some '#' ∧ (vHead v).head? ≠ some '(' ∧
    vHead v ≠ ['{'] ∧ vHead v ≠ ['['] ∧ vHead v ≠ [']'] ∧
    parseValue (vHead v) none = v ∧ '\n' ∉ vHead v ∧ '\r' ∉ vHead v := by
  cases v with
  | null => exact by decide
  | bool b => cases b <;> exact by decide
  | num n =>
      cases n with
      | num q =>
          rw [show rtOkV (.num (.num q)) = goodNum (.num q) from rfl] at hv
          unfold goodNum at hv
          simp only [Bool.and_eq_true, decide_eq_true_eq] at hv
          obtain ⟨hden, hb⟩ := hv
          obtain ⟨hch, hlit, -⟩ := num_token_spec hden hb
          have hmemne : ∀ c ∈ jsNumToString (JSNumber.num q),
              isJsWs c = false ∧ c ≠ '#' ∧ c ≠ '(' ∧ c ≠ '{' ∧ c ≠ '[' ∧
              c ≠ ']' ∧ c ≠ '\n' ∧ c ≠ '\r' := by
            intro c hc
            rcases hch c hc with hd | rfl
            · obtain ⟨w1, -, -, -, -, -, h7, h8, h9, -, h11, -, h13, h14, h15⟩ :=
                isDigitChar_ne hd
              exact ⟨w1, h13, h7, h8, h9, h11, h14, h15⟩
            · exact ⟨by decide, by decide, by decide, by decide, by decide,
                by decide, by decide, by decide⟩
          have hsingle : ∀ d : Char, d ∈ (['{', '[', ']'] : List Char) →
              jsNumToString (JSNumber.num q) ≠ [d] := by
            intro d hd habs
            have := hmemne d (by rw [habs]; exact List.mem_cons_self _ _)
            simp only [List.mem_cons, List.not_mem_nil, or_false] at hd
            rcases hd with rfl | rfl | rfl
          
            · exact this.2.2.2.1 rfl
            · exact this.2.2.2.2.1 rfl
            · exact this.2.2.2.2.2.1 rfl
          refine ⟨intLit_trim hlit, decIntLit_ne_nil hlit, ?_, ?_,
            hsingle '{' (by simp), hsingle '[' (by simp), hsingle ']' (by simp),
            parseValue_num hden hb, ?_, ?_⟩
        
          · intro habs
            exact (hmemne '#' (List.mem_of_mem_head? habs)).2.1 rfl
          · intro habs
            exact (hmemne '(' (List.mem_of_mem_head? habs)).2.2.1 rfl
          · intro habs
            exact (hmemne '\n' habs).2.2.2.2.2.2.1 rfl
          · intro habs
            exact (hmemne '\r' habs).2.2.2.2.2.2.2 rfl
      | nan => exact absurd hv (by decide)
      | posInf => exact absurd hv (by decide)
      | negInf => exact absurd hv (by decide)
  | str t =>
      have hnl : ¬ t.contains '\n' = true := by
        unfold scalarV at hs
        simpa using hs
      have hnl' : '\n' ∉ t := by simpa using hnl
      rw [show rtOkV (.str t) =
          (if t.contains '\n' then goodBlockStr t else goodScalarStr t) from rfl,
        if_neg hnl] at hv
      unfold goodScalarStr at hv
      simp only [Bool.and_eq_true, Bool.not_eq_true'] at hv
      obtain ⟨⟨⟨-, hcr⟩, hpn⟩, hpt⟩ := hv
      have hcr' : '\r' ∉ t := by simpa using hcr
      by_cases hq : needsQuotes t = true
      · have hvh : vHead (.str t) = '"' :: (escapeString t ++ ['"']) := by
          simp [vHead, hnl', hq]
        rw [hvh]
        have htail : escapeString t ++ ['"'] ≠ [] := by simp
        have hesc : ∀ c ∈ '"' :: (escapeString t ++ ['"']),
            c ∈ t ∨ c = '\\' ∨ c = '"' := by
          intro c hc
          rcases List.mem_cons.mp hc with rfl | hc
          · exact Or.inr (Or.inr rfl)
          · rcases List.mem_append.mp hc with hc | hc
            · rcases escapeString_chars hnl' c hc with h | h
              · exact Or.inl h
              · exact Or.inr (Or.inl h)
            · simp only [List.mem_singleton] at hc
              exact Or.inr (Or.inr hc)
        refine ⟨?_, by simp, ?_, ?_, ?_, ?_, ?_,
          parseValue_quoted hnl' hpn hpt, ?_, ?_⟩
      
        · refine trimJS_eq_self ?_ ?_
          · intro c hc
            simp only [List.head?_cons, Option.some.injEq] at hc
            subst hc
            decide
          · intro c hc
            rw [quoted_token_getLast] at hc
            injection hc with hc
            subst hc
            decide
        · intro habs
          simp only [List.head?_cons, Option.some.injEq] at habs
          exact absurd habs (by decide)
        · intro habs
          simp only [List.head?_cons, Option.some.injEq] at habs
          exact absurd habs (by decide)
        · intro habs
          injection habs with h1 h2
          exact htail h2
        · intro habs
          injection habs with h1 h2
          exact htail h2
        · intro habs
          injection habs with h1 h2
          exact htail h2
        · intro habs
          rcases hesc '\n' habs with h | h | h
          · exact hnl' h
          · exact absurd h (by decide)
          · exact absurd h (by decide)
        · intro habs
          rcases hesc '\r' habs with h | h | h
          · exact hcr' h
          · exact absurd h (by decide)
          · exact absurd h (by decide)
      · have hq' : needsQuotes t = false := by simpa using hq
        have hvh : vHead (.str t) = t := by simp [vHead, hnl', hq']
        rw [hvh]
        obtain ⟨hne, hts, hchars, hhd, -, -, -, -⟩ := needsQuotes_false_facts hq'
        have hsingle : ∀ d : Char, d ∈ (['{', '[', ']'] : List Char) → t ≠ [d] := by
          intro d hd habs
          refine hchars d (by rw [habs]; exact List.mem_cons_self _ _) ?_
          simp only [List.mem_cons, List.not_mem_nil, or_false] at hd
          rcases hd with rfl | rfl | rfl <;> simp
        refine ⟨hts, hne, ?_, hhd, hsingle '{' (by simp), hsingle '[' (by simp),
          hsingle ']' (by simp), parseValue_bare hq', hnl', hcr'⟩
        intro habs
        exact hchars '#' (List.mem_of_mem_head? habs) (by simp)
  | arr es => exact absurd hs (by simp [scalarV])
  | obj ps => exact absurd hs (by simp [scalarV])



/-! #### Text-block consumption -/

theorem dropWhile_append_singleton {p : Char → Bool} {c : Char} (hc : p c = false) :
    ∀ A : Str, (A ++ [c]).dropWhile p = A.dropWhile p ++ [c] := by
  intro A
  induction A with
  | nil => simp [List.dropWhile, hc]
  | cons a t ih =>
      by_cases ha : p a = true
      · simp only [List.cons_append, List.dropWhile_cons, ha, if_true, ih]
      · simp only [Bool.not_eq_true] at ha
        simp [List.dropWhile_cons, ha]

theorem trimJS_cons {c : Char} (t : Str) (hc : isJsWs c = false) :
    trimJS (c :: t) = c :: (t.reverse.dropWhile isJsWs).reverse := by
  unfold trimJS
  rw [List.dropWhile_cons, if_neg (by rw [hc]; simp)]
  rw [List.reverse_cons, dropWhile_append_singleton hc]
  rw [List.reverse_append]
  rfl

theorem drop_append_cons (W : Str) (c : Char) (p : Str) :
    (W ++ c :: p).drop (W.length + 1) = p := by
  rw [show W ++ c :: p = (W ++ [c]) ++ p from by simp,
    show W.length + 1 = (W ++ [c]).length from by simp, List.drop_left]

theorem block_line_step {W p : Str} (hW : ∀ c ∈ W, c = ' ')
    (rest : List Str) (i : Nat) (text : Str) (first : Bool) :
    textBlock ((W ++ '|' :: p) :: rest) i text first =
      textBlock rest (i + 1) (text ++ (if first then [] else ['\n']) ++ p) false := by
  have htr : trimJS (W ++ '|' :: p) = '|' :: (p.reverse.dropWhile isJsWs).reverse := by
    rw [trimJS_ws_append (spaces_ws hW), trimJS_cons _ (by decide)]
  have hbar : afterFirstBar (W ++ '|' :: p) = p := by
    unfold afterFirstBar
    rw [indexOfChar_append (fun hm => by have := hW '|' hm; simp at this) p]
    exact drop_append_cons W '|' p
  simp only [textBlock, htr]
  rw [if_neg (by simp), if_pos (by simp), hbar]

theorem block_close_step {W0 : Str} (hW0 : ∀ c ∈ W0, c = ' ')
    (rest : List Str) (i : Nat) (text : Str) (first : Bool) :
    textBlock ((W0 ++ [')']) :: rest) i text first = (text, rest, i + 1) := by
  have htr : trimJS (W0 ++ [')']) = [')'] := by
    rw [trimJS_ws_append (spaces_ws hW0)]
    decide
  simp only [textBlock, htr]
  simp

/-- `'\n' :: p` for each piece, concatenated (the tail of a newline join). -/
def tailJoin : List Str → Str
  | [] => []
  | p :: ps => '\n' :: p ++ tailJoin ps

theorem joinNL_eq_tailJoin : ∀ (p : Str) (ps : List Str),
    joinNL (p :: ps) = p ++ tailJoin ps
  | p, [] => by simp [joinNL, tailJoin]
  | p, p2 :: ps => by
      rw [joinNL_cons p (by simp), joinNL_eq_tailJoin p2 ps]
      simp [tailJoin]

theorem textBlock_pieces {W : Str} (hW : ∀ c ∈ W, c = ' ') :
    ∀ (ps : List Str) (rest : List Str) (i : Nat) (text : Str),
    textBlock ((ps.map (fun p => W ++ '|' :: p)) ++ rest) i text false =
      textBlock rest (i + ps.length) (text ++ tailJoin ps) false := by
  intro ps
  induction ps with
  | nil =>
      intro rest i text
      simp [tailJoin]
  | cons p ps ih =>
      intro rest i text
      rw [List.map_cons, List.cons_append, block_line_step hW, ih]
      congr 1
    
      · simp only [List.length_cons]
        omega
      · rw [show tailJoin (p :: ps) = '\n' :: p ++ tailJoin ps from rfl]
        simp

/-- Consuming a whole rendered text block restores the string. -/
theorem textBlock_block {W W0 : Str} (hW : ∀ c ∈ W, c = ' ')
    (hW0 : ∀ c ∈ W0, c = ' ') (p0 : Str) (ps rest : List Str) (i : Nat) :
    textBlock (((p0 :: ps).map (fun p => W ++ '|' :: p)) ++ (W0 ++ [')']) :: rest)
        i [] true =
      (joinNL (p0 :: ps), rest, i + (p0 :: ps).length + 1) := by
  rw [List.map_cons, List.cons_append, block_line_step hW, textBlock_pieces hW,
    block_close_step hW0, joinNL_eq_tailJoin]
  rw [show (([] : Str) ++ (if true = true then [] else ['\n']) ++ p0) = p0 from by simp]
  rw [show (p0 :: ps).length = ps.length + 1 from by simp]
  rw [show i + 1 + ps.length + 1 = i + (ps.length + 1) + 1 from by omega]



/-! #### Purity: rendered lines contain no newline or carriage return -/

theorem rtOkV_obj {ps : List (Str × JSValue)} (h : rtOkV (.obj ps) = true) :
    ps ≠ [] ∧ (ps.map Prod.fst).Nodup ∧ rtOkEntries ps = true := by
  rw [show rtOkV (.obj ps) =
      (decide (ps ≠ []) && decide ((ps.map Prod.fst).Nodup) && rtOkEntries ps) from
    rfl] at h
  simp only [Bool.and_eq_true, decide_eq_true_eq] at h
  exact ⟨h.1.1, h.1.2, h.2⟩

theorem rtOkV_arr {es : List JSValue} (h : rtOkV (.arr es) = true) :
    es ≠ [] ∧ rtOkElems es = true := by
  rw [show rtOkV (.arr es) = (decide (es ≠ []) && rtOkElems es) from rfl] at h
  simp only [Bool.and_eq_true, decide_eq_true_eq] at h
  exact h

theorem rtOkEntries_cons {k : Str} {v : JSValue} {ps : List (Str × JSValue)}
    (h : rtOkEntries ((k, v) :: ps) = true) :
    goodKey k = true ∧ rtOkV v = true ∧ rtOkEntries ps = true := by
  rw [show rtOkEntries ((k, v) :: ps) =
      (goodKey k && rtOkV v && rtOkEntries ps) from rfl] at h
  simp only [Bool.and_eq_true] at h
  exact ⟨h.1.1, h.1.2, h.2⟩

theorem rtOkElems_cons {v : JSValue} {vs : List JSValue}
    (h : rtOkElems (v :: vs) = true) :
    rtOkV v = true ∧ blockV v = false ∧ rtOkElems vs = true := by
  rw [show rtOkElems (v :: vs) = (rtOkV v && !blockV v && rtOkElems vs) from rfl] at h
  simp only [Bool.and_eq_true, Bool.not_eq_true'] at h
  exact ⟨h.1.1, h.1.2, h.2⟩

theorem goodBlockStr_facts {t : Str} (h : goodBlockStr t = true) :
    t.contains '\n' = true ∧ '\r' ∉ t ∧
    ∀ p ∈ splitNL t, trimJS p ≠ [')'] := by
  unfold goodBlockStr at h
  simp only [Bool.and_eq_true, Bool.not_eq_true', List.all_eq_true,
    decide_eq_true_eq] at h
  exact ⟨h.1.1, by simpa using h.1.2, h.2⟩

theorem nonws_ne_nlcr {c : Char} (h : isJsWs c = false) : c ≠ '\n' ∧ c ≠ '\r' := by
  constructor
  · intro he
    subst he
    exact absurd h (by decide)
  · intro he
    subst he
    exact absurd h (by decide)

theorem vHead_pure {v : JSValue} (hv : rtOkV v = true) :
    '\n' ∉ vHead v ∧ '\r' ∉ vHead v := by
  by_cases hs : scalarV v = true
  · obtain ⟨-, -, -, -, -, -, -, -, h9, h10⟩ := scalar_token_spec hs hv
    exact ⟨h9, h10⟩
  · cases v with
    | null => exact absurd (rfl : scalarV JSValue.null = true) hs
    | bool b => exact absurd (rfl : scalarV (JSValue.bool b) = true) hs
    | num n => exact absurd (rfl : scalarV (JSValue.num n) = true) hs
    | str t =>
        have hnl : t.contains '\n' = true := by
          unfold scalarV at hs
          simpa using hs
        have hnl' : '\n' ∈ t := by simpa using hnl
        rw [show vHead (.str t) = ['('] from by simp [vHead, hnl']]
        exact ⟨by decide, by decide⟩
    | arr es =>
        by_cases he : es = []
        · rw [show vHead (.arr es) = "[]".data from by simp [vHead, he]]
          exact ⟨by decide, by decide⟩
        · rw [show vHead (.arr es) = ['['] from by simp [vHead, he]]
          exact ⟨by decide, by decide⟩
    | obj ps =>
        by_cases he : ps = []
        · rw [show vHead (.obj ps) = "{}".data from by simp [vHead, he]]
          exact ⟨by decide, by decide⟩
        · rw [show vHead (.obj ps) = ['{'] from by simp [vHead, he]]
          exact ⟨by decide, by decide⟩

theorem spaces_pure {w : Str} (hw : ∀ c ∈ w, c = ' ') {c : Char} (hc : c ∈ w) :
    c ≠ '\n' ∧ c ≠ '\r' := by
  rw [hw c hc]
  exact ⟨by decide, by decide⟩

mutual

theorem vBodyL_pure (IS : Str) (hIS : ∀ c ∈ IS, c = ' ') :
    ∀ (v : JSValue) (ind : Str), rtOkV v = true → (∀ c ∈ ind, c = ' ') →
    ∀ l ∈ vBodyL IS v ind, '\n' ∉ l ∧ '\r' ∉ l
  | .null, ind, _, _ => by intro l hl; simp [vBodyL] at hl
  | .bool b, ind, _, _ => by intro l hl; simp [vBodyL] at hl
  | .num n, ind, _, _ => by intro l hl; simp [vBodyL] at hl
  | .str t, ind, hv, hind => by
      intro l hl
      by_cases hnl : t.contains '\n' = true
      · have hnl' : '\n' ∈ t := by simpa using hnl
        rw [show rtOkV (.str t) =
            (if t.contains '\n' then goodBlockStr t else goodScalarStr t) from rfl,
          if_pos hnl] at hv
        obtain ⟨-, hcr, -⟩ := goodBlockStr_facts hv
        rw [show vBodyL IS (.str t) ind =
            (splitNL t).map (fun p => ind ++ IS ++ '|' :: p) ++ [ind ++ [')']] from by
          simp [vBodyL, hnl']] at hl
        rcases List.mem_append.mp hl with hl | hl
        · obtain ⟨p, hp, rfl⟩ := List.mem_map.mp hl
          constructor
        
          · intro hm
            simp only [List.append_assoc, List.mem_append, List.mem_cons] at hm
            rcases hm with hm | hm | hm | hm
            · exact (spaces_pure hind hm).1 rfl
            · exact (spaces_pure hIS hm).1 rfl
            · exact absurd hm.symm (by decide)
            · exact splitNL_no_nl t p hp hm
          · intro hm
            simp only [List.append_assoc, List.mem_append, List.mem_cons] at hm
            rcases hm with hm | hm | hm | hm
            · exact (spaces_pure hind hm).2 rfl
            · exact (spaces_pure hIS hm).2 rfl
            · exact absurd hm.symm (by decide)
            · exact hcr (splitNL_chars t p hp '\r' hm)
        · simp only [List.mem_singleton] at hl
          subst hl
          constructor
        
          · intro hm
            rcases List.mem_append.mp hm with hm | hm
            · exact (spaces_pure hind hm).1 rfl
            · exact absurd (List.mem_singleton.mp hm).symm (by decide)
          · intro hm
            rcases List.mem_append.mp hm with hm | hm
            · exact (spaces_pure hind hm).2 rfl
            · exact absurd (List.mem_singleton.mp hm).symm (by decide)
      · rw [show vBodyL IS (.str t) ind = [] from by
          simp [vBodyL, show '\n' ∉ t from by simpa using hnl]] at hl
        simp at hl
  | .arr es, ind, hv, hind => by
      intro l hl
      obtain ⟨hne, helems⟩ := rtOkV_arr hv
      rw [show vBodyL IS (.arr es) ind =
          elemsLines IS es (ind ++ IS) ++ [ind ++ [']']] from by
        simp [vBodyL, hne]] at hl
      rcases List.mem_append.mp hl with hl | hl
      · exact elemsLines_pure IS hIS es (ind ++ IS) helems
          (by
            intro c hc
            rcases List.mem_append.mp hc with hc | hc
            · exact hind c hc
            · exact hIS c hc) l hl
      · simp only [List.mem_singleton] at hl
        subst hl
        constructor
      
        · intro hm
          rcases List.mem_append.mp hm with hm | hm
          · exact (spaces_pure hind hm).1 rfl
          · exact absurd (List.mem_singleton.mp hm).symm (by decide)
        · intro hm
          rcases List.mem_append.mp hm with hm | hm
          · exact (spaces_pure hind hm).2 rfl
          · exact absurd (List.mem_singleton.mp hm).symm (by decide)
  | .obj ps, ind, hv, hind => by
      intro l hl
      obtain ⟨hne, -, hents⟩ := rtOkV_obj hv
      rw [show vBodyL IS (.obj ps) ind =
          entriesLines IS ps (ind ++ IS) ++ [ind ++ ['}']] from by
        simp [vBodyL, hne]] at hl
      rcases List.mem_append.mp hl with hl | hl
      · exact entriesLines_pure IS hIS ps (ind ++ IS) hents
          (by
            intro c hc
            rcases List.mem_append.mp hc with hc | hc
            · exact hind c hc
            · exact hIS c hc) l hl
      · simp only [List.mem_singleton] at hl
        subst hl
        constructor
      
        · intro hm
          rcases List.mem_append.mp hm with hm | hm
          · exact (spaces_pure hind hm).1 rfl
          · exact absurd (List.mem_singleton.mp hm).symm (by decide)
        · intro hm
          rcases List.mem_append.mp hm with hm | hm
          · exact (spaces_pure hind hm).2 rfl
          · exact absurd (List.mem_singleton.mp hm).symm (by decide)

theorem entriesLines_pure (IS : Str) (hIS : ∀ c ∈ IS, c = ' ') :
    ∀ (ps : List (Str × JSValue)) (ind : Str), rtOkEntries ps = true →
    (∀ c ∈ ind, c = ' ') →
    ∀ l ∈ entriesLines IS ps ind, '\n' ∉ l ∧ '\r' ∉ l
  | [], ind, _, _ => by intro l hl; simp [entriesLines] at hl
  | (k, v) :: ps, ind, hv, hind => by
      intro l hl
      obtain ⟨hk, hvv, hps⟩ := rtOkEntries_cons hv
      obtain ⟨-, -, hkws, -, -, -, -, -⟩ := goodKey_facts hk
      obtain ⟨hh1, hh2⟩ := vHead_pure hvv
      rw [show entriesLines IS ((k, v) :: ps) ind =
          (ind ++ k ++ ':' :: ' ' :: vHead v) ::
            (vBodyL IS v ind ++ entriesLines IS ps ind) from rfl] at hl
      rcases List.mem_cons.mp hl with rfl | hl
      · constructor
      
        · intro hm
          simp only [List.append_assoc, List.mem_append, List.mem_cons] at hm
          rcases hm with hm | hm | hm | hm | hm
          · exact (spaces_pure hind hm).1 rfl
          · exact (nonws_ne_nlcr (hkws _ hm)).1 rfl
          · exact absurd hm.symm (by decide)
          · exact absurd hm.symm (by decide)
          · exact hh1 hm
        · intro hm
          simp only [List.append_assoc, List.mem_append, List.mem_cons] at hm
          rcases hm with hm | hm | hm | hm | hm
          · exact (spaces_pure hind hm).2 rfl
          · exact (nonws_ne_nlcr (hkws _ hm)).2 rfl
          · exact absurd hm.symm (by decide)
          · exact absurd hm.symm (by decide)
          · exact hh2 hm
      · rcases List.mem_append.mp hl with hl | hl
        · exact vBodyL_pure IS hIS v ind hvv hind l hl
        · exact entriesLines_pure IS hIS ps ind hps hind l hl

theorem elemsLines_pure (IS : Str) (hIS : ∀ c ∈ IS, c = ' ') :
    ∀ (es : List JSValue) (ind : Str), rtOkElems es = true →
    (∀ c ∈ ind, c = ' ') →
    ∀ l ∈ elemsLines IS es ind, '\n' ∉ l ∧ '\r' ∉ l
  | [], ind, _, _ => by intro l hl; simp [elemsLines] at hl
  | v :: vs, ind, hv, hind => by
      intro l hl
      obtain ⟨hvv, -, hvs⟩ := rtOkElems_cons hv
      obtain ⟨hh1, hh2⟩ := vHead_pure hvv
      rw [show elemsLines IS (v :: vs) ind =
          (ind ++ vHead v) :: (vBodyL IS v ind ++ elemsLines IS vs ind) from rfl] at hl
      rcases List.mem_cons.mp hl with rfl | hl
      · constructor
      
        · intro hm
          rcases List.mem_append.mp hm with hm | hm
          · exact (spaces_pure hind hm).1 rfl
          · exact hh1 hm
        · intro hm
          rcases List.mem_append.mp hm with hm | hm
          · exact (spaces_pure hind hm).2 rfl
          · exact hh2 hm
      · rcases List.mem_append.mp hl with hl | hl
        · exact vBodyL_pure IS hIS v ind hvv hind l hl
        · exact elemsLines_pure IS hIS vs ind hvs hind l hl

end



/-! #### Folding fresh keys -/

theorem setKey_fresh {acc : List (Str × JSValue)} {k : Str} {v : JSValue}
    (h : k ∉ acc.map Prod.fst) : setKey acc k v = acc ++ [(k, v)] := by
  unfold setKey
  rw [if_neg]
  intro hany
  rw [List.any_eq_true] at hany
  obtain ⟨p, hp, hpk⟩ := hany
  simp only [decide_eq_true_eq] at hpk
  exact h (List.mem_map.mpr ⟨p, hp, hpk⟩)

theorem foldl_setKey_fresh : ∀ (ps : List (Str × JSValue)) (acc : List (Str × JSValue)),
    (ps.map Prod.fst).Nodup → (∀ x ∈ ps.map Prod.fst, x ∉ acc.map Prod.fst) →
    ps.foldl (fun a p => setKey a p.1 p.2) acc = acc ++ ps
  | [], acc, _, _ => by simp
  | (k, v) :: ps, acc, hnd, hdisj => by
      rw [List.foldl_cons]
      rw [show setKey acc (k, v).1 (k, v).2 = acc ++ [(k, v)] from
        setKey_fresh (hdisj k (by simp))]
      rw [List.map_cons, List.nodup_cons] at hnd
      rw [foldl_setKey_fresh ps (acc ++ [(k, v)]) hnd.2 ?_]
      · simp
      · intro x hx
        rw [List.map_append]
        intro hmem
        rcases List.mem_append.mp hmem with hm | hm
        · exact hdisj x (by simp [hx]) hm
        · simp only [List.map_cons, List.map_nil, List.mem_singleton] at hm
          subst hm
          exact hnd.1 hx

theorem foldl_setKey_nil {ps : List (Str × JSValue)}
    (hnd : (ps.map Prod.fst).Nodup) :
    ps.foldl (fun a p => setKey a p.1 p.2) [] = ps := by
  rw [foldl_setKey_fresh ps [] hnd (by simp)]
  rfl



theorem vBodyL_scalar_nil {IS : Str} {v : JSValue} (hs : scalarV v = true)
    (ind : Str) : vBodyL IS v ind = [] := by
  cases v with
  | null => rfl
  | bool b => rfl
  | num n => rfl
  | str t =>
      have hnl : '\n' ∉ t := by
        unfold scalarV at hs
        simpa using hs
      simp [vBodyL, hnl]
  | arr es => exact absurd hs (by simp [scalarV])
  | obj ps => exact absurd hs (by simp [scalarV])

theorem vBodyL_obj {IS : Str} {ps : List (Str × JSValue)} (hne : ps ≠ [])
    (ind : Str) :
    vBodyL IS (.obj ps) ind = entriesLines IS ps (ind ++ IS) ++ [ind ++ ['}']] := by
  simp [vBodyL, hne]

theorem vBodyL_arr {IS : Str} {es : List JSValue} (hne : es ≠ []) (ind : Str) :
    vBodyL IS (.arr es) ind = elemsLines IS es (ind ++ IS) ++ [ind ++ [']']] := by
  simp [vBodyL, hne]

theorem vBodyL_block {IS : Str} {t : Str} (hnl : '\n' ∈ t) (ind : Str) :
    vBodyL IS (.str t) ind =
      (splitNL t).map (fun p => ind ++ IS ++ '|' :: p) ++ [ind ++ [')']] := by
  simp [vBodyL, hnl]

theorem vHead_obj {ps : List (Str × JSValue)} (hne : ps ≠ []) :
    vHead (.obj ps) = ['{'] := by simp [vHead, hne]

theorem vHead_arr {es : List JSValue} (hne : es ≠ []) :
    vHead (.arr es) = ['['] := by simp [vHead, hne]

theorem vHead_block {t : Str} (hnl : '\n' ∈ t) : vHead (.str t) = ['('] := by
  simp [vHead, hnl]

/-- A scalar entry line is consumed in one step, binding the re-read value. -/
theorem mapLoop_entry_scalar {k ind : Str} {v : JSValue} {endc : Option Char}
    (hk : goodKey k = true) (hind : ∀ c ∈ ind, c = ' ')
    (hs : scalarV v = true) (hv : rtOkV v = true)
    (fuel : Nat) (acc : List (Str × JSValue)) (rest : List Str) (i : Nat) :
    mapLoop (fuel + 1) endc acc ((ind ++ (k ++ ':' :: ' ' :: vHead v)) :: rest) i =
      mapLoop fuel endc (setKey acc k v) rest (i + 1) := by
  obtain ⟨htr, hne, -, hhd, hbr, hbk, -, hpv, -, -⟩ := scalar_token_spec hs hv
  rw [mapLoop_entry_reduce hk hind hne htr, if_neg hbr, if_neg hbk, if_neg hhd, hpv]

/-- A scalar element line is consumed in one step, appending the re-read
    value. -/
theorem arrLoop_elem_scalar {ind : Str} {v : JSValue}
    (hind : ∀ c ∈ ind, c = ' ') (hs : scalarV v = true) (hv : rtOkV v = true)
    (fuel : Nat) (acc : List JSValue) (rest : List Str) (i : Nat) :
    arrLoop (fuel + 1) acc ((ind ++ vHead v) :: rest) i =
      arrLoop fuel (acc ++ [v]) rest (i + 1) := by
  obtain ⟨htr, hne, hhash, -, hbr, hbk, hcl, hpv, -, -⟩ := scalar_token_spec hs hv
  rw [arrLoop_elem_reduce hind hne htr hhash hcl, if_neg hbr, if_neg hbk, hpv]



/-- A multi-line-string entry: the text block is consumed and the string
    restored. -/
theorem mapLoop_entry_block {IS k ind t : Str} {endc : Option Char}
    (hIS : ∀ c ∈ IS, c = ' ') (hk : goodKey k = true)
    (hind : ∀ c ∈ ind, c = ' ') (hnl : '\n' ∈ t)
    (fuel : Nat) (acc : List (Str × JSValue)) (rest : List Str) (i : Nat) :
    mapLoop (fuel + 1) endc acc
      ((ind ++ (k ++ ':' :: ' ' :: vHead (.str t))) ::
        (vBodyL IS (.str t) ind ++ rest)) i =
      mapLoop fuel endc (setKey acc k (.str t)) rest
        (i + (1 + (vBodyL IS (.str t) ind).length)) := by
  rw [vHead_block hnl, vBodyL_block hnl]
  obtain ⟨p0, ps, hsp⟩ : ∃ p0 ps, splitNL t = p0 :: ps := by
    cases hs : splitNL t with
    | nil => exact absurd hs (splitNL_ne_nil t)
    | cons a b => exact ⟨a, b, rfl⟩
  rw [hsp]
  rw [mapLoop_entry_reduce hk hind (by simp) (by decide)]
  rw [if_neg (by decide), if_neg (by decide), if_pos (by decide)]
  rw [show ((p0 :: ps).map (fun p => ind ++ IS ++ '|' :: p) ++ [ind ++ [')']]) ++ rest
      = (p0 :: ps).map (fun p => ind ++ IS ++ '|' :: p) ++ ((ind ++ [')']) :: rest)
    from by simp]
  rw [textBlock_block (by
    intro c hc
    rcases List.mem_append.mp hc with hc | hc
    · exact hind c hc
    · exact hIS c hc) hind p0 ps rest (i + 1)]
  rw [show joinNL (p0 :: ps) = t from by rw [← hsp]; exact joinNL_splitNL t]
  rw [show i + 1 + (p0 :: ps).length + 1 =
      i + (1 + ((p0 :: ps).map (fun p => ind ++ IS ++ '|' :: p) ++
        [ind ++ [')']]).length) from by
    simp only [List.length_append, List.length_map, List.length_cons,
      List.length_nil]
    omega]



/-- The master consumption invariant: rendered entries, elements, mapping
    bodies and sequence bodies are re-read to exactly the original values.
    By strong induction on an upper bound `n` for the number of lines. -/
theorem consume (IS : Str) (hIS : ∀ c ∈ IS, c = ' ') : ∀ n : Nat,
    (∀ (k : Str) (v : JSValue) (ind : Str) (rest : List Str)
       (acc : List (Str × JSValue)) (endc : Option Char) (i fuel : Nat),
       goodKey k = true → rtOkV v = true → (∀ c ∈ ind, c = ' ') →
       1 + (vBodyL IS v ind).length + rest.length ≤ n →
       1 + (vBodyL IS v ind).length + rest.length ≤ fuel →
       mapLoop (fuel + 1) endc acc
         ((ind ++ (k ++ ':' :: ' ' :: vHead v)) :: (vBodyL IS v ind ++ rest)) i =
         mapLoop fuel endc (setKey acc k v) rest
           (i + (1 + (vBodyL IS v ind).length))) ∧
    (∀ (v : JSValue) (ind : Str) (rest : List Str)
       (acc : List JSValue) (i fuel : Nat),
       rtOkV v = true → blockV v = false → (∀ c ∈ ind, c = ' ') →
       1 + (vBodyL IS v ind).length + rest.length ≤ n →
       1 + (vBodyL IS v ind).length + rest.length ≤ fuel →
       arrLoop (fuel + 1) acc
         ((ind ++ vHead v) :: (vBodyL IS v ind ++ rest)) i =
         arrLoop fuel (acc ++ [v]) rest (i + (1 + (vBodyL IS v ind).length))) ∧
    (∀ (ps : List (Str × JSValue)) (ind cl : Str) (rest : List Str)
       (acc : List (Str × JSValue)) (i fuel : Nat),
       rtOkEntries ps = true → (∀ c ∈ ind, c = ' ') → trimJS cl = ['}'] →
       (entriesLines IS ps ind).length + 1 + rest.length ≤ n →
       (entriesLines IS ps ind).length + 1 + rest.length ≤ fuel →
       mapLoop (fuel + 1) (some '}') acc (entriesLines IS ps ind ++ cl :: rest) i =
         .ok (.obj (ps.foldl (fun a p => setKey a p.1 p.2) acc), rest,
           i + (entriesLines IS ps ind).length + 1)) ∧
    (∀ (es : List JSValue) (ind cl : Str) (rest : List Str)
       (acc : List JSValue) (i fuel : Nat),
       rtOkElems es = true → (∀ c ∈ ind, c = ' ') → trimJS cl = [']'] →
       (elemsLines IS es ind).length + 1 + rest.length ≤ n →
       (elemsLines IS es ind).length + 1 + rest.length ≤ fuel →
       arrLoop (fuel + 1) acc (elemsLines IS es ind ++ cl :: rest) i =
         .ok (.arr (acc ++ es), rest, i + (elemsLines IS es ind).length + 1)) ∧
    (∀ (ps : List (Str × JSValue)) (ind : Str)
       (acc : List (Str × JSValue)) (i fuel : Nat),
       rtOkEntries ps = true → (∀ c ∈ ind, c = ' ') →
       (entriesLines IS ps ind).length ≤ n →
       (entriesLines IS ps ind).length ≤ fuel →
       mapLoop (fuel + 1) none acc (entriesLines IS ps ind) i =
         .ok (.obj (ps.foldl (fun a p => setKey a p.1 p.2) acc), [],
           i + (entriesLines IS ps ind).length)) := by
  intro n
  induction n using Nat.strong_induction_on with
  | _ n ih =>
  have hCE : ∀ (k : Str) (v : JSValue) (ind : Str) (rest : List Str)
      (acc : List (Str × JSValue)) (endc : Option Char) (i fuel : Nat),
      goodKey k = true → rtOkV v = true → (∀ c ∈ ind, c = ' ') →
      1 + (vBodyL IS v ind).length + rest.length ≤ n →
      1 + (vBodyL IS v ind).length + rest.length ≤ fuel →
      mapLoop (fuel + 1) endc acc
        ((ind ++ (k ++ ':' :: ' ' :: vHead v)) :: (vBodyL IS v ind ++ rest)) i =
        mapLoop fuel endc (setKey acc k v) rest
          (i + (1 + (vBodyL IS v ind).length)) := by
    intro k v ind rest acc endc i fuel hk hv hind hn hfuel
    by_cases hs : scalarV v = true
    · rw [vBodyL_scalar_nil hs]
      simp only [List.length_nil, List.nil_append, Nat.add_zero]
      exact mapLoop_entry_scalar hk hind hs hv fuel acc rest i
    · cases v with
      | null => exact absurd (rfl : scalarV JSValue.null = true) hs
      | bool b => exact absurd (rfl : scalarV (JSValue.bool b) = true) hs
      | num m => exact absurd (rfl : scalarV (JSValue.num m) = true) hs
      | str t =>
          have hnl : '\n' ∈ t := by
            unfold scalarV at hs
            simpa using hs
          exact mapLoop_entry_block hIS hk hind hnl fuel acc rest i
      | obj ps =>
          obtain ⟨hne, hnd, hents⟩ := rtOkV_obj hv
          rw [vBodyL_obj hne] at hn hfuel
          rw [vHead_obj hne, vBodyL_obj hne]
          simp only [List.length_append, List.length_cons, List.length_nil]
            at hn hfuel
          obtain ⟨f2, rfl⟩ : ∃ f2, fuel = f2 + 1 := ⟨fuel - 1, by omega⟩
          rw [show (entriesLines IS ps (ind ++ IS) ++ [ind ++ ['}']]) ++ rest =
              entriesLines IS ps (ind ++ IS) ++ ((ind ++ ['}']) :: rest) from by
            simp]
          rw [mapLoop_entry_reduce hk hind (by simp) (by decide)]
          rw [if_pos rfl]
          have hindIS : ∀ c ∈ ind ++ IS, c = ' ' := by
            intro c hc
            rcases List.mem_append.mp hc with hc | hc
            · exact hind c hc
            · exact hIS c hc
          have hclose : trimJS (ind ++ ['}']) = ['}'] := by
            rw [trimJS_ws_append (spaces_ws hind)]
            decide
          have hinner := (ih (n - 1) (by omega)).2.2.1 ps (ind ++ IS)
            (ind ++ ['}']) rest [] (i + 1) f2 hents hindIS hclose
            (by omega) (by omega)
          have hinner2 : mapLoop (f2 + 1) (some '}') []
              (entriesLines IS ps (ind ++ IS) ++ (ind ++ ['}']) :: rest) (i + 1) =
              .ok (.obj ps, rest,
                i + (1 + (entriesLines IS ps (ind ++ IS) ++
                  [ind ++ ['}']]).length)) := by
            rw [hinner, foldl_setKey_nil hnd]
            simp only [Except.ok.injEq, Prod.mk.injEq, List.length_append,
              List.length_cons, List.length_nil]
            refine ⟨trivial, trivial, ?_⟩
            omega
          rw [hinner2]
      | arr es =>
          obtain ⟨hne, helems⟩ := rtOkV_arr hv
          rw [vBodyL_arr hne] at hn hfuel
          rw [vHead_arr hne, vBodyL_arr hne]
          simp only [List.length_append, List.length_cons, List.length_nil]
            at hn hfuel
          obtain ⟨f2, rfl⟩ : ∃ f2, fuel = f2 + 1 := ⟨fuel - 1, by omega⟩
          rw [show (elemsLines IS es (ind ++ IS) ++ [ind ++ [']']]) ++ rest =
              elemsLines IS es (ind ++ IS) ++ ((ind ++ [']']) :: rest) from by
            simp]
          rw [mapLoop_entry_reduce hk hind (by simp) (by decide)]
          rw [if_neg (by decide), if_pos rfl]
          have hindIS : ∀ c ∈ ind ++ IS, c = ' ' := by
            intro c hc
            rcases List.mem_append.mp hc with hc | hc
            · exact hind c hc
            · exact hIS c hc
          have hclose : trimJS (ind ++ [']']) = [']'] := by
            rw [trimJS_ws_append (spaces_ws hind)]
            decide
          have hinner := (ih (n - 1) (by omega)).2.2.2.1 es (ind ++ IS)
            (ind ++ [']']) rest [] (i + 1) f2 helems hindIS hclose
            (by omega) (by omega)
          have hinner2 : arrLoop (f2 + 1) []
              (elemsLines IS es (ind ++ IS) ++ (ind ++ [']']) :: rest) (i + 1) =
              .ok (.arr es, rest,
                i + (1 + (elemsLines IS es (ind ++ IS) ++
                  [ind ++ [']']]).length)) := by
            rw [hinner]
            simp only [Except.ok.injEq, Prod.mk.injEq, List.nil_append,
              List.length_append, List.length_cons, List.length_nil]
            refine ⟨trivial, trivial, ?_⟩
            omega
          rw [hinner2]
  have hCEl : ∀ (v : JSValue) (ind : Str) (rest : List Str)
      (acc : List JSValue) (i fuel : Nat),
      rtOkV v = true → blockV v = false → (∀ c ∈ ind, c = ' ') →
      1 + (vBodyL IS v ind).length + rest.length ≤ n →
      1 + (vBodyL IS v ind).length + rest.length ≤ fuel →
      arrLoop (fuel + 1) acc
        ((ind ++ vHead v) :: (vBodyL IS v ind ++ rest)) i =
        arrLoop fuel (acc ++ [v]) rest (i + (1 + (vBodyL IS v ind).length)) := by
    intro v ind rest acc i fuel hv hbl hind hn hfuel
    by_cases hs : scalarV v = true
    · rw [vBodyL_scalar_nil hs]
      simp only [List.length_nil, List.nil_append, Nat.add_zero]
      exact arrLoop_elem_scalar hind hs hv fuel acc rest i
    · cases v with
      | null => exact absurd (rfl : scalarV JSValue.null = true) hs
      | bool b => exact absurd (rfl : scalarV (JSValue.bool b) = true) hs
      | num m => exact absurd (rfl : scalarV (JSValue.num m) = true) hs
      | str t =>
          have hnl : t.contains '\n' = true := by
            unfold scalarV at hs
            simpa using hs
          rw [show blockV (.str t) = t.contains '\n' from rfl, hnl] at hbl
          exact absurd hbl (by simp)
      | obj ps =>
          obtain ⟨hne, hnd, hents⟩ := rtOkV_obj hv
          rw [vBodyL_obj hne] at hn hfuel
          rw [vHead_obj hne, vBodyL_obj hne]
          simp only [List.length_append, List.length_cons, List.length_nil]
            at hn hfuel
          obtain ⟨f2, rfl⟩ : ∃ f2, fuel = f2 + 1 := ⟨fuel - 1, by omega⟩
          rw [show (entriesLines IS ps (ind ++ IS) ++ [ind ++ ['}']]) ++ rest =
              entriesLines IS ps (ind ++ IS) ++ ((ind ++ ['}']) :: rest) from by
            simp]
          rw [arrLoop_elem_reduce hind (by simp) (by decide) (by decide) (by decide)]
          rw [if_pos rfl]
          have hindIS : ∀ c ∈ ind ++ IS, c = ' ' := by
            intro c hc
            rcases List.mem_append.mp hc with hc | hc
            · exact hind c hc
            · exact hIS c hc
          have hclose : trimJS (ind ++ ['}']) = ['}'] := by
            rw [trimJS_ws_append (spaces_ws hind)]
            decide
          have hinner := (ih (n - 1) (by omega)).2.2.1 ps (ind ++ IS)
            (ind ++ ['}']) rest [] (i + 1) f2 hents hindIS hclose
            (by omega) (by omega)
          have hinner2 : mapLoop (f2 + 1) (some '}') []
              (entriesLines IS ps (ind ++ IS) ++ (ind ++ ['}']) :: rest) (i + 1) =
              .ok (.obj ps, rest,
                i + (1 + (entriesLines IS ps (ind ++ IS) ++
                  [ind ++ ['}']]).length)) := by
            rw [hinner, foldl_setKey_nil hnd]
            simp only [Except.ok.injEq, Prod.mk.injEq, List.length_append,
              List.length_cons, List.length_nil]
            refine ⟨trivial, trivial, ?_⟩
            omega
          rw [hinner2]
      | arr es =>
          obtain ⟨hne, helems⟩ := rtOkV_arr hv
          rw [vBodyL_arr hne] at hn hfuel
          rw [vHead_arr hne, vBodyL_arr hne]
          simp only [List.length_append, List.length_cons, List.length_nil]
            at hn hfuel
          obtain ⟨f2, rfl⟩ : ∃ f2, fuel = f2 + 1 := ⟨fuel - 1, by omega⟩
          rw [show (elemsLines IS es (ind ++ IS) ++ [ind ++ [']']]) ++ rest =
              elemsLines IS es (ind ++ IS) ++ ((ind ++ [']']) :: rest) from by
            simp]
          rw [arrLoop_elem_reduce hind (by simp) (by decide) (by decide) (by decide)]
          rw [if_neg (by decide), if_pos rfl]
          have hindIS : ∀ c ∈ ind ++ IS, c = ' ' := by
            intro c hc
            rcases List.mem_append.mp hc with hc | hc
            · exact hind c hc
            · exact hIS c hc
          have hclose : trimJS (ind ++ [']']) = [']'] := by
            rw [trimJS_ws_append (spaces_ws hind)]
            decide
          have hinner := (ih (n - 1) (by omega)).2.2.2.1 es (ind ++ IS)
            (ind ++ [']']) rest [] (i + 1) f2 helems hindIS hclose
            (by omega) (by omega)
          have hinner2 : arrLoop (f2 + 1) []
              (elemsLines IS es (ind ++ IS) ++ (ind ++ [']']) :: rest) (i + 1) =
              .ok (.arr es, rest,
                i + (1 + (elemsLines IS es (ind ++ IS) ++
                  [ind ++ [']']]).length)) := by
            rw [hinner]
            simp only [Except.ok.injEq, Prod.mk.injEq, List.nil_append,
              List.length_append, List.length_cons, List.length_nil]
            refine ⟨trivial, trivial, ?_⟩
            omega
          rw [hinner2]
  have hCM : ∀ (ps : List (Str × JSValue)) (ind cl : Str) (rest : List Str)
      (acc : List (Str × JSValue)) (i fuel : Nat),
      rtOkEntries ps = true → (∀ c ∈ ind, c = ' ') → trimJS cl = ['}'] →
      (entriesLines IS ps ind).length + 1 + rest.length ≤ n →
      (entriesLines IS ps ind).length + 1 + rest.length ≤ fuel →
      mapLoop (fuel + 1) (some '}') acc (entriesLines IS ps ind ++ cl :: rest) i =
        .ok (.obj (ps.foldl (fun a p => setKey a p.1 p.2) acc), rest,
          i + (entriesLines IS ps ind).length + 1) := by
    intro ps ind cl rest acc i fuel hps hind hcl hn hfuel
    cases ps with
    | nil =>
        simp only [entriesLines, List.length_nil, List.nil_append]
        simp only [mapLoop, hcl]
        rw [if_neg (by decide), if_pos (by decide)]
        simp only [List.foldl_nil, Except.ok.injEq, Prod.mk.injEq]
    | cons p ps' =>
        obtain ⟨k, v⟩ := p
        obtain ⟨hk, hvv, hps'⟩ := rtOkEntries_cons hps
        rw [show entriesLines IS ((k, v) :: ps') ind =
            (ind ++ k ++ ':' :: ' ' :: vHead v) ::
              (vBodyL IS v ind ++ entriesLines IS ps' ind) from rfl] at hn hfuel ⊢
        simp only [List.length_cons, List.length_append] at hn hfuel
        obtain ⟨f2, rfl⟩ : ∃ f2, fuel = f2 + 1 := ⟨fuel - 1, by omega⟩
        rw [List.cons_append, List.append_assoc, List.append_assoc]
        rw [hCE k v ind (entriesLines IS ps' ind ++ cl :: rest) acc (some '}')
          i (f2 + 1) hk hvv hind
          (by simp only [List.length_append, List.length_cons]; omega)
          (by simp only [List.length_append, List.length_cons]; omega)]
        rw [(ih (n - 1) (by omega)).2.2.1 ps' ind cl rest (setKey acc k v)
          (i + (1 + (vBodyL IS v ind).length)) f2 hps' hind hcl
          (by omega) (by omega)]
        simp only [List.foldl_cons, Except.ok.injEq, Prod.mk.injEq,
          List.length_cons, List.length_append]
        refine ⟨trivial, trivial, ?_⟩
        omega
  have hCA : ∀ (es : List JSValue) (ind cl : Str) (rest : List Str)
      (acc : List JSValue) (i fuel : Nat),
      rtOkElems es = true → (∀ c ∈ ind, c = ' ') → trimJS cl = [']'] →
      (elemsLines IS es ind).length + 1 + rest.length ≤ n →
      (elemsLines IS es ind).length + 1 + rest.length ≤ fuel →
      arrLoop (fuel + 1) acc (elemsLines IS es ind ++ cl :: rest) i =
        .ok (.arr (acc ++ es), rest, i + (elemsLines IS es ind).length + 1) := by
    intro es ind cl rest acc i fuel hes hind hcl hn hfuel
    cases es with
    | nil =>
        simp only [elemsLines, List.length_nil, List.nil_append]
        simp only [arrLoop, hcl]
        rw [if_neg (by decide)]
        simp
    | cons v vs =>
        obtain ⟨hvv, hbl, hvs⟩ := rtOkElems_cons hes
        rw [show elemsLines IS (v :: vs) ind =
            (ind ++ vHead v) :: (vBodyL IS v ind ++ elemsLines IS vs ind) from
          rfl] at hn hfuel ⊢
        simp only [List.length_cons, List.length_append] at hn hfuel
        obtain ⟨f2, rfl⟩ : ∃ f2, fuel = f2 + 1 := ⟨fuel - 1, by omega⟩
        rw [List.cons_append, List.append_assoc]
        rw [hCEl v ind (elemsLines IS vs ind ++ cl :: rest) acc
          i (f2 + 1) hvv hbl hind
          (by simp only [List.length_append, List.length_cons]; omega)
          (by simp only [List.length_append, List.length_cons]; omega)]
        rw [(ih (n - 1) (by omega)).2.2.2.1 vs ind cl rest (acc ++ [v])
          (i + (1 + (vBodyL IS v ind).length)) f2 hvs hind hcl
          (by omega) (by omega)]
        simp only [List.append_assoc, List.singleton_append, Except.ok.injEq,
          Prod.mk.injEq, List.length_cons, List.length_append]
        refine ⟨trivial, trivial, ?_⟩
        omega
  have hCR : ∀ (ps : List (Str × JSValue)) (ind : Str)
      (acc : List (Str × JSValue)) (i fuel : Nat),
      rtOkEntries ps = true → (∀ c ∈ ind, c = ' ') →
      (entriesLines IS ps ind).length ≤ n →
      (entriesLines IS ps ind).length ≤ fuel →
      mapLoop (fuel + 1) none acc (entriesLines IS ps ind) i =
        .ok (.obj (ps.foldl (fun a p => setKey a p.1 p.2) acc), [],
          i + (entriesLines IS ps ind).length) := by
    intro ps ind acc i fuel hps hind hn hfuel
    cases ps with
    | nil =>
        simp only [entriesLines, List.length_nil]
        simp only [mapLoop, List.foldl_nil, Nat.add_zero]
    | cons p ps' =>
        obtain ⟨k, v⟩ := p
        obtain ⟨hk, hvv, hps'⟩ := rtOkEntries_cons hps
        rw [show entriesLines IS ((k, v) :: ps') ind =
            (ind ++ k ++ ':' :: ' ' :: vHead v) ::
              (vBodyL IS v ind ++ entriesLines IS ps' ind) from rfl] at hn hfuel ⊢
        simp only [List.length_cons, List.length_append] at hn hfuel
        obtain ⟨f2, rfl⟩ : ∃ f2, fuel = f2 + 1 := ⟨fuel - 1, by omega⟩
        rw [List.append_assoc]
        have := hCE k v ind (entriesLines IS ps' ind) acc none
          i (f2 + 1) hk hvv hind (by omega) (by omega)
        rw [this]
        rw [(ih (n - 1) (by omega)).2.2.2.2 ps' ind (setKey acc k v)
          (i + (1 + (vBodyL IS v ind).length)) f2 hps' hind
          (by omega) (by omega)]
        simp only [List.foldl_cons, Except.ok.injEq, Prod.mk.injEq,
          List.length_cons, List.length_append]
        refine ⟨trivial, trivial, ?_⟩
        omega
  exact ⟨hCE, hCEl, hCM, hCA, hCR⟩



theorem rootEntries_eq (IS : Str) : ∀ ps : List (Str × JSValue),
    rootEntries IS ps = stringifyEntries IS ps []
  | [] => rfl
  | (k, v) :: ps => by
      rw [show rootEntries IS ((k, v) :: ps) =
          (k ++ ':' :: ' ' :: stringifyValue IS v []) :: rootEntries IS ps from rfl]
      rw [show stringifyEntries IS ((k, v) :: ps) [] =
          (([] : Str) ++ k ++ ':' :: ' ' :: stringifyValue IS v []) ::
            stringifyEntries IS ps [] from rfl]
      rw [rootEntries_eq IS ps]
      rfl

theorem vHead_ne_trim {v : JSValue} (hv : rtOkV v = true) :
    vHead v ≠ [] ∧ trimJS (vHead v) = vHead v := by
  by_cases hs : scalarV v = true
  · obtain ⟨h1, h2, -, -, -, -, -, -, -, -⟩ := scalar_token_spec hs hv
    exact ⟨h2, h1⟩
  · cases v with
    | null => exact absurd (rfl : scalarV JSValue.null = true) hs
    | bool b => exact absurd (rfl : scalarV (JSValue.bool b) = true) hs
    | num m => exact absurd (rfl : scalarV (JSValue.num m) = true) hs
    | str t =>
        have hnl : '\n' ∈ t := by
          unfold scalarV at hs
          simpa using hs
        rw [vHead_block hnl]
        exact ⟨by decide, by decide⟩
    | arr es =>
        by_cases he : es = []
        · rw [show vHead (.arr es) = "[]".data from by simp [vHead, he]]
          exact ⟨by decide, by decide⟩
        · rw [vHead_arr he]
          exact ⟨by decide, by decide⟩
    | obj ps =>
        by_cases he : ps = []
        · rw [show vHead (.obj ps) = "{}".data from by simp [vHead, he]]
          exact ⟨by decide, by decide⟩
        · rw [vHead_obj he]
          exact ⟨by decide, by decide⟩

theorem rtRoot_obj {ps : List (Str × JSValue)} (h : rtRoot (.obj ps) = true) :
    (ps.map Prod.fst).Nodup ∧ rtOkEntries ps = true := by
  rw [show rtRoot (.obj ps) =
      (decide ((ps.map Prod.fst).Nodup) && rtOkEntries ps) from rfl] at h
  simp only [Bool.and_eq_true, decide_eq_true_eq] at h
  exact h

theorem rtRoot_arr {es : List JSValue} (h : rtRoot (.arr es) = true) :
    rtOkElems es = true := h



/-- Round trip for a nonempty Mapping root. -/
theorem parse_root_obj {ps : List (Str × JSValue)}
    (hnd : (ps.map Prod.fst).Nodup) (hents : rtOkEntries ps = true)
    (hne : ps ≠ []) :
    APON_parse (stringifyDoc "  ".data (.obj ps)) = .ok (.obj ps) := by
  have hIS2 : ∀ c ∈ ("  ".data : Str), c = ' ' := by decide
  obtain ⟨p0, ps', rfl⟩ : ∃ p0 ps', ps = p0 :: ps' := by
    cases ps with
    | nil => exact absurd rfl hne
    | cons a b => exact ⟨a, b, rfl⟩
  obtain ⟨k, v⟩ := p0
  obtain ⟨hk, hvv, hents'⟩ := rtOkEntries_cons hents
  obtain ⟨hkne, hktr, hkws, -, -, -, hkhash, -⟩ := goodKey_facts hk
  obtain ⟨htokne, htoktr⟩ := vHead_ne_trim hvv
  have hdoc : stringifyDoc "  ".data (.obj ((k, v) :: ps')) =
      joinNL (entriesLines "  ".data ((k, v) :: ps') []) := by
    rw [show stringifyDoc "  ".data (.obj ((k, v) :: ps')) =
        joinNL (rootEntries "  ".data ((k, v) :: ps')) from rfl]
    rw [rootEntries_eq]
    exact stringifyEntries_lines "  ".data _ [] (by simp)
  have hL : entriesLines "  ".data ((k, v) :: ps') [] =
      (([] : Str) ++ (k ++ ':' :: ' ' :: vHead v)) ::
        (vBodyL "  ".data v [] ++ entriesLines "  ".data ps' []) := by
    rw [show entriesLines "  ".data ((k, v) :: ps') [] =
        (([] : Str) ++ k ++ ':' :: ' ' :: vHead v) ::
          (vBodyL "  ".data v [] ++ entriesLines "  ".data ps' []) from rfl,
      List.append_assoc]
  have hpure := entriesLines_pure "  ".data hIS2 ((k, v) :: ps') [] hents
    (by simp)
  have htrim : trimJS (([] : Str) ++ (k ++ ':' :: ' ' :: vHead v)) =
      k ++ ':' :: ' ' :: vHead v :=
    entry_trim hk (by simp) htokne htoktr
  obtain ⟨c0, k', rfl⟩ : ∃ c0 k', k = c0 :: k' := by
    cases k with
    | nil => exact absurd rfl hkne
    | cons a b => exact ⟨a, b, rfl⟩
  have hlen4 : ∀ w : Str, w.length ≤ 3 →
      trimJS (([] : Str) ++ (c0 :: k' ++ ':' :: ' ' :: vHead v)) ≠ w := by
    intro w hw habs
    rw [htrim] at habs
    have hc := congrArg List.length habs
    have ht1 : 1 ≤ (vHead v).length := List.length_pos.mpr htokne
    simp only [List.length_append, List.length_cons] at hc
    omega
  have hsig : trimJS (([] : Str) ++ (c0 :: k' ++ ':' :: ' ' :: vHead v)) ≠ [] ∧
      (trimJS (([] : Str) ++ (c0 :: k' ++ ':' :: ' ' :: vHead v))).head? ≠
        some '#' := by
    rw [htrim]
    constructor
  
    · simp
    · rw [List.cons_append, List.head?_cons]
      intro habs
      injection habs with habs
      exact hkhash (habs ▸ List.mem_cons_self _ _)
  rw [hdoc, hL]
  rw [parse_entry_root _ _
    (hpure _ (by rw [hL]; exact List.mem_cons_self _ _))
    (fun l hl => hpure l (by rw [hL]; exact List.mem_cons_of_mem _ hl))
    hsig
    ⟨hlen4 _ (by decide), hlen4 _ (by decide), hlen4 _ (by decide),
      hlen4 _ (by decide)⟩
    ⟨c0, by simp, hkws c0 (List.mem_cons_self _ _)⟩]
  rw [← hL]
  rw [(consume "  ".data hIS2
      (entriesLines "  ".data ((c0 :: k', v) :: ps') []).length).2.2.2.2
    ((c0 :: k', v) :: ps') [] [] 0
    (entriesLines "  ".data ((c0 :: k', v) :: ps') []).length hents (by simp)
    (le_refl _) (le_refl _)]
  rw [foldl_setKey_nil hnd]
  rfl

/-- Round trip for a nonempty Sequence root. -/
theorem parse_root_arr {es : List JSValue} (helems : rtOkElems es = true)
    (hne : es ≠ []) :
    APON_parse (stringifyDoc "  ".data (.arr es)) = .ok (.arr es) := by
  have hIS2 : ∀ c ∈ ("  ".data : Str), c = ' ' := by decide
  have hdoc : stringifyDoc "  ".data (.arr es) =
      joinNL (['['] :: (elemsLines "  ".data es "  ".data ++ [[']']])) := by
    rw [show stringifyDoc "  ".data (.arr es) =
        stringifyValue "  ".data (.arr es) [] from rfl]
    rw [stringifyValue_lines, vHead_arr hne, vBodyL_arr hne]
    simp only [List.nil_append]
  have hlines : splitLinesJS (stringifyDoc "  ".data (.arr es)) =
      ['['] :: (elemsLines "  ".data es "  ".data ++ [[']']]) := by
    rw [hdoc]
    apply splitLinesJS_joinNL (by simp)
    intro l hl
    rcases List.mem_cons.mp hl with rfl | hl
    · exact ⟨by decide, by decide⟩
    · rcases List.mem_append.mp hl with hl | hl
      · exact elemsLines_pure "  ".data hIS2 es "  ".data helems hIS2 l hl
      · rw [List.mem_singleton.mp hl]
        exact ⟨by decide, by decide⟩
  have htrim : trimJS (stringifyDoc "  ".data (.arr es)) ≠ [] := by
    rw [hdoc]
    exact trimJS_ne_nil (joinNL_chars (List.mem_cons_self _ _) '[' (by decide))
      (by decide)
  unfold APON_parse
  rw [if_neg htrim]
  simp only [hlines,
    firstSig_cons (show trimJS (['['] : Str) ≠ [] ∧
      (trimJS (['['] : Str)).head? ≠ some '#' from by decide),
    show trimJS (['['] : Str) = ['['] from by decide]
  rw [if_pos trivial]
  have hIS2' : ∀ c ∈ ([' ', ' '] : Str), c = ' ' := by decide
  rw [show (0 : Nat) + 1 = 1 from rfl]
  rw [show List.drop 1 (['['] :: (elemsLines [' ', ' '] es [' ', ' '] ++ [[']']])) =
      elemsLines [' ', ' '] es [' ', ' '] ++ [[']']] from rfl]
  rw [(consume [' ', ' '] hIS2'
      (['['] :: (elemsLines [' ', ' '] es [' ', ' '] ++ [[']']])).length).2.2.2.1
    es [' ', ' '] [']'] [] [] 1
    (['['] :: (elemsLines [' ', ' '] es [' ', ' '] ++ [[']']])).length
    helems hIS2' (by decide)
    (by simp only [List.length_cons, List.length_append, List.length_nil]; omega)
    (by simp only [List.length_cons, List.length_append, List.length_nil]; omega)]
  rfl

/-- **C1 counterexample**: the Mapping `\x7ba: []\x7d` — a Mapping root built
    only from standard nodes, with no string needing any escape and no
    numeric-looking string — stringifies to the document `a: []`, and parsing
    that document yields the String `"[]"` for `a`, not the empty Sequence:
    `parse(stringify(v)) ≠ v`. -/
theorem round_trip_cex :
    APON_stringify (.obj [("a".data, .arr [])]) = .ok "a: []".data ∧
    APON_parse "a: []".data = .ok (.obj [("a".data, .str "[]".data)]) ∧
    JSValue.str "[]".data ≠ JSValue.arr [] := by decide

/-- **C1 (amended)**: for every value `v` accepted by `rtRoot` — the root is a
    Mapping with distinct names (possibly empty) or a Sequence; nested
    Mappings and Sequences are nonempty; names are nonempty and contain no
    whitespace and none of `:`, `(`, `)`, `#`, `\x7b`, `\x7d`, `[`, `]`, `|`,
    `"`, `'`, `\`; Numbers are integer-valued with magnitude below `2^53`;
    strings contain no carriage return and no backslash immediately followed
    by `n` or `t`; multi-line strings appear only as mapping values — the
    serializer succeeds and `parse(stringify(v)) = v`. -/
theorem round_trip (v : JSValue) (hv : rtRoot v = true) :
    APON_stringify v = .ok (stringifyDoc "  ".data v) ∧
    APON_parse (stringifyDoc "  ".data v) = .ok v := by
  cases v with
  | null => exact Bool.noConfusion hv
  | bool b => exact Bool.noConfusion hv
  | num n => exact Bool.noConfusion hv
  | str s => exact Bool.noConfusion hv
  | obj ps =>
      obtain ⟨hnd, hents⟩ := rtRoot_obj hv
      refine ⟨rfl, ?_⟩
      by_cases he : ps = []
      · subst he
        decide
      · exact parse_root_obj hnd hents he
  | arr es =>
      have hels := rtRoot_arr hv
      refine ⟨rfl, ?_⟩
      by_cases he : es = []
      · subst he
        decide
      · exact parse_root_arr hels he

/-- **C1 witness**: the amended round trip at a concrete document with a
    Number, a nested Mapping holding a quoted string, a nested Sequence, and
    a multi-line string rendered as a text block. -/
theorem round_trip_witness :
    rtRoot (JSValue.obj [("a".data, .num (.num 1)),
      ("b".data, .obj [("c".data, .str "x y".data)]),
      ("d".data, .arr [.num (.num 2), .bool true]),
      ("e".data, .str "l1\nl2".data)]) = true ∧
    (APON_stringify (JSValue.obj [("a".data, .num (.num 1)),
        ("b".data, .obj [("c".data, .str "x y".data)]),
        ("d".data, .arr [.num (.num 2), .bool true]),
        ("e".data, .str "l1\nl2".data)]) =
      .ok (stringifyDoc "  ".data (JSValue.obj [("a".data, .num (.num 1)),
        ("b".data, .obj [("c".data, .str "x y".data)]),
        ("d".data, .arr [.num (.num 2), .bool true]),
        ("e".data, .str "l1\nl2".data)])) ∧
     APON_parse (stringifyDoc "  ".data (JSValue.obj [("a".data, .num (.num 1)),
        ("b".data, .obj [("c".data, .str "x y".data)]),
        ("d".data, .arr [.num (.num 2), .bool true]),
        ("e".data, .str "l1\nl2".data)])) =
      .ok (JSValue.obj [("a".data, .num (.num 1)),
        ("b".data, .obj [("c".data, .str "x y".data)]),
        ("d".data, .arr [.num (.num 2), .bool true]),
        ("e".data, .str "l1\nl2".data)])) :=
  ⟨by decide, round_trip _ (by decide)⟩


end Apon
